import Mathlib

/-! Family-tree assembly: the function `buildTree` of `scripts/inspectTree.js`.

A shallow embedding of `buildTree` and the properties of the forest it returns.
The rendering components `components/FamilyTree.jsx` and `components/FamilyTree.old.jsx`
have a `buildTree` of their own, embedded after the notions for the script.

Representation choices, all read off the source:

* An insertion-ordered JavaScript `Map` with string keys is an association list
  (`mapGet`, `mapSet`); `set` on an existing key replaces the value in place and keeps
  the position, `set` on a new key appends.
* Objects stored in `memberMap` are `Node`s.  An object reference (an element of
  `children`, of `spouses`, of `rootNodes`) is represented by the `id` of the object it
  points to; every object of `memberMap` is registered under its own `id`
  (`KeyIsId`), so the reference determines the object.
* Mutating an object obtained with `memberMap.get(k)` is `mapModify` at key `k`.
* A field that may be absent (`_childIds` after `delete`, `nodeType` and `spouses`
  of a plain record) is an `Option`.
* The `spouses` of a family unit are the ids of the two objects of the pair found
  when the unit is allocated.
* Input records carry the fields `id`, `name`, `spouseId`, `children`; the remaining
  display attributes (bio, dates, image, role, status) are copied by the object spread
  and never read by `buildTree`.  The fields `nodeType` and `spouses` are not part of
  the input format: a record copy has none.
-/

namespace KoderoTree

/-! ## JavaScript values in id positions -/

/-- A JavaScript value as it occurs in the `id`, `name`, `spouseId` positions of a
record and as an element of `children`: absent (`undefined`), `null`, an integer
number, or a string. -/
inductive JsVal where
  | undefined : JsVal
  | null : JsVal
  | num (n : Int) : JsVal
  | str (s : String) : JsVal
  deriving DecidableEq, Repr

/-- The coercion `String(v)`.  For an integer number this is its decimal numeral
(numbers that are not integers, and integers from `10 ^ 21` on, whose string form is
exponential, are outside `JsVal`). -/
def JsVal.toStr : JsVal → String
  | .undefined => "undefined"
  | .null => "null"
  | .num n => toString n
  | .str s => s

/-- JavaScript truthiness, as used by `pA.spouseId ? ... : null`. -/
def JsVal.truthy : JsVal → Bool
  | .undefined => false
  | .null => false
  | .num n => n != 0
  | .str s => s != ""

/-! ## Records and nodes -/

/-- An input record.  `children = none` is an absent (or `null`) `children` field. -/
structure Member where
  id : JsVal
  name : JsVal := .undefined
  spouseId : JsVal := .undefined
  children : Option (List JsVal) := none
  deriving DecidableEq, Repr

/-- An object of `memberMap`: a copied record or a synthesized family unit. -/
structure Node where
  id : String
  name : JsVal
  spouseId : JsVal
  nodeType : Option String
  spouses : Option (String × String)
  children : List String
  _childIds : Option (List String)
  deriving DecidableEq, Repr

/-- The value of `buildTree`: the lookup and the roots (as references). -/
structure Forest where
  memberMap : List (String × Node)
  rootNodes : List String
  deriving DecidableEq, Repr

/-! ## Insertion-ordered maps -/

/-- The call `map.get(key)`; `none` is `undefined`. -/
def mapGet {α : Type} : List (String × α) → String → Option α
  | [], _ => none
  | (k, v) :: rest, key => if k = key then some v else mapGet rest key

/-- The call `map.set(key, v)`. -/
def mapSet {α : Type} : List (String × α) → String → α → List (String × α)
  | [], key, v => [(key, v)]
  | (k, x) :: rest, key, v =>
    if k = key then (k, v) :: rest else (k, x) :: mapSet rest key v

/-- In-place mutation of the object registered under `key`. -/
def mapModify {α : Type} : List (String × α) → String → (α → α) → List (String × α)
  | [], _, _ => []
  | (k, x) :: rest, key, f =>
    if k = key then (k, f x) :: rest else (k, x) :: mapModify rest key f

/-- The keys of a map, in iteration order. -/
def mapKeys {α : Type} (m : List (String × α)) : List String := m.map Prod.fst

/-! ## Step 1: the registry -/

/-- The object literal of step 1: the record copy with canonical id, empty
`children` and the working list `_childIds`. -/
def mkNode (member : Member) : Node :=
  { id := member.id.toStr
    name := member.name
    spouseId := member.spouseId
    nodeType := none
    spouses := none
    children := []
    _childIds := some ((member.children.getD []).map JsVal.toStr) }

/-- Step 1: `members.forEach(member => memberMap.set(String(member.id), ...))`. -/
def step1 (members : List Member) : List (String × Node) :=
  members.foldl (fun memberMap member => mapSet memberMap member.id.toStr (mkNode member)) []

/-! ## Step 2: child → parents -/

/-- The body of the inner loop of step 2 for one `childId` of `parent`. -/
def addClaim (parentId : String) (childToParents : List (String × List String))
    (childId : String) : List (String × List String) :=
  mapSet childToParents childId ((mapGet childToParents childId).getD [] ++ [parentId])

/-- Step 2: the map from a child id to the ids of the parents claiming it. -/
def step2 (memberMap : List (String × Node)) : List (String × List String) :=
  memberMap.foldl
    (fun childToParents entry =>
      (entry.2._childIds.getD []).foldl (addClaim entry.2.id) childToParents)
    []

/-! ## Step 3: family-unit synthesis -/

/-- The value of `pASpouseId`: `String(pA.spouseId)` when `pA.spouseId` is truthy,
otherwise `null`. -/
def spouseKey (pA : Node) : Option String :=
  if pA.spouseId.truthy then some pA.spouseId.toStr else none

/-- The pair search `for (let pid of parents) ...` over the remaining part `todo` of
`parents`. -/
def findPair (memberMap : List (String × Node)) (parents : List String) :
    List String → Option (Node × Node)
  | [] => none
  | pid :: todo =>
    match mapGet memberMap pid with
    | none => findPair memberMap parents todo
    | some pA =>
      match spouseKey pA with
      | none => findPair memberMap parents todo
      | some pASpouseId =>
        if pASpouseId = "" then findPair memberMap parents todo
        else if pASpouseId ∈ parents then
          match mapGet memberMap pASpouseId with
          | some pB => some (pA, pB)
          | none => findPair memberMap parents todo
        else findPair memberMap parents todo

/-- The template literal that names a family unit. -/
def familyId (pA pB : Node) (childId : String) : String :=
  "family-" ++ pA.id ++ "-" ++ pB.id ++ "-" ++ childId

/-- The object literal `familyUnit`. -/
def familyUnit (pA pB : Node) (childId : String) : Node :=
  { id := familyId pA pB childId
    name := .str (pA.name.toStr ++ " & " ++ pB.name.toStr)
    spouseId := .undefined
    nodeType := some "family-unit"
    spouses := some (pA.id, pB.id)
    children := []
    _childIds := some [childId] }

/-- The assignment `p._childIds = p._childIds.filter(id => id !== childId)`. -/
def dropChild (childId : String) (p : Node) : Node :=
  { p with _childIds := p._childIds.map (fun ids => ids.filter (fun id => id ≠ childId)) }

/-- The call `p._childIds.push(x)`. -/
def pushChild (x : String) (p : Node) : Node :=
  { p with _childIds := p._childIds.map (fun ids => ids ++ [x]) }

/-- The fallback loop `parents.slice(1).forEach(pid => ...)`. -/
def dropFromOthers (childId : String) (memberMap : List (String × Node))
    (others : List String) : List (String × Node) :=
  others.foldl
    (fun mm pid =>
      match mapGet mm pid with
      | some _ => mapModify mm pid (dropChild childId)
      | none => mm)
    memberMap

/-- The body of `childToParents.forEach((parents, childId) => ...)`. -/
def synthChild (memberMap : List (String × Node)) (entry : String × List String) :
    List (String × Node) :=
  let childId := entry.1
  let parents := entry.2
  if parents.length > 1 then
    match findPair memberMap parents parents with
    | some (pA, pB) =>
      let mm1 := mapSet memberMap (familyId pA pB childId) (familyUnit pA pB childId)
      let mm2 := mapModify mm1 pA.id (dropChild childId)
      let mm3 := mapModify mm2 pB.id (dropChild childId)
      mapModify mm3 pA.id (pushChild (familyId pA pB childId))
    | none => dropFromOthers childId memberMap parents.tail
  else memberMap

/-- Step 3: one pass over `childToParents`. -/
def step3 (memberMap : List (String × Node)) (childToParents : List (String × List String)) :
    List (String × Node) :=
  childToParents.foldl synthChild memberMap

/-! ## Step 4: resolving `_childIds` -/

/-- The expression `child._childIds.map(cid => memberMap.get(String(cid))).filter(Boolean)`. -/
def resolveIds (memberMap : List (String × Node)) (ids : List String) : List String :=
  ids.filterMap (fun cid => (mapGet memberMap cid).map Node.id)

/-- The body of the inner loop of step 4 for the member registered under `key` and
one `childId` of its working list. -/
def linkChild (key : String) (memberMap : List (String × Node)) (childId : String) :
    List (String × Node) :=
  match mapGet memberMap childId with
  | none => memberMap
  | some child =>
    let mm1 :=
      match (if child.nodeType = some "family-unit" then child._childIds else none) with
      | some ids =>
        mapModify memberMap childId
          (fun c => { c with children := resolveIds memberMap ids, _childIds := none })
      | none => memberMap
    mapModify mm1 key (fun member => { member with children := member.children ++ [child.id] })

/-- The body of `memberMap.forEach(member => ...)` in step 4 for the entry `key`. -/
def resolveMember (memberMap : List (String × Node)) (key : String) : List (String × Node) :=
  match mapGet memberMap key with
  | none => memberMap
  | some member =>
    let mm1 := (member._childIds.getD []).foldl (linkChild key) memberMap
    mapModify mm1 key (fun member => { member with _childIds := none })

/-- Step 4: one pass over the entries of `memberMap`. -/
def step4 (memberMap : List (String × Node)) : List (String × Node) :=
  (mapKeys memberMap).foldl resolveMember memberMap

/-! ## Step 5: roots -/

/-- The set `usedAsChild`, as the list of ids added to it. -/
def usedAsChild (memberMap : List (String × Node)) : List String :=
  memberMap.foldl (fun used entry => used ++ entry.2.children) []

/-- The array `rootNodes`. -/
def findRoots (memberMap : List (String × Node)) : List String :=
  (memberMap.filter (fun entry => decide (entry.2.id ∉ usedAsChild memberMap))).map
    (fun entry => entry.2.id)

/-! ## `buildTree` -/

/-- Steps 1 to 3: the lookup after synthesis. -/
def synthesize (members : List Member) : List (String × Node) :=
  step3 (step1 members) (step2 (step1 members))

/-- Steps 1 to 5 on a non-empty array of records. -/
def assemble (members : List Member) : Forest :=
  let memberMap := step4 (synthesize members)
  { memberMap := memberMap, rootNodes := findRoots memberMap }

/-- The function `buildTree`.  The argument `none` is an absent (`null`, `undefined`)
input; the value `none` is `null`. -/
def buildTree (members : Option (List Member)) : Option Forest :=
  match members with
  | none => none
  | some [] => none
  | some (m :: ms) => some (assemble (m :: ms))

/-! ## Reading a forest -/

/-- The resolved `children` of the node registered under `key` (empty when there is
no such node). -/
def childrenOf (f : Forest) (key : String) : List String :=
  ((mapGet f.memberMap key).map Node.children).getD []

/-! ## Notions used to state the properties -/

/-- Every object of the lookup is registered under its own id. -/
def KeyIsId (m : List (String × Node)) : Prop := ∀ e ∈ m, e.2.id = e.1

/-- The claim list of `childId`: the ids of the objects of `memberMap` that list
`childId`, in iteration order, one entry per occurrence. -/
def claimList (memberMap : List (String × Node)) (childId : String) : List String :=
  memberMap.flatMap
    (fun e => ((e.2._childIds.getD []).filter (fun x => x = childId)).map (fun _ => e.2.id))

/-- No entry of the index has an empty parent list. -/
def NonEmptyLists (idx : List (String × List String)) : Prop :=
  ∀ e ∈ idx, e.2 ≠ []

/-- The test of one iteration of the pair search: the object registered under `pid`
and the object its (truthy) spouse id names, when that id is in `parents` and is
registered. -/
def eligible (memberMap : List (String × Node)) (parents : List String) (pid : String) :
    Option (Node × Node) :=
  match mapGet memberMap pid with
  | none => none
  | some pA =>
    match spouseKey pA with
    | none => none
    | some pASpouseId =>
      if pASpouseId = "" then none
      else if pASpouseId ∈ parents then
        match mapGet memberMap pASpouseId with
        | some pB => some (pA, pB)
        | none => none
      else none

/-- The object `n` after step 4: its working list resolved against the lookup `m`
into `children`, and `_childIds` deleted. -/
def resolved (m : List (String × Node)) (n : Node) : Node :=
  { n with children := resolveIds m (n._childIds.getD []), _childIds := none }

/-- What step 4 needs of the lookup it starts from: distinct keys, every object
registered under its id, no `children` yet, and no family unit listing itself. -/
structure Linkable (m : List (String × Node)) : Prop where
  nodup : (mapKeys m).Nodup
  keyIsId : KeyIsId m
  noChildren : ∀ e ∈ m, e.2.children = []
  notSelf : ∀ e ∈ m, e.2.nodeType = some "family-unit" → e.1 ∉ e.2._childIds.getD []

/-- The state of step 4 between two iterations of the outer loop: every object is
either untouched (and not yet visited) or in its final form. -/
def Step4Inv (m : List (String × Node)) (visited : List String) (cur : List (String × Node)) :
    Prop :=
  mapKeys cur = mapKeys m ∧
    ∀ key, (mapGet cur key = mapGet m key ∧ key ∉ visited) ∨
      mapGet cur key = (mapGet m key).map (resolved m)

/-- The state of step 4 inside the visit of `q` (whose object in `m` is `n`), after
the ids `done` of its working list have been handled. -/
def LinkInv (m : List (String × Node)) (visited : List String) (q : String) (n : Node)
    (done : List String) (cur : List (String × Node)) : Prop :=
  mapKeys cur = mapKeys m ∧
    mapGet cur q = some { n with children := resolveIds m done } ∧
    ∀ key, key ≠ q → (mapGet cur key = mapGet m key ∧ key ∉ visited) ∨
      mapGet cur key = (mapGet m key).map (resolved m)

/-- The object `n` is the family unit allocated by the iteration of step 3 for some
entry `(c, ps)` of `done`, from the pair found in the lookup as it was then. -/
def FromPair (m0 : List (String × Node)) (done : List (String × List String)) (n : Node) :
    Prop :=
  ∃ pre c ps post a b, done = pre ++ (c, ps) :: post ∧ 1 < ps.length ∧
    findPair (step3 m0 pre) ps ps = some (a, b) ∧ n = familyUnit a b c

/-- The shape of an object of the lookup during step 3: registered under its id, no
`children` yet, and either a record copy or a family unit allocated before. -/
def Shape (m0 : List (String × Node)) (done : List (String × List String)) (key : String)
    (n : Node) : Prop :=
  n.id = key ∧ n.children = [] ∧ ((n.nodeType = none ∧ n.spouses = none) ∨ FromPair m0 done n)

/-- A property of every object of the lookup, stated through `mapGet`. -/
def AllNodes (P : String → Node → Prop) (m : List (String × Node)) : Prop :=
  ∀ key n, mapGet m key = some n → P key n

/-! ### The outcome of synthesis, described from the registry -/

/-- The pair that step 3 looks for on entry `e` of the index, searched in the
lookup `m0`: none when the claim list has fewer than two entries. -/
def decision (m0 : List (String × Node)) (e : String × List String) : Option (Node × Node) :=
  if 1 < e.2.length then findPair m0 e.2 e.2 else none

/-- The family unit of entry `e`, with its key. -/
def plannedUnit (m0 : List (String × Node)) (e : String × List String) :
    Option (String × Node) :=
  (decision m0 e).map (fun ab => (familyId ab.1 ab.2 e.1, familyUnit ab.1 ab.2 e.1))

/-- Whether the iteration of step 3 for entry `e` removes `e.1` from the working
list of the object registered under `q`. -/
def removes (m0 : List (String × Node)) (e : String × List String) (q : String) : Bool :=
  match decision m0 e with
  | some ab => decide (q = ab.1.id) || decide (q = ab.2.id)
  | none => decide (1 < e.2.length) && decide (q ∈ e.2.tail)

/-- Whether some entry of `done` removes the child id `x` from the working list of `q`. -/
def removedBy (m0 : List (String × Node)) (done : List (String × List String)) (q x : String) :
    Bool :=
  done.any (fun e => decide (e.1 = x) && removes m0 e q)

/-- The family-unit id that the iteration for entry `e` pushes on the working list
of `q`, if any. -/
def pushOf (m0 : List (String × Node)) (e : String × List String) (q : String) :
    Option String :=
  match decision m0 e with
  | some ab => if ab.1.id = q then some (familyId ab.1 ab.2 e.1) else none
  | none => none

/-- The family-unit ids pushed on the working list of `q` by the entries `done`. -/
def pushedTo (m0 : List (String × Node)) (done : List (String × List String)) (q : String) :
    List String :=
  done.filterMap (fun e => pushOf m0 e q)

/-- The working list of `q` after the entries `done`, from its initial list `orig`:
the ids not removed, in their order, then the ids pushed. -/
def workList (m0 : List (String × Node)) (done : List (String × List String)) (q : String)
    (orig : List String) : List String :=
  orig.filter (fun x => !removedBy m0 done q x) ++ pushedTo m0 done q

/-- The record copy `n`, registered under `q`, after the entries `done`. -/
def updated (m0 : List (String × Node)) (done : List (String × List String)) (q : String)
    (n : Node) : Node :=
  { n with _childIds := some (workList m0 done q (n._childIds.getD [])) }

/-- The record copies after the entries `done`. -/
def recordPart (m0 : List (String × Node)) (done : List (String × List String)) :
    List (String × Node) :=
  m0.map (fun e => (e.1, updated m0 done e.1 e.2))

/-- The family units allocated by the entries `done`. -/
def unitPart (m0 : List (String × Node)) (done : List (String × List String)) :
    List (String × Node) :=
  done.filterMap (plannedUnit m0)

/-- The ids `family-a-b-c` of the family units that step 3 allocates for the records
`ms` when every pair search reads the registry: one for each entry `(c, ps)` of the
index with more than one parent and a pair `(a, b)`.  When none of these ids clashes
this is the list of the ids allocated by the run (`synthesize_eq`). -/
def familyIds (ms : List Member) : List String :=
  mapKeys (unitPart (step1 ms) (step2 (step1 ms)))

/-- No generated family-unit id equals a record id, a child id or another generated
family-unit id. -/
def NoClash (ms : List Member) : Prop :=
  (familyIds ms).Nodup ∧
    ∀ g ∈ familyIds ms, g ∉ mapKeys (step1 ms) ∧ g ∉ mapKeys (step2 (step1 ms))

instance (ms : List Member) : Decidable (NoClash ms) := by
  unfold NoClash
  infer_instance

/-- What the description of synthesis needs of the registry `m0` and the index
`idx`: distinct keys, objects registered under their ids and carrying a working
list, parents that are registered, and family-unit ids that clash with nothing. -/
structure Clean (m0 : List (String × Node)) (idx : List (String × List String)) : Prop where
  nodup0 : (mapKeys m0).Nodup
  keyIsId0 : KeyIsId m0
  some0 : ∀ e ∈ m0, ∃ l, e.2._childIds = some l
  idxNodup : (mapKeys idx).Nodup
  parents : ∀ e ∈ idx, ∀ p ∈ e.2, p ∈ mapKeys m0
  unitsNodup : (mapKeys (unitPart m0 idx)).Nodup
  fresh : ∀ g ∈ mapKeys (unitPart m0 idx), g ∉ mapKeys m0 ∧ g ∉ mapKeys idx

/-- The keys of the family units triggered by the child id `c`: the family units
of the lookup after synthesis whose working list is `[c]`. -/
def unitsFor (ms : List Member) (c : String) : List String :=
  ((synthesize ms).filter
    (fun e => decide (e.2.nodeType = some "family-unit" ∧ e.2._childIds = some [c]))).map Prod.fst

/-! ### Concrete inputs -/

/-- A record with string id `i`, optional spouse id and child ids. -/
def record (i : String) (spouse : Option String) (kids : List String) : Member :=
  { id := .str i
    spouseId := (spouse.map JsVal.str).getD .undefined
    children := some (kids.map JsVal.str) }

/-- Records `1 {children: [3]}`, `2 {spouseId: 1, children: [3]}`, `3`. -/
def exCouple : List Member :=
  [record "1" none ["3"], record "2" (some "1") ["3"], record "3" none []]

/-- A couple `P1`, `P2` and a third record `P3`, all listing the child `X`. -/
def exThree : List Member :=
  [record "P1" (some "P2") ["X"], record "P2" none ["X"], record "P3" none ["X"], record "X" none []]

/-- Numeric ids: `0` and `5` list `7`, and `5` has `spouseId: 0`. -/
def exZero : List Member :=
  [ { id := .num 0, children := some [.num 7] },
    { id := .num 5, spouseId := .num 0, children := some [.num 7] },
    { id := .num 7 } ]

/-- The couple `1`, `2` with child `3`, and a record whose id is the id of their
family unit, listing `X` together with its spouse `Q`. -/
def exShadow : List Member :=
  [record "1" none ["3"], record "2" (some "1") ["3"], record "family-2-1-3" (some "Q") ["X"],
    record "Q" none ["X"], record "3" none [], record "X" none []]

/-- The couple `a`, `b` with the children `family-a-b-d` and `d`. -/
def exRewire : List Member :=
  [record "a" (some "b") ["family-a-b-d", "d"], record "b" none ["family-a-b-d", "d"],
    record "d" none [], record "family-a-b-d" none []]

/-- Two unrelated parents of `X`, the first with the id of the family unit of the
couple `1`, `2`. -/
def exFallback : List Member :=
  [record "family-2-1-3" none ["X"], record "Q" none ["X"], record "1" none ["3"],
    record "2" (some "1") ["3"], record "3" none [], record "X" none []]

/-- Three unrelated parents of `X`. -/
def exUnrelated : List Member :=
  [record "P1" none ["X"], record "P2" none ["X"], record "P3" none ["X"], record "X" none []]

/-- A record that lists the same child twice. -/
def exTwice : List Member :=
  [record "1" none ["2", "2"], record "2" none []]

/-- Two records that list each other. -/
def exCycle : List Member :=
  [record "A" none ["B"], record "B" none ["A"]]

/-- Two records whose ids coerce to the same string. -/
def exDuplicate : List Member :=
  [ { id := .num 1, name := .str "first" }, { id := .str "1", name := .str "second" } ]

/-- A record without id, followed by a record with id `1`. -/
def exNoId : List Member :=
  [ { id := .undefined, name := .str "nameless" }, { id := .str "1", name := .str "named" } ]

/-- The canonical spouse id of the object registered under `pid`, when that object
has a truthy `spouseId`. -/
def spouseOf (memberMap : List (String × Node)) (pid : String) : Option String :=
  (mapGet memberMap pid).bind spouseKey

/-! ### Notions and inputs for the later properties -/

/-- The ids of the family units of a forest, in lookup order. -/
def unitIds (f : Forest) : List String :=
  (f.memberMap.filter (fun e => decide (e.2.nodeType = some "family-unit"))).map Prod.fst

/-- The couple `1`, `2` with child `3`, and a record `Q` that lists the id of the
couple's family unit, which is the id of no record. -/
def exDangling : List Member :=
  [record "1" none ["3"], record "2" (some "1") ["3"], record "3" none [],
    record "Q" none ["family-2-1-3"]]

/-- A record that lists an id of no record. -/
def exMissing : List Member :=
  [record "1" none ["9"], record "2" none []]

/-- The elements of a list in the order of their first occurrence, each once. -/
def firstOccurrences : List String → List String
  | [] => []
  | x :: xs => x :: (firstOccurrences xs).filter (fun y => y ≠ x)

/-- A record with the id of the family unit of the couple `1`, `2`, and parent `2`
listing that id twice besides the child `3`. -/
def exRootOrder : List Member :=
  [record "family-2-1-3" none [], record "1" none ["3"],
    record "2" (some "1") ["3", "family-2-1-3", "family-2-1-3"], record "3" none []]

/-- The only parent of `Y` has the id of the family unit of the couple `1`, `2`. -/
def exOrphan : List Member :=
  [record "family-2-1-3" none ["Y"], record "1" none ["3"], record "2" (some "1") ["3"],
    record "3" none [], record "Y" none []]

/-- A parent with the single registered child `2`. -/
def exSingle : List Member :=
  [record "1" none ["2"], record "2" none [], record "3" none []]

/-- The canonical child ids of an input record. -/
def childStrs (r : Member) : List String :=
  (r.children.getD []).map JsVal.toStr

/-- A linear lineage: the only child of each record is the next record, and the last
record has no children. -/
def lineage : List Member → Bool
  | [] => false
  | [r] => decide (childStrs r = [])
  | r :: r' :: rest => decide (childStrs r = [r'.id.toStr]) && lineage (r' :: rest)

/-- A lineage of three records, with numeric and string ids. -/
def exLineage : List Member :=
  [ { id := .num 1, children := some [.num 2] },
    { id := .str "2", children := some [.str "3"] },
    { id := .num 3 } ]

/-- The family units of a forest whose `spouses` are `a` and `b`, in either order. -/
def coupleUnits (f : Forest) (a b : String) : List (String × Node) :=
  f.memberMap.filter
    (fun e => decide (e.2.spouses = some (a, b) ∨ e.2.spouses = some (b, a)))

/-- A couple listing a child id that is the id of no record. -/
def exChildless : List Member :=
  [record "a" (some "b") ["c"], record "b" none ["c"]]

/-- A couple with the two registered children `c` and `d`. -/
def exTwoKids : List Member :=
  [record "a" (some "b") ["c", "d"], record "b" none ["c", "d"], record "c" none [],
    record "d" none []]

/-- The couple `a`, `b` in which `b`, first in the input, names itself as spouse. -/
def exSelfSpouse : List Member :=
  [record "b" (some "b") ["c"], record "a" (some "b") ["c"], record "c" none []]

/-- The value `w` is `v`, or `v` is a number and `w` its string form. -/
def restrung (v w : JsVal) : Bool :=
  w == v ||
    match v with
    | .num n => w == .str (toString n)
    | _ => false

/-- The value `w` is `v`, or `v` is a number other than `0` and `w` its string form. -/
def restrungSpouse (v w : JsVal) : Bool :=
  w == v ||
    match v with
    | .num n => n != 0 && w == .str (toString n)
    | _ => false

/-- Elementwise `restrung` on two child lists of the same length. -/
def restrungList : List JsVal → List JsVal → Bool
  | [], [] => true
  | v :: vs, w :: ws => restrung v w && restrungList vs ws
  | _, _ => false

/-- The record `r2` is `r` with some numeric id, child ids or non-zero numeric
spouse id replaced by their string forms. -/
def recoded (r r2 : Member) : Bool :=
  restrung r.id r2.id && r2.name == r.name && restrungSpouse r.spouseId r2.spouseId &&
    match r.children, r2.children with
    | none, none => true
    | some cs, some cs2 => restrungList cs cs2
    | _, _ => false

/-- Recordwise `recoded` on two inputs of the same length. -/
def recodedAll : List Member → List Member → Bool
  | [], [] => true
  | r :: rs, r2 :: rs2 => recoded r r2 && recodedAll rs rs2
  | _, _ => false

/-- The spouse id of a node as the pair search reads it: its string form when it is
truthy, absent otherwise. -/
def canonSpouse (v : JsVal) : JsVal :=
  if v.truthy then .str v.toStr else .undefined

/-- A node with its spouse id as the pair search reads it. -/
def canonNode (n : Node) : Node :=
  { n with spouseId := canonSpouse n.spouseId }

/-- The map with `g` applied to every value. -/
def mapVals {α : Type} (g : α → α) (m : List (String × α)) : List (String × α) :=
  m.map (fun e => (e.1, g e.2))

/-- What a forest shows of an entry of its lookup: key, id, name, node type,
spouses and children, that is every field but the raw `spouseId`. -/
def nodeView (e : String × Node) :
    String × String × JsVal × Option String × Option (String × String) × List String :=
  (e.1, e.2.id, e.2.name, e.2.nodeType, e.2.spouses, e.2.children)

/-- The input `exZero` with every number replaced by its string form. -/
def exZeroStr : List Member :=
  [ { id := .str "0", children := some [.str "7"] },
    { id := .str "5", spouseId := .str "0", children := some [.str "7"] },
    { id := .str "7" } ]

/-- Numeric ids and a non-zero numeric spouse id. -/
def exNumeric : List Member :=
  [ { id := .num 1, children := some [.num 3] },
    { id := .num 2, spouseId := .num 1, children := some [.num 3] },
    { id := .num 3 } ]

/-- The input `exNumeric` with some of its numbers replaced by their string forms. -/
def exNumericStr : List Member :=
  [ { id := .str "1", children := some [.num 3] },
    { id := .num 2, spouseId := .str "1", children := some [.str "3"] },
    { id := .str "3" } ]

/-! ## The rendering component: `buildTree` of `components/FamilyTree.jsx`

The component keeps its own `memberMap`, keyed by the raw `member.id` (no `String(...)`),
links every listed child that is registered, and hangs the records that nobody lists
under a virtual root.  References are again the `id` of the object referred to; the
value of `buildTree` is the virtual root together with the objects its `children`
lead to, the values of `memberMap`.  The body runs inside `try`; `catch` logs,
records the error message for display and returns `null`. -/

/-- The call `map.get(key)` on a `Map` keyed by raw values: keys are compared by
SameValueZero, under which a number and its string form are different keys. -/
def getRaw {α : Type} : List (JsVal × α) → JsVal → Option α
  | [], _ => none
  | (k, v) :: rest, key => if k = key then some v else getRaw rest key

/-- The call `map.set(key, v)` on a `Map` keyed by raw values. -/
def setRaw {α : Type} : List (JsVal × α) → JsVal → α → List (JsVal × α)
  | [], key, v => [(key, v)]
  | (k, x) :: rest, key, v =>
    if k = key then (k, v) :: rest else (k, x) :: setRaw rest key v

/-- In-place mutation of the object registered under the raw `key`. -/
def modifyRaw {α : Type} : List (JsVal × α) → JsVal → (α → α) → List (JsVal × α)
  | [], _, _ => []
  | (k, x) :: rest, key, f =>
    if k = key then (k, f x) :: rest else (k, x) :: modifyRaw rest key f

/-- The keys of a `Map` keyed by raw values, in iteration order. -/
def keysRaw {α : Type} (m : List (JsVal × α)) : List JsVal := m.map Prod.fst

/-- An object `{ ...member, children: [] }` of the rendering component. -/
structure Copy where
  id : JsVal
  name : JsVal
  spouseId : JsVal
  children : List JsVal
  deriving DecidableEq, Repr

/-- The virtual root returned by the rendering component, and the objects of its
`memberMap`, which the references in `children` lead to. -/
structure VirtualRoot where
  name : String
  generation : Nat
  nodeType : String
  children : List JsVal
  memberMap : List (JsVal × Copy)
  deriving DecidableEq, Repr

/-- The object literal `{ ...member, children: [] }`. -/
def mkCopy (member : Member) : Copy :=
  { id := member.id, name := member.name, spouseId := member.spouseId, children := [] }

/-- The first loop: `members.forEach(member => memberMap.set(member.id, ...))`. -/
def copyMembers (members : List Member) : List (JsVal × Copy) :=
  members.foldl (fun memberMap member => setRaw memberMap member.id (mkCopy member)) []

/-- The body of the inner loop of the second pass:
`const child = memberMap.get(childId); if (child) memberMap.get(member.id).children.push(child)`.
The value `none` is the `TypeError` raised when `memberMap.get(member.id)` is
`undefined`. -/
def attachChild (member : Member) (memberMap : List (JsVal × Copy)) (childId : JsVal) :
    Option (List (JsVal × Copy)) :=
  match getRaw memberMap childId with
  | none => some memberMap
  | some child =>
    match getRaw memberMap member.id with
    | none => none
    | some _ =>
      some (modifyRaw memberMap member.id
        (fun parent => { parent with children := parent.children ++ [child.id] }))

/-- The body of the second pass of `FamilyTree.jsx` for one record:
`if (member.children?.length) member.children.forEach(...)`. -/
def FamilyTree.linkMember (memberMap : List (JsVal × Copy)) (member : Member) :
    Option (List (JsVal × Copy)) :=
  match member.children with
  | none => some memberMap
  | some childIds =>
    if childIds.length ≠ 0 then childIds.foldlM (attachChild member) memberMap
    else some memberMap

/-- The second pass of `FamilyTree.jsx`. -/
def FamilyTree.linkChildren (members : List Member) (memberMap : List (JsVal × Copy)) :
    Option (List (JsVal × Copy)) :=
  members.foldlM FamilyTree.linkMember memberMap

/-- The set `allChildIds` of `FamilyTree.jsx`, as the list of the ids added to it:
`members.forEach(member => member.children?.forEach(childId => allChildIds.add(childId)))`. -/
def FamilyTree.allChildIds (members : List Member) : List JsVal :=
  members.foldl
    (fun ids member =>
      match member.children with
      | none => ids
      | some childIds => childIds.foldl (fun s childId => s ++ [childId]) ids)
    []

/-- The function `buildTree` of `components/FamilyTree.jsx`.  The argument `none` is an
absent input; the value `none` is `null`, returned by the guard and by `catch`. -/
def FamilyTree.buildTree (members : Option (List Member)) : Option VirtualRoot :=
  match members with
  | none => none
  | some [] => none
  | some (m :: ms) =>
    match FamilyTree.linkChildren (m :: ms) (copyMembers (m :: ms)) with
    | none => none
    | some memberMap =>
      let rootNodes :=
        (m :: ms).filter (fun member => decide (member.id ∉ FamilyTree.allChildIds (m :: ms)))
      some
        { name := "Kodero Family Legacy"
          generation := 0
          nodeType := "root"
          children := rootNodes.filterMap (fun r => (getRaw memberMap r.id).map Copy.id)
          memberMap := memberMap }

/-! ### `buildTree` of `components/FamilyTree.old.jsx`

The older component has the same first loop and the same loop body; its guards are
written `member.children && member.children.length > 0` and `if (member.children)`,
and the virtual root is bound to a constant before it is returned. -/

/-- The body of the second pass of `FamilyTree.old.jsx` for one record:
`if (member.children && member.children.length > 0) member.children.forEach(...)`. -/
def FamilyTreeOld.linkMember (memberMap : List (JsVal × Copy)) (member : Member) :
    Option (List (JsVal × Copy)) :=
  match member.children with
  | none => some memberMap
  | some childIds =>
    if childIds.length > 0 then childIds.foldlM (attachChild member) memberMap
    else some memberMap

/-- The second pass of `FamilyTree.old.jsx`. -/
def FamilyTreeOld.linkChildren (members : List Member) (memberMap : List (JsVal × Copy)) :
    Option (List (JsVal × Copy)) :=
  members.foldlM FamilyTreeOld.linkMember memberMap

/-- The set `allChildIds` of `FamilyTree.old.jsx`:
`members.forEach(member => { if (member.children) member.children.forEach(...) })`. -/
def FamilyTreeOld.allChildIds (members : List Member) : List JsVal :=
  members.foldl
    (fun ids member =>
      if member.children.isSome then
        (member.children.getD []).foldl (fun s childId => s ++ [childId]) ids
      else ids)
    []

/-- The function `buildTree` of `components/FamilyTree.old.jsx`. -/
def FamilyTreeOld.buildTree (members : Option (List Member)) : Option VirtualRoot :=
  match members with
  | none => none
  | some [] => none
  | some (m :: ms) =>
    match FamilyTreeOld.linkChildren (m :: ms) (copyMembers (m :: ms)) with
    | none => none
    | some memberMap =>
      let rootNodes :=
        (m :: ms).filter (fun member => decide (member.id ∉ FamilyTreeOld.allChildIds (m :: ms)))
      let virtualRoot : VirtualRoot :=
        { name := "Kodero Family Legacy"
          generation := 0
          nodeType := "root"
          children := rootNodes.filterMap (fun root => (getRaw memberMap root.id).map Copy.id)
          memberMap := memberMap }
      some virtualRoot

/-- The resolved `children` of the copy registered under the raw `key` (empty when
there is none). -/
def copyChildren (t : VirtualRoot) (key : JsVal) : List JsVal :=
  ((getRaw t.memberMap key).map Copy.children).getD []

/-- The child ids of an input record, as written. -/
def rawKids (r : Member) : List JsVal := r.children.getD []

/-- Numeric record ids with child ids written as strings. -/
def exMixed : List Member :=
  [ { id := .num 1, children := some [.str "2"] }, { id := .num 2 } ]

/-- The references pushed on the `children` of the copy registered under `key` by the
second pass over the records `done`: their listed child ids that are registered in
`m0`, in order. -/
def attached (m0 : List (JsVal × Copy)) (done : List Member) (key : JsVal) : List JsVal :=
  (done.filter (fun r => decide (r.id = key))).flatMap
    (fun r => (rawKids r).filter (fun c => decide (c ∈ keysRaw m0)))

/-- The lookup `m0` after the second pass over the records `done`. -/
def linked (m0 : List (JsVal × Copy)) (done : List Member) : List (JsVal × Copy) :=
  m0.map (fun e => (e.1, { e.2 with children := e.2.children ++ attached m0 done e.1 }))

/-- The lookup `m0` after the second pass over the records `done` and, inside the
visit of the record `r`, over its child ids `seen`. -/
def linkedMid (m0 : List (JsVal × Copy)) (done : List Member) (r : Member) (seen : List JsVal) :
    List (JsVal × Copy) :=
  m0.map (fun e => (e.1, { e.2 with children := e.2.children ++ attached m0 done e.1 ++
    (if r.id = e.1 then seen.filter (fun c => decide (c ∈ keysRaw m0)) else []) }))

/-- Every child id is listed by the records of one id only. -/
def SingleLister (ms : List Member) : Prop :=
  ∀ r ∈ ms, ∀ r2 ∈ ms, ∀ c ∈ rawKids r, c ∈ rawKids r2 → r.id = r2.id

instance (ms : List Member) : Decidable (SingleLister ms) := by
  unfold SingleLister
  infer_instance

/-- Whether a value is a string. -/
def JsVal.isStr : JsVal → Bool
  | .str _ => true
  | _ => false

/-- Every record id and every listed child id is a string. -/
def StringIds (ms : List Member) : Prop :=
  ∀ r ∈ ms, r.id.isStr = true ∧ ∀ c ∈ rawKids r, c.isStr = true

instance (ms : List Member) : Decidable (StringIds ms) := by
  unfold StringIds
  infer_instance

/-! ### Synthesis when family-unit ids may clash with each other only -/

/-- The lookup `units` of family units after the family unit of entry `e`, if there
is one, is stored under its id. -/
def placeUnit (m0 : List (String × Node)) (units : List (String × Node))
    (e : String × List String) : List (String × Node) :=
  match plannedUnit m0 e with
  | some u => mapSet units u.1 u.2
  | none => units

/-- The family units allocated by the entries `done`, as the lookup holds them: a
unit allocated under the id of an earlier one takes its place. -/
def unitMap (m0 : List (String × Node)) (done : List (String × List String)) :
    List (String × Node) :=
  done.foldl (placeUnit m0) []

/-- No record id and no child id equals a generated family-unit id (two generated
ids may be equal). -/
def Fresh (ms : List Member) : Prop :=
  ∀ g ∈ familyIds ms, g ∉ mapKeys (step1 ms) ∧ g ∉ mapKeys (step2 (step1 ms))

instance (ms : List Member) : Decidable (Fresh ms) := by
  unfold Fresh
  infer_instance

/-- What the description of synthesis needs of the registry `m0` and the index `idx`
when family-unit ids may clash with each other: as `Clean`, without the distinctness
of the family-unit ids. -/
structure Tidy (m0 : List (String × Node)) (idx : List (String × List String)) : Prop where
  nodup0 : (mapKeys m0).Nodup
  keyIsId0 : KeyIsId m0
  some0 : ∀ e ∈ m0, ∃ l, e.2._childIds = some l
  idxNodup : (mapKeys idx).Nodup
  parents : ∀ e ∈ idx, ∀ p ∈ e.2, p ∈ mapKeys m0
  fresh : ∀ g ∈ mapKeys (unitPart m0 idx), g ∉ mapKeys m0 ∧ g ∉ mapKeys idx

/-- The node `x` is reached from a root of the forest by following `children`. -/
inductive Reachable (f : Forest) : String → Prop where
  | root {x : String} : x ∈ f.rootNodes → Reachable f x
  | child {p x : String} : Reachable f p → x ∈ childrenOf f p → Reachable f x

/-- The child edges of the input are acyclic: the ids can be ranked so that every
listed child id ranks above the id of the record that lists it. -/
def Acyclic (ms : List Member) : Prop :=
  ∃ rank : String → Nat, ∀ r ∈ ms, ∀ c ∈ childStrs r, rank r.id.toStr < rank c

/-- Two couples whose family units get the same id `family-p-q-p-s`: `p-q`, `p` with
child `s`, and `p`, `q` with child `p-s`. -/
def exHyphen : List Member :=
  [record "p-q" (some "p") ["s"], record "p" (some "q") ["s", "p-s"], record "q" none ["p-s"],
    record "s" none [], record "p-s" none []]

/-- The couple `a`, `b` with the shared child `c`, listed first by `a`, and a child
`k` of `a` alone. -/
def exAppend : List Member :=
  [record "a" (some "b") ["c", "k"], record "b" none ["c"], record "c" none [],
    record "k" none []]

/-- The couple `a`, `b` with the child `d` and a listed child id that is the id of the
family unit of `d`. -/
def exUnitChild : List Member :=
  [record "a" (some "b") ["d", "family-a-b-d"], record "b" none ["d", "family-a-b-d"],
    record "d" none []]

/-! ## Insertion-ordered maps: basic facts -/

section MapFacts
variable {α : Type}

theorem mapKeys_nil : mapKeys ([] : List (String × α)) = [] := rfl

theorem mapKeys_cons (e : String × α) (m : List (String × α)) :
    mapKeys (e :: m) = e.1 :: mapKeys m := rfl

theorem mapKeys_append (m₁ m₂ : List (String × α)) :
    mapKeys (m₁ ++ m₂) = mapKeys m₁ ++ mapKeys m₂ := by
  simp [mapKeys]

theorem mapGet_cons (k : String) (v : α) (m : List (String × α)) (key : String) :
    mapGet ((k, v) :: m) key = if k = key then some v else mapGet m key := rfl

theorem mapGet_eq_none_iff (m : List (String × α)) (key : String) :
    mapGet m key = none ↔ key ∉ mapKeys m := by
  induction m with
  | nil => simp [mapGet, mapKeys]
  | cons e m ih =>
    obtain ⟨k, v⟩ := e
    by_cases h : k = key
    · simp [mapGet, mapKeys, h]
    · have h' : ¬ key = k := fun h' => h h'.symm
      simp [mapGet, mapKeys_cons, h, h', ih]

theorem mapGet_isSome_iff (m : List (String × α)) (key : String) :
    (∃ v, mapGet m key = some v) ↔ key ∈ mapKeys m := by
  rw [← not_iff_not, ← mapGet_eq_none_iff]
  cases mapGet m key <;> simp

theorem mem_of_mapGet {m : List (String × α)} {key : String} {v : α}
    (h : mapGet m key = some v) : (key, v) ∈ m := by
  induction m with
  | nil => simp [mapGet] at h
  | cons e m ih =>
    obtain ⟨k, x⟩ := e
    by_cases hk : k = key
    · simp [mapGet, hk] at h
      simp [hk, h]
    · simp [mapGet, hk] at h
      exact List.mem_cons_of_mem _ (ih h)

theorem mapGet_of_mem {m : List (String × α)} (hnd : (mapKeys m).Nodup) {key : String} {v : α}
    (h : (key, v) ∈ m) : mapGet m key = some v := by
  induction m with
  | nil => simp at h
  | cons e m ih =>
    obtain ⟨k, x⟩ := e
    rw [mapKeys_cons, List.nodup_cons] at hnd
    rcases List.mem_cons.1 h with h | h
    · cases h
      simp [mapGet]
    · have hk : k ≠ key := by
        rintro rfl
        exact hnd.1 (List.mem_map.2 ⟨_, h, rfl⟩)
      simp [mapGet, hk, ih hnd.2 h]

theorem mapGet_mapSet (m : List (String × α)) (k : String) (v : α) (key : String) :
    mapGet (mapSet m k v) key = if k = key then some v else mapGet m key := by
  induction m with
  | nil => simp [mapSet, mapGet]
  | cons e m ih =>
    obtain ⟨k', x⟩ := e
    by_cases h : k' = k
    · subst h
      by_cases h2 : k' = key <;> simp [mapSet, mapGet, h2]
    · by_cases h2 : k' = key
      · subst h2
        have h3 : ¬ k = k' := fun h3 => h h3.symm
        simp [mapSet, mapGet, h, h3]
      · simp [mapSet, mapGet, h, h2, ih]

theorem mapGet_mapModify (m : List (String × α)) (k : String) (f : α → α) (key : String) :
    mapGet (mapModify m k f) key = if k = key then (mapGet m k).map f else mapGet m key := by
  induction m with
  | nil => simp [mapModify, mapGet]
  | cons e m ih =>
    obtain ⟨k', x⟩ := e
    by_cases h : k' = k
    · subst h
      by_cases h2 : k' = key <;> simp [mapModify, mapGet, h2]
    · by_cases h2 : k' = key
      · subst h2
        have h3 : ¬ k = k' := fun h3 => h h3.symm
        simp [mapModify, mapGet, h, h3]
      · simp [mapModify, mapGet, h, h2, ih]

theorem mapKeys_mapModify (m : List (String × α)) (k : String) (f : α → α) :
    mapKeys (mapModify m k f) = mapKeys m := by
  induction m with
  | nil => rfl
  | cons e m ih =>
    obtain ⟨k', x⟩ := e
    by_cases h : k' = k <;> simp [mapModify, mapKeys_cons, h, ih]

theorem mapKeys_mapSet_of_mem (m : List (String × α)) (k : String) (v : α)
    (h : k ∈ mapKeys m) : mapKeys (mapSet m k v) = mapKeys m := by
  induction m with
  | nil => simp [mapKeys] at h
  | cons e m ih =>
    obtain ⟨k', x⟩ := e
    by_cases h2 : k' = k
    · simp [mapSet, mapKeys_cons, h2]
    · have h3 : k ∈ mapKeys m := by
        rw [mapKeys_cons] at h
        rcases List.mem_cons.1 h with h | h
        · exact absurd h.symm h2
        · exact h
      simp [mapSet, mapKeys_cons, h2, ih h3]

theorem mapSet_of_not_mem (m : List (String × α)) (k : String) (v : α)
    (h : k ∉ mapKeys m) : mapSet m k v = m ++ [(k, v)] := by
  induction m with
  | nil => rfl
  | cons e m ih =>
    obtain ⟨k', x⟩ := e
    rw [mapKeys_cons, List.mem_cons, not_or] at h
    have h2 : ¬ k' = k := fun h2 => h.1 h2.symm
    simp [mapSet, h2, ih h.2]

theorem mapKeys_mapSet_of_not_mem (m : List (String × α)) (k : String) (v : α)
    (h : k ∉ mapKeys m) : mapKeys (mapSet m k v) = mapKeys m ++ [k] := by
  rw [mapSet_of_not_mem m k v h, mapKeys_append]
  rfl

theorem mem_mapKeys_mapSet (m : List (String × α)) (k : String) (v : α) (key : String) :
    key ∈ mapKeys (mapSet m k v) ↔ key = k ∨ key ∈ mapKeys m := by
  by_cases h : k ∈ mapKeys m
  · rw [mapKeys_mapSet_of_mem m k v h]
    constructor
    · exact Or.inr
    · rintro (rfl | h')
      · exact h
      · exact h'
  · rw [mapKeys_mapSet_of_not_mem m k v h, List.mem_append, List.mem_singleton]
    tauto

theorem nodup_mapKeys_mapSet (m : List (String × α)) (k : String) (v : α)
    (h : (mapKeys m).Nodup) : (mapKeys (mapSet m k v)).Nodup := by
  by_cases hk : k ∈ mapKeys m
  · rwa [mapKeys_mapSet_of_mem m k v hk]
  · rw [mapKeys_mapSet_of_not_mem m k v hk]
    exact List.Nodup.append h (List.nodup_singleton k) (by simpa using hk)

theorem mapModify_of_not_mem (m : List (String × α)) (k : String) (f : α → α)
    (h : k ∉ mapKeys m) : mapModify m k f = m := by
  induction m with
  | nil => rfl
  | cons e m ih =>
    obtain ⟨k', x⟩ := e
    rw [mapKeys_cons, List.mem_cons, not_or] at h
    have h2 : ¬ k' = k := fun h2 => h.1 h2.symm
    simp [mapModify, h2, ih h.2]

theorem mapModify_append_left (m₁ m₂ : List (String × α)) (k : String) (f : α → α)
    (h : k ∈ mapKeys m₁) : mapModify (m₁ ++ m₂) k f = mapModify m₁ k f ++ m₂ := by
  induction m₁ with
  | nil => simp [mapKeys] at h
  | cons e m ih =>
    obtain ⟨k', x⟩ := e
    by_cases h2 : k' = k
    · simp [mapModify, h2]
    · have h3 : k ∈ mapKeys m := by
        rw [mapKeys_cons] at h
        rcases List.mem_cons.1 h with h | h
        · exact absurd h.symm h2
        · exact h
      simp [mapModify, h2, ih h3]

/-- Two maps with the same keys in the same order and the same value under every key
are equal. -/
theorem map_ext {m₁ m₂ : List (String × α)} (hk : mapKeys m₁ = mapKeys m₂)
    (hnd : (mapKeys m₁).Nodup) (h : ∀ key, mapGet m₁ key = mapGet m₂ key) : m₁ = m₂ := by
  induction m₁ generalizing m₂ with
  | nil =>
    cases m₂ with
    | nil => rfl
    | cons e m => simp [mapKeys] at hk
  | cons e m ih =>
    cases m₂ with
    | nil => simp [mapKeys] at hk
    | cons e' m' =>
      obtain ⟨k, x⟩ := e
      obtain ⟨k', x'⟩ := e'
      simp only [mapKeys_cons, List.cons.injEq] at hk
      obtain ⟨rfl, hk⟩ := hk
      rw [mapKeys_cons, List.nodup_cons] at hnd
      have hx : x = x' := by
        have := h k
        simpa [mapGet] using this
      subst hx
      congr 1
      apply ih hk hnd.2
      intro key
      by_cases hkey : k = key
      · subst hkey
        rw [(mapGet_eq_none_iff m k).2 hnd.1, (mapGet_eq_none_iff m' k).2 (hk ▸ hnd.1)]
      · have := h key
        simpa [mapGet, hkey] using this

end MapFacts

/-! ## Step 1: the registry -/

theorem keyIsId_get {m : List (String × Node)} (h : KeyIsId m) {key : String} {n : Node}
    (hg : mapGet m key = some n) : n.id = key :=
  h _ (mem_of_mapGet hg)

theorem mem_mapSet {α : Type} {m : List (String × α)} {k : String} {v : α} {e : String × α}
    (h : e ∈ mapSet m k v) : e = (k, v) ∨ e ∈ m := by
  induction m with
  | nil => simpa [mapSet] using h
  | cons e' m ih =>
    obtain ⟨k', x⟩ := e'
    by_cases hk : k' = k
    · simp only [mapSet, hk, if_true, List.mem_cons] at h
      rcases h with h | h
      · exact Or.inl h
      · exact Or.inr (List.mem_cons_of_mem _ h)
    · simp only [mapSet, hk, if_false, List.mem_cons] at h
      rcases h with h | h
      · exact Or.inr (h ▸ List.mem_cons_self _ _)
      · rcases ih h with h | h
        · exact Or.inl h
        · exact Or.inr (List.mem_cons_of_mem _ h)

theorem mem_mapModify {α : Type} {m : List (String × α)} {k : String} {f : α → α}
    {e : String × α} (h : e ∈ mapModify m k f) :
    e ∈ m ∨ ∃ x, (k, x) ∈ m ∧ e = (k, f x) := by
  induction m with
  | nil => simp [mapModify] at h
  | cons e' m ih =>
    obtain ⟨k', x⟩ := e'
    by_cases hk : k' = k
    · simp only [mapModify, hk, if_true, List.mem_cons] at h
      rcases h with h | h
      · exact Or.inr ⟨x, by simp [hk], h⟩
      · exact Or.inl (List.mem_cons_of_mem _ h)
    · simp only [mapModify, hk, if_false, List.mem_cons] at h
      rcases h with h | h
      · exact Or.inl (h ▸ List.mem_cons_self _ _)
      · rcases ih h with h | ⟨y, hy, he⟩
        · exact Or.inl (List.mem_cons_of_mem _ h)
        · exact Or.inr ⟨y, List.mem_cons_of_mem _ hy, he⟩

theorem keyIsId_mapSet {m : List (String × Node)} (h : KeyIsId m) {k : String} {n : Node}
    (hn : n.id = k) : KeyIsId (mapSet m k n) := by
  intro e he
  rcases mem_mapSet he with rfl | he
  · exact hn
  · exact h e he

theorem keyIsId_mapModify {m : List (String × Node)} (h : KeyIsId m) {k : String}
    {f : Node → Node} (hf : ∀ n, (f n).id = n.id) : KeyIsId (mapModify m k f) := by
  intro e he
  rcases mem_mapModify he with he | ⟨x, hx, rfl⟩
  · exact h e he
  · simpa [hf] using h _ hx

/-- The registry after the first `n` records have been stored into `acc`. -/
theorem foldl_mapSet_inv {β : Type} (P : List (String × Node) → Prop) (g : β → String)
    (f : β → Node) (hstep : ∀ acc b, P acc → P (mapSet acc (g b) (f b))) :
    ∀ (l : List β) (acc : List (String × Node)), P acc →
      P (l.foldl (fun mm b => mapSet mm (g b) (f b)) acc) := by
  intro l
  induction l with
  | nil => intro acc h; exact h
  | cons b l ih => intro acc h; exact ih _ (hstep acc b h)

theorem step1_nodup (ms : List Member) : (mapKeys (step1 ms)).Nodup :=
  foldl_mapSet_inv (fun m => (mapKeys m).Nodup) (fun b : Member => b.id.toStr) mkNode
    (fun acc _ h => nodup_mapKeys_mapSet acc _ _ h) ms [] List.nodup_nil

theorem step1_keyIsId (ms : List Member) : KeyIsId (step1 ms) :=
  foldl_mapSet_inv KeyIsId (fun b : Member => b.id.toStr) mkNode
    (fun _ _ h => keyIsId_mapSet h rfl) ms [] (fun _ h => by simp at h)

/-- Every object of the registry is the copy of an input record with that id. -/
theorem step1_mem (ms : List Member) :
    ∀ e ∈ step1 ms, ∃ member ∈ ms, e = (member.id.toStr, mkNode member) := by
  have key : ∀ (l : List Member) (acc : List (String × Node)),
      (∀ e ∈ acc, ∃ member ∈ ms, e = (member.id.toStr, mkNode member)) →
      (∀ b ∈ l, b ∈ ms) →
      ∀ e ∈ l.foldl (fun mm b => mapSet mm b.id.toStr (mkNode b)) acc,
        ∃ member ∈ ms, e = (member.id.toStr, mkNode member) := by
    intro l
    induction l with
    | nil => intro acc h _; exact h
    | cons b l ih =>
      intro acc h hl
      apply ih
      · intro e he
        rcases mem_mapSet he with rfl | he
        · exact ⟨b, hl b (List.mem_cons_self _ _), rfl⟩
        · exact h e he
      · intro b' hb'
        exact hl b' (List.mem_cons_of_mem _ hb')
  exact key ms [] (fun _ h => by simp at h) (fun _ h => h)

theorem step1_get {ms : List Member} {key : String} {n : Node}
    (h : mapGet (step1 ms) key = some n) :
    ∃ member ∈ ms, member.id.toStr = key ∧ n = mkNode member := by
  obtain ⟨member, hm, he⟩ := step1_mem ms _ (mem_of_mapGet h)
  cases he
  exact ⟨member, hm, rfl, rfl⟩

/-- Every input record has its canonical id among the keys of the registry. -/
theorem step1_keys (ms : List Member) :
    ∀ member ∈ ms, member.id.toStr ∈ mapKeys (step1 ms) := by
  have key : ∀ (l : List Member) (acc : List (String × Node)) (k : String),
      (k ∈ mapKeys acc ∨ ∃ b ∈ l, b.id.toStr = k) →
      k ∈ mapKeys (l.foldl (fun mm b => mapSet mm b.id.toStr (mkNode b)) acc) := by
    intro l
    induction l with
    | nil =>
      intro acc k h
      rcases h with h | ⟨b, hb, _⟩
      · exact h
      · simp at hb
    | cons b l ih =>
      intro acc k h
      apply ih
      rcases h with h | ⟨b', hb', rfl⟩
      · exact Or.inl ((mem_mapKeys_mapSet _ _ _ _).2 (Or.inr h))
      · rcases List.mem_cons.1 hb' with rfl | hb'
        · exact Or.inl ((mem_mapKeys_mapSet _ _ _ _).2 (Or.inl rfl))
        · exact Or.inr ⟨b', hb', rfl⟩
  intro member hm
  exact key ms [] _ (Or.inr ⟨member, hm, rfl⟩)

/-- With pairwise distinct canonical ids the registry is the list of record copies,
in input order. -/
theorem step1_of_nodup (ms : List Member) (h : (ms.map (fun m => m.id.toStr)).Nodup) :
    step1 ms = ms.map (fun m => (m.id.toStr, mkNode m)) := by
  have key : ∀ (l : List Member) (acc : List (String × Node)),
      (mapKeys acc ++ l.map (fun m => m.id.toStr)).Nodup →
      l.foldl (fun mm b => mapSet mm b.id.toStr (mkNode b)) acc
        = acc ++ l.map (fun m => (m.id.toStr, mkNode m)) := by
    intro l
    induction l with
    | nil => intro acc _; simp
    | cons b l ih =>
      intro acc hnd
      have hb : b.id.toStr ∉ mapKeys acc := by
        intro hb
        have := List.disjoint_of_nodup_append hnd hb
        simp at this
      simp only [List.foldl_cons, List.map_cons]
      rw [mapSet_of_not_mem _ _ _ hb, ih]
      · simp
      · rw [mapKeys_append]
        simpa [mapKeys] using hnd
  simpa using key ms [] (by simpa [mapKeys] using h)

/-! ## Step 2: the parentage index -/

theorem getD_addClaim (p : String) (acc : List (String × List String)) (c' c : String) :
    (mapGet (addClaim p acc c') c).getD [] =
      if c' = c then (mapGet acc c).getD [] ++ [p] else (mapGet acc c).getD [] := by
  unfold addClaim
  rw [mapGet_mapSet]
  by_cases h : c' = c
  · subst h; simp
  · simp [h]

theorem getD_foldl_addClaim (p : String) (ids : List String) :
    ∀ (acc : List (String × List String)) (c : String),
      (mapGet (ids.foldl (addClaim p) acc) c).getD [] =
        (mapGet acc c).getD [] ++ (ids.filter (fun x => x = c)).map (fun _ => p) := by
  induction ids with
  | nil => intro acc c; simp
  | cons i ids ih =>
    intro acc c
    rw [List.foldl_cons, ih, getD_addClaim]
    by_cases h : i = c
    · simp [h]
    · simp [h]

theorem nonEmpty_foldl_addClaim (p : String) (ids : List String) :
    ∀ (acc : List (String × List String)), NonEmptyLists acc →
      NonEmptyLists (ids.foldl (addClaim p) acc) := by
  induction ids with
  | nil => intro acc h; exact h
  | cons i ids ih =>
    intro acc h
    apply ih
    intro e he
    rcases mem_mapSet he with rfl | he
    · simp
    · exact h e he

theorem nodup_foldl_addClaim (p : String) (ids : List String) :
    ∀ (acc : List (String × List String)), (mapKeys acc).Nodup →
      (mapKeys (ids.foldl (addClaim p) acc)).Nodup := by
  induction ids with
  | nil => intro acc h; exact h
  | cons i ids ih =>
    intro acc h
    exact ih _ (nodup_mapKeys_mapSet _ _ _ h)

theorem step2_aux (m : List (String × Node)) :
    ∀ (acc : List (String × List String)), NonEmptyLists acc → (mapKeys acc).Nodup →
      let r := m.foldl
        (fun childToParents entry =>
          (entry.2._childIds.getD []).foldl (addClaim entry.2.id) childToParents) acc
      NonEmptyLists r ∧ (mapKeys r).Nodup ∧
        ∀ c, (mapGet r c).getD [] = (mapGet acc c).getD [] ++ claimList m c := by
  induction m with
  | nil => intro acc h1 h2; simp [claimList, h1, h2]
  | cons e m ih =>
    intro acc h1 h2
    have := ih ((e.2._childIds.getD []).foldl (addClaim e.2.id) acc)
      (nonEmpty_foldl_addClaim e.2.id _ acc h1) (nodup_foldl_addClaim e.2.id _ acc h2)
    refine ⟨this.1, this.2.1, ?_⟩
    intro c
    have h3 := this.2.2 c
    simp only [List.foldl_cons]
    rw [h3, getD_foldl_addClaim]
    simp [claimList, List.append_assoc]

theorem step2_nodup (m : List (String × Node)) : (mapKeys (step2 m)).Nodup :=
  (step2_aux m [] (fun _ h => by simp at h) List.nodup_nil).2.1

theorem step2_nonEmpty (m : List (String × Node)) : NonEmptyLists (step2 m) :=
  (step2_aux m [] (fun _ h => by simp at h) List.nodup_nil).1

/-- The index maps a child id to its claim list, and has no entry for an id nobody
lists. -/
theorem step2_get (m : List (String × Node)) (c : String) :
    mapGet (step2 m) c = if claimList m c = [] then none else some (claimList m c) := by
  have h := (step2_aux m [] (fun _ h => by simp at h) List.nodup_nil).2.2 c
  have hne := step2_nonEmpty m
  simp only [mapGet, Option.getD_none, List.nil_append] at h
  change (mapGet (step2 m) c).getD [] = claimList m c at h
  cases hg : mapGet (step2 m) c with
  | none =>
    rw [hg] at h
    simp at h
    simp [← h]
  | some l =>
    rw [hg] at h
    simp at h
    have : l ≠ [] := hne _ (mem_of_mapGet hg)
    subst h
    simp [this]

theorem step2_mem {m : List (String × Node)} {e : String × List String}
    (h : e ∈ step2 m) : e.2 = claimList m e.1 ∧ e.2 ≠ [] := by
  have hg : mapGet (step2 m) e.1 = some e.2 := mapGet_of_mem (step2_nodup m) h
  rw [step2_get] at hg
  by_cases h0 : claimList m e.1 = []
  · simp [h0] at hg
  · simp only [h0, if_false, Option.some.injEq] at hg
    exact ⟨hg.symm, hg ▸ h0⟩

theorem mem_claimList {m : List (String × Node)} {c p : String} :
    p ∈ claimList m c ↔ ∃ e ∈ m, e.2.id = p ∧ c ∈ e.2._childIds.getD [] := by
  unfold claimList
  simp only [List.mem_flatMap, List.mem_map, List.mem_filter, decide_eq_true_eq]
  constructor
  · rintro ⟨e, he, x, ⟨hx, rfl⟩, rfl⟩
    exact ⟨e, he, rfl, hx⟩
  · rintro ⟨e, he, rfl, hc⟩
    exact ⟨e, he, c, ⟨hc, rfl⟩, rfl⟩

/-- Every parent of a claim list is a key of the lookup. -/
theorem claimList_subset_keys {m : List (String × Node)} (hk : KeyIsId m) {c p : String}
    (h : p ∈ claimList m c) : p ∈ mapKeys m := by
  obtain ⟨e, he, rfl, _⟩ := mem_claimList.1 h
  rw [hk e he]
  exact List.mem_map.2 ⟨e, he, rfl⟩

/-! ## The pair search -/

theorem findPair_cons (m : List (String × Node)) (ps : List String) (pid : String)
    (todo : List String) :
    findPair m ps (pid :: todo) = (eligible m ps pid).orElse (fun _ => findPair m ps todo) := by
  rw [findPair]
  unfold eligible
  cases mapGet m pid with
  | none => rfl
  | some pA =>
    simp only
    cases spouseKey pA with
    | none => rfl
    | some s =>
      simp only
      by_cases h1 : s = ""
      · simp [h1]
      · by_cases h2 : s ∈ ps
        · simp only [h1, h2, if_true, if_false]
          cases mapGet m s <;> rfl
        · simp [h1, h2]

/-- The pair search returns the pair of the first eligible parent. -/
theorem findPair_eq_findSome (m : List (String × Node)) (ps todo : List String) :
    findPair m ps todo = todo.findSome? (eligible m ps) := by
  induction todo with
  | nil => rfl
  | cons pid todo ih =>
    rw [findPair_cons, List.findSome?_cons, ih]
    cases eligible m ps pid <;> rfl

theorem findPair_eq_none_iff (m : List (String × Node)) (ps todo : List String) :
    findPair m ps todo = none ↔ ∀ p ∈ todo, eligible m ps p = none := by
  induction todo with
  | nil => simp [findPair]
  | cons pid todo ih =>
    rw [findPair_cons]
    cases h : eligible m ps pid with
    | none => simp [ih, h]
    | some ab => simp [h]

/-- The pair search stops at the first eligible parent. -/
theorem findPair_first (m : List (String × Node)) (ps pre post : List String) (p : String)
    (ab : Node × Node) (hpre : ∀ q ∈ pre, eligible m ps q = none)
    (hp : eligible m ps p = some ab) : findPair m ps (pre ++ p :: post) = some ab := by
  induction pre with
  | nil => simp [findPair_cons, hp]
  | cons q pre ih =>
    rw [List.cons_append, findPair_cons, hpre q (List.mem_cons_self _ _)]
    exact ih (fun q' hq' => hpre q' (List.mem_cons_of_mem _ hq'))

/-- A pair found comes from a first eligible parent. -/
theorem findPair_some {m : List (String × Node)} {ps todo : List String} {ab : Node × Node}
    (h : findPair m ps todo = some ab) :
    ∃ pre p post, todo = pre ++ p :: post ∧ (∀ q ∈ pre, eligible m ps q = none) ∧
      eligible m ps p = some ab := by
  induction todo with
  | nil => simp [findPair] at h
  | cons pid todo ih =>
    rw [findPair_cons] at h
    cases he : eligible m ps pid with
    | none =>
      rw [he] at h
      obtain ⟨pre, p, post, rfl, h1, h2⟩ := ih h
      refine ⟨pid :: pre, p, post, rfl, ?_, h2⟩
      intro q hq
      rcases List.mem_cons.1 hq with rfl | hq
      · exact he
      · exact h1 q hq
    | some ab' =>
      rw [he] at h
      simp at h
      subst h
      exact ⟨[], pid, todo, rfl, by simp, he⟩

theorem eligible_some {m : List (String × Node)} {ps : List String} {p : String}
    {a b : Node} (h : eligible m ps p = some (a, b)) :
    mapGet m p = some a ∧ ∃ s, spouseKey a = some s ∧ s ≠ "" ∧ s ∈ ps ∧ mapGet m s = some b := by
  unfold eligible at h
  cases h1 : mapGet m p with
  | none => simp [h1] at h
  | some pA =>
    simp only [h1] at h
    cases h2 : spouseKey pA with
    | none => simp [h2] at h
    | some s =>
      simp only [h2] at h
      by_cases h3 : s = ""
      · simp [h3] at h
      · by_cases h4 : s ∈ ps
        · simp only [h3, h4, if_true, if_false] at h
          cases h5 : mapGet m s with
          | none => simp [h5] at h
          | some pB =>
            simp only [h5, Option.some.injEq, Prod.mk.injEq] at h
            obtain ⟨rfl, rfl⟩ := h
            exact ⟨rfl, s, h2, h3, h4, h5⟩
        · simp [h3, h4] at h

theorem eligible_of {m : List (String × Node)} {ps : List String} {p s : String}
    {a b : Node} (h1 : mapGet m p = some a) (h2 : spouseKey a = some s) (h3 : s ≠ "")
    (h4 : s ∈ ps) (h5 : mapGet m s = some b) : eligible m ps p = some (a, b) := by
  unfold eligible
  simp [h1, h2, h3, h4, h5]

/-! ### A truthy spouse id never coerces to the empty string -/

theorem toDigits_ne_nil (n : Nat) : Nat.toDigits 10 n ≠ [] := by
  intro h
  have hl : (Nat.toDigits 10 n).length = 0 := by rw [h]; rfl
  unfold Nat.toDigits at hl
  rw [Nat.toDigitsCore] at hl
  by_cases h0 : n / 10 = 0
  · simp [h0] at hl
  · simp only [h0, if_false] at hl
    rw [Nat.toDigitsCore_lens_eq] at hl
    omega

theorem natRepr_ne_empty (n : Nat) : Nat.repr n ≠ "" := by
  intro h
  have : (Nat.repr n).data = [] := by rw [h]
  exact toDigits_ne_nil n (by simpa [Nat.repr, List.asString] using this)

theorem intToString_ne_empty (n : Int) : toString n ≠ "" := by
  show Int.repr n ≠ ""
  cases n with
  | ofNat m => exact natRepr_ne_empty m
  | negSucc m =>
    intro h
    have : (Int.repr (Int.negSucc m)).length = 0 := by rw [h]; rfl
    simp only [Int.repr, String.length_append] at this
    have h1 : "-".length = 1 := rfl
    omega

theorem spouseKey_ne_empty {n : Node} {s : String} (h : spouseKey n = some s) : s ≠ "" := by
  unfold spouseKey at h
  by_cases ht : n.spouseId.truthy = true
  · simp only [ht, if_true, Option.some.injEq] at h
    subst h
    cases hs : n.spouseId with
    | undefined => simp [hs, JsVal.truthy] at ht
    | null => simp [hs, JsVal.truthy] at ht
    | num k => exact intToString_ne_empty k
    | str t =>
      rw [hs] at ht
      simpa [JsVal.truthy, JsVal.toStr] using ht
  · simp [ht] at h

/-! ## Step 4: resolving the working lists -/

theorem mapGet_map_snd {α : Type} (m : List (String × α)) (g : String → α → α) (key : String) :
    mapGet (m.map (fun e => (e.1, g e.1 e.2))) key = (mapGet m key).map (g key) := by
  induction m with
  | nil => rfl
  | cons e m ih =>
    obtain ⟨k, x⟩ := e
    by_cases h : k = key
    · subst h; simp [mapGet]
    · simp [mapGet, h, ih]

theorem mapKeys_map_snd {α : Type} (m : List (String × α)) (g : String → α → α) :
    mapKeys (m.map (fun e => (e.1, g e.1 e.2))) = mapKeys m := by
  simp [mapKeys, Function.comp_def]

theorem resolveIds_nil (m : List (String × Node)) : resolveIds m [] = [] := rfl

theorem resolveIds_append (m : List (String × Node)) (l₁ l₂ : List String) :
    resolveIds m (l₁ ++ l₂) = resolveIds m l₁ ++ resolveIds m l₂ := by
  simp [resolveIds, List.filterMap_append]

theorem resolveIds_singleton (m : List (String × Node)) (c : String) :
    resolveIds m [c] = ((mapGet m c).map Node.id).toList := by
  unfold resolveIds
  cases h : mapGet m c <;> simp [List.filterMap, h]

theorem resolveIds_congr {m cur : List (String × Node)}
    (h : ∀ key, (mapGet cur key).map Node.id = (mapGet m key).map Node.id) (l : List String) :
    resolveIds cur l = resolveIds m l := by
  unfold resolveIds
  congr 1
  funext cid
  exact h cid

theorem resolved_id (m : List (String × Node)) (n : Node) : (resolved m n).id = n.id := rfl

theorem linkInv_ids {m : List (String × Node)} {visited : List String} {q : String} {n : Node}
    {done : List String} {cur : List (String × Node)} (h : LinkInv m visited q n done cur)
    (hq : mapGet m q = some n) (key : String) :
    (mapGet cur key).map Node.id = (mapGet m key).map Node.id := by
  by_cases hk : key = q
  · subst hk
    rw [h.2.1, hq]
    rfl
  · rcases h.2.2 key hk with h1 | h1
    · rw [h1.1]
    · rw [h1]
      cases mapGet m key <;> rfl

/-- One iteration of the inner loop of step 4 keeps the loop invariant. -/
theorem linkChild_inv {m : List (String × Node)} (hm : Linkable m) {visited : List String}
    {q : String} {n : Node} {done : List String} {cur : List (String × Node)} {c : String}
    (hq : mapGet m q = some n) (hc : c ∈ n._childIds.getD [])
    (h : LinkInv m visited q n done cur) :
    LinkInv m visited q n (done ++ [c]) (linkChild q cur c) := by
  have hids := linkInv_ids h hq
  unfold linkChild
  cases hcur : mapGet cur c with
  | none =>
    have hmc : mapGet m c = none := by
      have := hids c
      rw [hcur] at this
      cases hmc : mapGet m c with
      | none => rfl
      | some x => rw [hmc] at this; simp at this
    simp only
    refine ⟨h.1, ?_, h.2.2⟩
    rw [h.2.1, resolveIds_append, resolveIds_singleton, hmc]
    simp
  | some child =>
    simp only
    obtain ⟨nc, hnc⟩ : ∃ nc, mapGet m c = some nc := by
      have := hids c
      rw [hcur] at this
      cases hmc : mapGet m c with
      | none => rw [hmc] at this; simp at this
      | some x => exact ⟨x, rfl⟩
    have hcid : child.id = nc.id := by
      have := hids c
      rw [hcur, hnc] at this
      simpa using this
    have hres : resolveIds m (done ++ [c]) = resolveIds m done ++ [child.id] := by
      rw [resolveIds_append, resolveIds_singleton, hnc, hcid]
      rfl
    by_cases hcq : c = q
    · -- the member lists itself: it is no family unit, so only the push happens
      subst hcq
      have hchild : child = { n with children := resolveIds m done } := by
        rw [h.2.1] at hcur
        exact (Option.some.inj hcur).symm
      have hnt : n.nodeType ≠ some "family-unit" := fun hnt =>
        hm.notSelf _ (mem_of_mapGet hq) hnt hc
      have hcond : (if child.nodeType = some "family-unit" then child._childIds else none)
          = none := by
        rw [hchild]; simp [hnt]
      rw [hcond]
      simp only
      refine ⟨by rw [mapKeys_mapModify]; exact h.1, ?_, ?_⟩
      · rw [mapGet_mapModify, if_pos rfl, h.2.1, hres, hchild]
        rfl
      · intro key hk
        rw [mapGet_mapModify, if_neg (fun e => hk e.symm)]
        exact h.2.2 key hk
    · have hqc : ¬ q = c := fun e => hcq e.symm
      cases hcond : (if child.nodeType = some "family-unit" then child._childIds else none) with
      | none =>
        simp only
        refine ⟨by rw [mapKeys_mapModify]; exact h.1, ?_, ?_⟩
        · rw [mapGet_mapModify, if_pos rfl, h.2.1, hres]
          rfl
        · intro key hk
          rw [mapGet_mapModify, if_neg (fun e => hk e.symm)]
          exact h.2.2 key hk
      | some ids =>
        simp only
        have hfu : child.nodeType = some "family-unit" ∧ child._childIds = some ids := by
          by_cases hnt : child.nodeType = some "family-unit"
          · exact ⟨hnt, by simpa [hnt] using hcond⟩
          · simp [hnt] at hcond
        -- the child is an untouched family unit: it takes its final form
        have hchild : child = nc := by
          rcases h.2.2 c hcq with h1 | h1
          · rw [h1.1, hnc] at hcur
            exact (Option.some.inj hcur).symm
          · rw [h1, hnc] at hcur
            have := (Option.some.inj hcur).symm
            rw [this] at hfu
            simp [resolved] at hfu
        refine ⟨by rw [mapKeys_mapModify, mapKeys_mapModify]; exact h.1, ?_, ?_⟩
        · rw [mapGet_mapModify, if_pos rfl, mapGet_mapModify, if_neg hcq, h.2.1, hres]
          rfl
        · intro key hk
          rw [mapGet_mapModify, if_neg (fun e => hk e.symm), mapGet_mapModify]
          by_cases hkc : c = key
          · subst hkc
            right
            rw [if_pos rfl, hcur, hnc, hchild]
            simp only [Option.map_some', resolved]
            rw [resolveIds_congr hids, ← hchild, hfu.2]
            rfl
          · rw [if_neg hkc]
            exact h.2.2 key hk

theorem foldl_linkChild_inv {m : List (String × Node)} (hm : Linkable m)
    {visited : List String} {q : String} {n : Node} (hq : mapGet m q = some n) :
    ∀ (todo done : List String) (cur : List (String × Node)),
      (∀ c ∈ todo, c ∈ n._childIds.getD []) → LinkInv m visited q n done cur →
      LinkInv m visited q n (done ++ todo) (todo.foldl (linkChild q) cur) := by
  intro todo
  induction todo with
  | nil => intro done cur _ h; simpa using h
  | cons c todo ih =>
    intro done cur hsub h
    have := ih (done ++ [c]) (linkChild q cur c)
      (fun c' hc' => hsub c' (List.mem_cons_of_mem _ hc'))
      (linkChild_inv hm hq (hsub c (List.mem_cons_self _ _)) h)
    simpa using this

/-- One iteration of the outer loop of step 4 keeps the loop invariant. -/
theorem resolveMember_inv {m : List (String × Node)} (hm : Linkable m)
    {visited : List String} {cur : List (String × Node)} (q : String)
    (h : Step4Inv m visited cur) : Step4Inv m (q :: visited) (resolveMember cur q) := by
  unfold resolveMember
  cases hcur : mapGet cur q with
  | none =>
    simp only
    refine ⟨h.1, fun key => ?_⟩
    rcases h.2 key with h1 | h1
    · by_cases hk : key = q
      · subst hk
        right
        rw [hcur, ← h1.1, hcur]
        rfl
      · left
        exact ⟨h1.1, by simp [hk, h1.2]⟩
    · exact Or.inr h1
  | some member =>
    simp only
    rcases h.2 q with h1 | h1
    · -- the member is untouched
      have hq : mapGet m q = some member := by rw [← h1.1, hcur]
      have hch : member.children = [] := hm.noChildren _ (mem_of_mapGet hq)
      have hstart : LinkInv m visited q member [] cur := by
        refine ⟨h.1, ?_, fun key _ => h.2 key⟩
        rw [hcur, resolveIds_nil, ← hch]
      have hend := foldl_linkChild_inv hm hq (member._childIds.getD []) [] cur
        (fun _ hc => hc) hstart
      rw [List.nil_append] at hend
      refine ⟨by rw [mapKeys_mapModify]; exact hend.1, fun key => ?_⟩
      rw [mapGet_mapModify]
      by_cases hk : q = key
      · subst hk
        right
        rw [if_pos rfl, hend.2.1, hq]
        rfl
      · rw [if_neg hk]
        rcases hend.2.2 key (fun e => hk e.symm) with h2 | h2
        · left
          refine ⟨h2.1, ?_⟩
          rw [List.mem_cons, not_or]
          exact ⟨fun e => hk e.symm, h2.2⟩
        · exact Or.inr h2
    · -- the member already has its final form: nothing is left to do
      obtain ⟨n, hn⟩ : ∃ n, mapGet m q = some n := by
        rw [hcur] at h1
        cases hmq : mapGet m q with
        | none => rw [hmq] at h1; simp at h1
        | some x => exact ⟨x, rfl⟩
      have hmem : member = resolved m n := by
        rw [hcur, hn] at h1
        exact Option.some.inj h1
      have hnone : member._childIds = none := by rw [hmem]; rfl
      rw [hnone]
      simp only [Option.getD_none, List.foldl_nil]
      refine ⟨by rw [mapKeys_mapModify]; exact h.1, fun key => ?_⟩
      rw [mapGet_mapModify]
      by_cases hk : q = key
      · subst hk
        right
        rw [if_pos rfl, hcur, hn, hmem]
        rfl
      · rw [if_neg hk]
        rcases h.2 key with h2 | h2
        · left
          refine ⟨h2.1, ?_⟩
          rw [List.mem_cons, not_or]
          exact ⟨fun e => hk e.symm, h2.2⟩
        · exact Or.inr h2

theorem foldl_resolveMember_inv {m : List (String × Node)} (hm : Linkable m) :
    ∀ (keys visited : List String) (cur : List (String × Node)),
      Step4Inv m visited cur →
      Step4Inv m (keys.reverse ++ visited) (keys.foldl resolveMember cur) := by
  intro keys
  induction keys with
  | nil => intro visited cur h; simpa using h
  | cons q keys ih =>
    intro visited cur h
    have := ih (q :: visited) (resolveMember cur q) (resolveMember_inv hm q h)
    simpa using this

/-- Step 4 replaces every object of the lookup by its resolved form. -/
theorem step4_eq {m : List (String × Node)} (hm : Linkable m) :
    step4 m = m.map (fun e => (e.1, resolved m e.2)) := by
  have h0 : Step4Inv m [] m := ⟨rfl, fun key => Or.inl ⟨rfl, by simp⟩⟩
  have h := foldl_resolveMember_inv hm (mapKeys m) [] m h0
  have hk : mapKeys (step4 m) = mapKeys (m.map (fun e => (e.1, resolved m e.2))) := by
    rw [mapKeys_map_snd m (fun _ n => resolved m n)]
    exact h.1
  apply map_ext hk
  · rw [hk, mapKeys_map_snd m (fun _ n => resolved m n)]
    exact hm.nodup
  · intro key
    rw [mapGet_map_snd m (fun _ n => resolved m n)]
    rcases h.2 key with h1 | h1
    · have hnot : key ∉ mapKeys m := by simpa using h1.2
      have hnone := (mapGet_eq_none_iff m key).2 hnot
      show mapGet (step4 m) key = _
      unfold step4
      rw [h1.1, hnone]
      rfl
    · exact h1

/-! ## Step 3 on arbitrary input: the shape of the lookup -/

theorem allNodes_mapSet {P : String → Node → Prop} {m : List (String × Node)}
    (h : AllNodes P m) {k : String} {v : Node} (hv : P k v) : AllNodes P (mapSet m k v) := by
  intro key n hg
  rw [mapGet_mapSet] at hg
  by_cases hk : k = key
  · subst hk
    simp only [if_true, Option.some.injEq] at hg
    exact hg ▸ hv
  · rw [if_neg hk] at hg
    exact h key n hg

theorem allNodes_mapModify {P : String → Node → Prop} {m : List (String × Node)}
    (h : AllNodes P m) {k : String} {f : Node → Node}
    (hf : ∀ n, mapGet m k = some n → P k (f n)) : AllNodes P (mapModify m k f) := by
  intro key n hg
  rw [mapGet_mapModify] at hg
  by_cases hk : k = key
  · subst hk
    rw [if_pos rfl] at hg
    cases hm : mapGet m k with
    | none => rw [hm] at hg; simp at hg
    | some x =>
      rw [hm] at hg
      simp only [Option.map_some', Option.some.injEq] at hg
      exact hg ▸ hf x hm
  · rw [if_neg hk] at hg
    exact h key n hg

theorem allNodes_of_mem {P : String → Node → Prop} {m : List (String × Node)}
    (h : AllNodes P m) (hnd : (mapKeys m).Nodup) : ∀ e ∈ m, P e.1 e.2 :=
  fun e he => h e.1 e.2 (mapGet_of_mem hnd he)

theorem familyId_length (a b : Node) (c : String) :
    (familyId a b c).length = 7 + a.id.length + 1 + b.id.length + 1 + c.length := by
  simp only [familyId, String.length_append]
  rfl

theorem familyId_ne_left (a b : Node) (c : String) : familyId a b c ≠ a.id := by
  intro h
  have := congrArg String.length h
  rw [familyId_length] at this
  omega

theorem familyId_ne_right (a b : Node) (c : String) : familyId a b c ≠ b.id := by
  intro h
  have := congrArg String.length h
  rw [familyId_length] at this
  omega

theorem familyId_ne_child (a b : Node) (c : String) : familyId a b c ≠ c := by
  intro h
  have := congrArg String.length h
  rw [familyId_length] at this
  omega

theorem spouseKey_familyUnit (a b : Node) (c : String) : spouseKey (familyUnit a b c) = none :=
  rfl

theorem fromPair_mono {m0 : List (String × Node)} {done : List (String × List String)}
    {n : Node} (h : FromPair m0 done n) (e : String × List String) :
    FromPair m0 (done ++ [e]) n := by
  obtain ⟨pre, c, ps, post, a, b, rfl, h1, h2, h3⟩ := h
  exact ⟨pre, c, ps, post ++ [e], a, b, by simp, h1, h2, h3⟩

theorem shape_mono {m0 : List (String × Node)} {done : List (String × List String)}
    {key : String} {n : Node} (h : Shape m0 done key n) (e : String × List String) :
    Shape m0 (done ++ [e]) key n := by
  refine ⟨h.1, h.2.1, ?_⟩
  rcases h.2.2 with h' | h'
  · exact Or.inl h'
  · exact Or.inr (fromPair_mono h' e)

/-- Removing the child of the current iteration leaves every shape intact: a family
unit allocated by an earlier iteration holds another child id. -/
theorem shape_dropChild {m0 : List (String × Node)} {done : List (String × List String)}
    {key : String} {n : Node} (h : Shape m0 done key n) {c0 : String}
    (hc0 : c0 ∉ mapKeys done) : Shape m0 done key (dropChild c0 n) := by
  refine ⟨h.1, h.2.1, ?_⟩
  rcases h.2.2 with h' | h'
  · exact Or.inl h'
  · right
    obtain ⟨pre, c, ps, post, a, b, hd, h1, h2, h3⟩ := h'
    refine ⟨pre, c, ps, post, a, b, hd, h1, h2, ?_⟩
    have hc : c ≠ c0 := by
      rintro rfl
      apply hc0
      rw [hd]
      simp [mapKeys]
    subst h3
    simp [dropChild, familyUnit, List.filter, hc]

theorem dropFromOthers_nil (c : String) (m : List (String × Node)) :
    dropFromOthers c m [] = m := rfl

theorem dropFromOthers_cons (c : String) (m : List (String × Node)) (p : String)
    (others : List String) :
    dropFromOthers c m (p :: others) =
      dropFromOthers c (if p ∈ mapKeys m then mapModify m p (dropChild c) else m) others := by
  unfold dropFromOthers
  rw [List.foldl_cons]
  by_cases hp : p ∈ mapKeys m
  · obtain ⟨x, hx⟩ := (mapGet_isSome_iff m p).2 hp
    rw [if_pos hp, hx]
  · rw [if_neg hp, (mapGet_eq_none_iff m p).2 hp]

/-- The fallback loop is one removal at each key of `others`. -/
theorem dropFromOthers_cons_eq (c : String) (m : List (String × Node)) (p : String)
    (others : List String) :
    dropFromOthers c m (p :: others) = dropFromOthers c (mapModify m p (dropChild c)) others := by
  rw [dropFromOthers_cons]
  by_cases hp : p ∈ mapKeys m
  · rw [if_pos hp]
  · rw [if_neg hp, mapModify_of_not_mem m p _ hp]

theorem mapKeys_dropFromOthers (c : String) (others : List String) :
    ∀ m : List (String × Node), mapKeys (dropFromOthers c m others) = mapKeys m := by
  induction others with
  | nil => intro m; rfl
  | cons p others ih =>
    intro m
    rw [dropFromOthers_cons_eq, ih, mapKeys_mapModify]

theorem allNodes_dropFromOthers {P : String → Node → Prop} {c : String}
    (hP : ∀ key n, P key n → P key (dropChild c n)) (others : List String) :
    ∀ m : List (String × Node), AllNodes P m → AllNodes P (dropFromOthers c m others) := by
  induction others with
  | nil => intro m h; exact h
  | cons p others ih =>
    intro m h
    rw [dropFromOthers_cons_eq]
    exact ih _ (allNodes_mapModify h (fun n hn => hP p n (h p n hn)))

theorem mapModify_mapSet_comm {α : Type} (m : List (String × α)) {k k' : String} (v : α)
    (f : α → α) (hk : k ≠ k') :
    mapModify (mapSet m k v) k' f = mapSet (mapModify m k' f) k v := by
  induction m with
  | nil => simp [mapSet, mapModify, hk]
  | cons e m ih =>
    obtain ⟨j, x⟩ := e
    by_cases h1 : j = k
    · subst h1
      simp [mapSet, mapModify, hk]
    · by_cases h2 : j = k'
      · subst h2
        simp [mapSet, mapModify, h1]
      · simp [mapSet, mapModify, h1, h2, ih]

/-- The pair branch of step 3, with the allocation of the family unit moved last. -/
theorem synthChild_pair {m : List (String × Node)} {e : String × List String} {a b : Node}
    (hl : 1 < e.2.length) (hp : findPair m e.2 e.2 = some (a, b)) :
    synthChild m e =
      mapSet (mapModify (mapModify (mapModify m a.id (dropChild e.1)) b.id (dropChild e.1))
        a.id (pushChild (familyId a b e.1))) (familyId a b e.1) (familyUnit a b e.1) := by
  unfold synthChild
  simp only [gt_iff_lt, hl, if_true, hp]
  rw [mapModify_mapSet_comm _ _ _ (familyId_ne_left a b e.1),
    mapModify_mapSet_comm _ _ _ (familyId_ne_right a b e.1),
    mapModify_mapSet_comm _ _ _ (familyId_ne_left a b e.1)]

theorem synthChild_noPair {m : List (String × Node)} {e : String × List String}
    (hl : 1 < e.2.length) (hp : findPair m e.2 e.2 = none) :
    synthChild m e = dropFromOthers e.1 m e.2.tail := by
  unfold synthChild
  simp only [gt_iff_lt, hl, if_true, hp]

theorem synthChild_single {m : List (String × Node)} {e : String × List String}
    (hl : ¬ 1 < e.2.length) : synthChild m e = m := by
  unfold synthChild
  simp only [gt_iff_lt, hl, if_false]

/-- The keys of the lookup after one iteration of step 3. -/
theorem mapKeys_synthChild (m : List (String × Node)) (e : String × List String) :
    mapKeys (synthChild m e) = mapKeys m ∨
      ∃ a b, 1 < e.2.length ∧ findPair m e.2 e.2 = some (a, b) ∧
        mapKeys (synthChild m e) = mapKeys (mapSet m (familyId a b e.1) (familyUnit a b e.1)) := by
  by_cases hl : 1 < e.2.length
  · cases hp : findPair m e.2 e.2 with
    | none =>
      left
      rw [synthChild_noPair hl hp]
      exact mapKeys_dropFromOthers _ _ _
    | some ab =>
      obtain ⟨a, b⟩ := ab
      right
      refine ⟨a, b, hl, rfl, ?_⟩
      unfold synthChild
      simp only [gt_iff_lt, hl, if_true, hp, mapKeys_mapModify]
  · rw [synthChild_single hl]
    exact Or.inl rfl

theorem nodup_synthChild {m : List (String × Node)} (e : String × List String)
    (h : (mapKeys m).Nodup) : (mapKeys (synthChild m e)).Nodup := by
  rcases mapKeys_synthChild m e with h' | ⟨a, b, _, _, h'⟩
  · rwa [h']
  · rw [h']
    exact nodup_mapKeys_mapSet _ _ _ h

theorem mem_mapKeys_synthChild {m : List (String × Node)} (e : String × List String)
    {key : String} (h : key ∈ mapKeys m) : key ∈ mapKeys (synthChild m e) := by
  rcases mapKeys_synthChild m e with h' | ⟨a, b, _, _, h'⟩
  · rwa [h']
  · rw [h']
    exact (mem_mapKeys_mapSet _ _ _ _).2 (Or.inr h)

theorem spouseKey_dropChild (c : String) (n : Node) : spouseKey (dropChild c n) = spouseKey n :=
  rfl

/-- The working-list edits of step 3 do not touch what the pair search reads. -/
theorem mapGet_mapModify_congr {β : Type} (g : Node → β) (m : List (String × Node)) (k : String)
    (f : Node → Node) (hf : ∀ n, g (f n) = g n) (key : String) :
    (mapGet (mapModify m k f) key).map g = (mapGet m key).map g := by
  rw [mapGet_mapModify]
  by_cases hk : k = key
  · subst hk
    rw [if_pos rfl]
    cases mapGet m k <;> simp [hf]
  · rw [if_neg hk]

theorem step3_append (m0 : List (String × Node)) (done : List (String × List String))
    (e : String × List String) : step3 m0 (done ++ [e]) = synthChild (step3 m0 done) e := by
  simp [step3, List.foldl_append]

/-- One iteration of step 3 keeps the shapes. -/
theorem shape_synthChild {m0 : List (String × Node)} {done : List (String × List String)}
    (e : String × List String) (he : e.1 ∉ mapKeys done)
    (h : AllNodes (Shape m0 done) (step3 m0 done)) :
    AllNodes (Shape m0 (done ++ [e])) (synthChild (step3 m0 done) e) := by
  have hmono : ∀ m, AllNodes (Shape m0 done) m → AllNodes (Shape m0 (done ++ [e])) m :=
    fun m hm key n hg => shape_mono (hm key n hg) e
  by_cases hl : 1 < e.2.length
  · cases hp : findPair (step3 m0 done) e.2 e.2 with
    | none =>
      rw [synthChild_noPair hl hp]
      have hP : ∀ key n, Shape m0 done key n → Shape m0 done key (dropChild e.1 n) :=
        fun key n hs => shape_dropChild hs he
      exact hmono _ (allNodes_dropFromOthers hP _ _ h)
    | some ab =>
      obtain ⟨a, b⟩ := ab
      rw [synthChild_pair hl hp]
      obtain ⟨pre, p, post, _, _, hel⟩ := findPair_some hp
      obtain ⟨hga, s, hs, _, _, hgb⟩ := eligible_some hel
      have hpa : a.id = p := (h p a hga).1
      have h1 : AllNodes (Shape m0 done) (mapModify (step3 m0 done) a.id (dropChild e.1)) :=
        allNodes_mapModify h (fun n hn => shape_dropChild (h _ n hn) he)
      have h2 : AllNodes (Shape m0 done)
          (mapModify (mapModify (step3 m0 done) a.id (dropChild e.1)) b.id (dropChild e.1)) :=
        allNodes_mapModify h1 (fun n hn => shape_dropChild (h1 _ n hn) he)
      have hsp : (mapGet (mapModify (mapModify (step3 m0 done) a.id (dropChild e.1)) b.id
          (dropChild e.1)) a.id).map spouseKey = some (some s) := by
        rw [mapGet_mapModify_congr spouseKey _ _ _ (spouseKey_dropChild e.1),
          mapGet_mapModify_congr spouseKey _ _ _ (spouseKey_dropChild e.1), hpa, hga]
        simp [hs]
      have h3 : AllNodes (Shape m0 done)
          (mapModify (mapModify (mapModify (step3 m0 done) a.id (dropChild e.1)) b.id
            (dropChild e.1)) a.id (pushChild (familyId a b e.1))) := by
        apply allNodes_mapModify h2
        intro n hn
        rw [hn] at hsp
        have hsn : spouseKey n = some s := by simpa using hsp
        have hshape := h2 _ n hn
        refine ⟨hshape.1, hshape.2.1, ?_⟩
        rcases hshape.2.2 with h' | h'
        · exact Or.inl h'
        · obtain ⟨_, c, _, _, a', b', _, _, _, h3⟩ := h'
          rw [h3, spouseKey_familyUnit] at hsn
          simp at hsn
      apply allNodes_mapSet (hmono _ h3)
      exact ⟨rfl, rfl, Or.inr ⟨done, e.1, e.2, [], a, b, rfl, hl, hp, rfl⟩⟩
  · rw [synthChild_single hl]
    exact hmono _ h

/-- The lookup keeps distinct keys through step 3. -/
theorem step3_nodup {m0 : List (String × Node)} (h0 : (mapKeys m0).Nodup) :
    ∀ done : List (String × List String), (mapKeys (step3 m0 done)).Nodup := by
  intro done
  induction done using List.reverseRecOn with
  | nil => exact h0
  | append_singleton done e ih =>
    rw [step3_append]
    exact nodup_synthChild e ih

/-- Every key of the lookup stays a key through step 3. -/
theorem step3_keys {m0 : List (String × Node)} {key : String} (h0 : key ∈ mapKeys m0) :
    ∀ done : List (String × List String), key ∈ mapKeys (step3 m0 done) := by
  intro done
  induction done using List.reverseRecOn with
  | nil => exact h0
  | append_singleton done e ih =>
    rw [step3_append]
    exact mem_mapKeys_synthChild e ih

/-- Step 3 produces only record copies and family units allocated from a pair. -/
theorem step3_shape {m0 : List (String × Node)}
    (h0 : AllNodes (fun key n => n.id = key ∧ n.children = [] ∧ n.nodeType = none ∧
      n.spouses = none) m0) :
    ∀ done : List (String × List String), (mapKeys done).Nodup →
      AllNodes (Shape m0 done) (step3 m0 done) := by
  intro done
  induction done using List.reverseRecOn with
  | nil =>
    intro _ key n hg
    obtain ⟨h1, h2, h3, h4⟩ := h0 key n hg
    exact ⟨h1, h2, Or.inl ⟨h3, h4⟩⟩
  | append_singleton done e ih =>
    intro hnd
    rw [mapKeys_append, List.nodup_append] at hnd
    rw [step3_append]
    apply shape_synthChild e _ (ih hnd.1)
    intro he
    exact hnd.2.2 he (by simp [mapKeys])

theorem step1_allNodes (ms : List Member) :
    AllNodes (fun key n => n.id = key ∧ n.children = [] ∧ n.nodeType = none ∧
      n.spouses = none) (step1 ms) := by
  intro key n hg
  obtain ⟨member, _, hk, rfl⟩ := step1_get hg
  exact ⟨hk, rfl, rfl, rfl⟩

/-- The lookup after synthesis satisfies what step 4 needs, whatever the input. -/
theorem synthesize_linkable (ms : List Member) : Linkable (synthesize ms) := by
  have hnd : (mapKeys (synthesize ms)).Nodup := step3_nodup (step1_nodup ms) _
  have hs := allNodes_of_mem (step3_shape (step1_allNodes ms) _ (step2_nodup (step1 ms))) hnd
  refine ⟨hnd, fun e he => (hs e he).1, fun e he => (hs e he).2.1, ?_⟩
  intro e he hfu
  rcases (hs e he).2.2 with h' | h'
  · rw [h'.1] at hfu
    simp at hfu
  · obtain ⟨_, c, _, _, a, b, _, _, _, h3⟩ := h'
    have hid := (hs e he).1
    rw [h3] at hid
    rw [h3]
    simp only [familyUnit, Option.getD_some, List.mem_singleton]
    intro hc
    exact familyId_ne_child a b c (hid.trans hc)

/-- The lookup returned by `assemble`: every object of the lookup after synthesis, in
its resolved form. -/
theorem assemble_memberMap (ms : List Member) :
    (assemble ms).memberMap =
      (synthesize ms).map (fun e => (e.1, resolved (synthesize ms) e.2)) :=
  step4_eq (synthesize_linkable ms)

/-! ## Step 3 without id clashes: the exact outcome -/

theorem mapGet_append {α : Type} (m₁ m₂ : List (String × α)) (key : String) :
    mapGet (m₁ ++ m₂) key = if key ∈ mapKeys m₁ then mapGet m₁ key else mapGet m₂ key := by
  induction m₁ with
  | nil => simp [mapKeys]
  | cons e m ih =>
    obtain ⟨k, x⟩ := e
    by_cases h : k = key
    · subst h
      simp [mapGet, mapKeys]
    · have h' : ¬ key = k := fun h' => h h'.symm
      rw [List.cons_append, mapGet_cons, if_neg h, ih, mapKeys_cons, mapGet_cons, if_neg h]
      simp only [List.mem_cons, h', false_or]

theorem mapGet_recordPart (m0 : List (String × Node)) (done : List (String × List String))
    (q : String) : mapGet (recordPart m0 done) q = (mapGet m0 q).map (updated m0 done q) :=
  mapGet_map_snd m0 (updated m0 done) q

theorem mapKeys_recordPart (m0 : List (String × Node)) (done : List (String × List String)) :
    mapKeys (recordPart m0 done) = mapKeys m0 :=
  mapKeys_map_snd m0 (updated m0 done)

theorem removedBy_nil (m0 : List (String × Node)) (q x : String) :
    removedBy m0 [] q x = false := rfl

theorem removedBy_append (m0 : List (String × Node)) (done : List (String × List String))
    (e : String × List String) (q x : String) :
    removedBy m0 (done ++ [e]) q x =
      (removedBy m0 done q x || (decide (e.1 = x) && removes m0 e q)) := by
  simp [removedBy, List.any_append]

theorem pushedTo_append (m0 : List (String × Node)) (done : List (String × List String))
    (e : String × List String) (q : String) :
    pushedTo m0 (done ++ [e]) q = pushedTo m0 done q ++ (pushOf m0 e q).toList := by
  unfold pushedTo
  rw [List.filterMap_append]
  cases h : pushOf m0 e q <;> simp [List.filterMap, h]

theorem unitPart_append (m0 : List (String × Node)) (done : List (String × List String))
    (e : String × List String) :
    unitPart m0 (done ++ [e]) = unitPart m0 done ++ (plannedUnit m0 e).toList := by
  unfold unitPart
  rw [List.filterMap_append]
  cases h : plannedUnit m0 e <;> simp [List.filterMap, h]

theorem recordPart_nil {m0 : List (String × Node)} (h : ∀ e ∈ m0, ∃ l, e.2._childIds = some l) :
    recordPart m0 [] = m0 := by
  unfold recordPart
  conv_rhs => rw [← List.map_id m0]
  apply List.map_congr_left
  intro e he
  obtain ⟨l, hl⟩ := h e he
  obtain ⟨k, n⟩ := e
  simp only [id, Prod.mk.injEq, true_and]
  simp only at hl
  cases n
  simp only at hl
  subst hl
  simp [updated, workList, removedBy, pushedTo]

theorem updated_id (m0 : List (String × Node)) (done : List (String × List String))
    (q : String) (n : Node) : (updated m0 done q n).id = n.id := rfl

theorem spouseKey_updated (m0 : List (String × Node)) (done : List (String × List String))
    (q : String) (n : Node) : spouseKey (updated m0 done q n) = spouseKey n := rfl

theorem familyId_updated (m0 : List (String × Node)) (done : List (String × List String))
    (q q' : String) (a b : Node) (c : String) :
    familyId (updated m0 done q a) (updated m0 done q' b) c = familyId a b c := rfl

theorem familyUnit_updated (m0 : List (String × Node)) (done : List (String × List String))
    (q q' : String) (a b : Node) (c : String) :
    familyUnit (updated m0 done q a) (updated m0 done q' b) c = familyUnit a b c := rfl

/-- The ids of the family units of an initial part of the index are ids of family units of
the index. -/
theorem mapKeys_unitPart_initial (m0 : List (String × Node))
    (done post : List (String × List String)) {g : String}
    (h : g ∈ mapKeys (unitPart m0 done)) : g ∈ mapKeys (unitPart m0 (done ++ post)) := by
  unfold unitPart at *
  rw [List.filterMap_append, mapKeys_append]
  exact List.mem_append_left _ h

theorem mem_pushedTo {m0 : List (String × Node)} {done : List (String × List String)}
    {q g : String} (h : g ∈ pushedTo m0 done q) :
    ∃ e ∈ done, ∃ a b, decision m0 e = some (a, b) ∧ a.id = q ∧ g = familyId a b e.1 := by
  unfold pushedTo at h
  obtain ⟨e, he, hp⟩ := List.mem_filterMap.1 h
  refine ⟨e, he, ?_⟩
  unfold pushOf at hp
  cases hd : decision m0 e with
  | none => simp [hd] at hp
  | some ab =>
    obtain ⟨a, b⟩ := ab
    simp only [hd] at hp
    by_cases hq : a.id = q
    · simp only [hq, if_true, Option.some.injEq] at hp
      exact ⟨a, b, rfl, hq, hp.symm⟩
    · simp [hq] at hp

theorem mem_unitPart {m0 : List (String × Node)} {done : List (String × List String)}
    {u : String × Node} :
    u ∈ unitPart m0 done ↔
      ∃ e ∈ done, ∃ a b, decision m0 e = some (a, b) ∧
        u = (familyId a b e.1, familyUnit a b e.1) := by
  unfold unitPart
  rw [List.mem_filterMap]
  constructor
  · rintro ⟨e, he, hp⟩
    unfold plannedUnit at hp
    cases hd : decision m0 e with
    | none => simp [hd] at hp
    | some ab =>
      rw [hd] at hp
      simp only [Option.map_some', Option.some.injEq] at hp
      exact ⟨e, he, ab.1, ab.2, hd, hp.symm⟩
  · rintro ⟨e, he, a, b, hd, rfl⟩
    refine ⟨e, he, ?_⟩
    unfold plannedUnit
    rw [hd]
    rfl

theorem mem_mapKeys_unitPart {m0 : List (String × Node)} {done : List (String × List String)}
    {g : String} :
    g ∈ mapKeys (unitPart m0 done) ↔
      ∃ e ∈ done, ∃ a b, decision m0 e = some (a, b) ∧ g = familyId a b e.1 := by
  unfold mapKeys
  rw [List.mem_map]
  constructor
  · rintro ⟨u, hu, rfl⟩
    obtain ⟨e, he, a, b, hd, rfl⟩ := mem_unitPart.1 hu
    exact ⟨e, he, a, b, hd, rfl⟩
  · rintro ⟨e, he, a, b, hd, rfl⟩
    exact ⟨_, mem_unitPart.2 ⟨e, he, a, b, hd, rfl⟩, rfl⟩

/-- An id pushed on a working list is the id of a family unit. -/
theorem pushedTo_subset_units {m0 : List (String × Node)} {done : List (String × List String)}
    {q g : String} (h : g ∈ pushedTo m0 done q) : g ∈ mapKeys (unitPart m0 done) := by
  obtain ⟨e, he, a, b, hd, _, hg⟩ := mem_pushedTo h
  exact mem_mapKeys_unitPart.2 ⟨e, he, a, b, hd, hg⟩

theorem dropChild_idem (c : String) (n : Node) : dropChild c (dropChild c n) = dropChild c n := by
  cases n with
  | mk id name spouseId nodeType spouses children childIds =>
    cases childIds <;> simp [dropChild, List.filter_filter]

/-- The object under `q` after the three edits of the pair branch. -/
theorem mapGet_pairEdits (m : List (String × Node)) (ka kb : String) (f g : Node → Node)
    (hf : ∀ n, f (f n) = f n) (q : String) :
    mapGet (mapModify (mapModify (mapModify m ka f) kb f) ka g) q =
      (mapGet m q).map (fun n => if ka = q then g (f n) else if kb = q then f n else n) := by
  rw [mapGet_mapModify]
  by_cases h1 : ka = q
  · subst h1
    rw [if_pos rfl, mapGet_mapModify]
    by_cases h2 : kb = ka
    · subst h2
      rw [if_pos rfl, mapGet_mapModify, if_pos rfl]
      cases mapGet m kb <;> simp [hf]
    · rw [if_neg h2, mapGet_mapModify, if_pos rfl]
      cases mapGet m ka <;> simp
  · rw [if_neg h1, mapGet_mapModify]
    by_cases h2 : kb = q
    · subst h2
      rw [if_pos rfl, mapGet_mapModify, if_neg h1]
      cases mapGet m kb <;> simp [h1]
    · rw [if_neg h2, mapGet_mapModify, if_neg h1]
      cases mapGet m q <;> simp [h1, h2]

/-- The object under `q` after the fallback loop. -/
theorem mapGet_dropFromOthers (c : String) (others : List String) :
    ∀ (m : List (String × Node)) (q : String),
      mapGet (dropFromOthers c m others) q =
        (mapGet m q).map (fun n => if q ∈ others then dropChild c n else n) := by
  induction others with
  | nil => intro m q; simp [dropFromOthers_nil]
  | cons p others ih =>
    intro m q
    rw [dropFromOthers_cons_eq, ih, mapGet_mapModify]
    by_cases hp : p = q
    · subst hp
      rw [if_pos rfl]
      cases mapGet m p with
      | none => rfl
      | some n =>
        by_cases ho : p ∈ others <;> simp [ho, dropChild_idem]
    · rw [if_neg hp]
      have hp' : ¬ q = p := fun h => hp h.symm
      cases mapGet m q with
      | none => rfl
      | some n => simp [hp']

/-! ### The working list after one more entry -/

theorem workList_append_removed {m0 : List (String × Node)}
    {done : List (String × List String)} {e : String × List String} {q : String}
    (orig : List String) (hrem : removes m0 e q = true)
    (hfresh : ∀ g ∈ pushedTo m0 done q, g ≠ e.1) :
    (workList m0 done q orig).filter (fun id => id ≠ e.1) ++ (pushOf m0 e q).toList =
      workList m0 (done ++ [e]) q orig := by
  unfold workList
  rw [pushedTo_append, List.filter_append, List.filter_filter, ← List.append_assoc]
  congr 1
  congr 1
  · apply List.filter_congr
    intro x _
    rw [removedBy_append, hrem]
    by_cases hx : x = e.1
    · simp [hx]
    · have hx' : ¬ e.1 = x := fun h => hx h.symm
      simp [hx, hx']
  · rw [List.filter_eq_self]
    intro g hg
    simpa using hfresh g hg

theorem workList_append_kept {m0 : List (String × Node)}
    {done : List (String × List String)} {e : String × List String} {q : String}
    (orig : List String) (hrem : removes m0 e q = false) (hpush : pushOf m0 e q = none) :
    workList m0 done q orig = workList m0 (done ++ [e]) q orig := by
  unfold workList
  rw [pushedTo_append, hpush]
  simp only [Option.toList_none, List.append_nil]
  congr 1
  apply List.filter_congr
  intro x _
  rw [removedBy_append, hrem]
  simp

theorem updated_drop {m0 : List (String × Node)} {done : List (String × List String)}
    {e : String × List String} {q : String} (n : Node) (hrem : removes m0 e q = true)
    (hfresh : ∀ g ∈ pushedTo m0 done q, g ≠ e.1) (hpush : pushOf m0 e q = none) :
    dropChild e.1 (updated m0 done q n) = updated m0 (done ++ [e]) q n := by
  have := workList_append_removed (n._childIds.getD []) hrem hfresh
  rw [hpush] at this
  simp only [Option.toList_none, List.append_nil] at this
  simp [dropChild, updated, ← this]

theorem updated_drop_push {m0 : List (String × Node)} {done : List (String × List String)}
    {e : String × List String} {q g : String} (n : Node) (hrem : removes m0 e q = true)
    (hfresh : ∀ g ∈ pushedTo m0 done q, g ≠ e.1) (hpush : pushOf m0 e q = some g) :
    pushChild g (dropChild e.1 (updated m0 done q n)) = updated m0 (done ++ [e]) q n := by
  have := workList_append_removed (n._childIds.getD []) hrem hfresh
  rw [hpush] at this
  simp only [Option.toList_some] at this
  simp [pushChild, dropChild, updated, ← this]

theorem updated_keep {m0 : List (String × Node)} {done : List (String × List String)}
    {e : String × List String} {q : String} (n : Node) (hrem : removes m0 e q = false)
    (hpush : pushOf m0 e q = none) :
    updated m0 done q n = updated m0 (done ++ [e]) q n := by
  simp [updated, ← workList_append_kept (n._childIds.getD []) hrem hpush]

/-! ### The lookup between two iterations of step 3 -/

theorem clean_unitKey_not_mem {m0 : List (String × Node)} {idx : List (String × List String)}
    (h : Clean m0 idx) {done post : List (String × List String)} (hidx : idx = done ++ post)
    {g : String} (hg : g ∈ mapKeys (unitPart m0 done)) :
    g ∉ mapKeys m0 ∧ g ∉ mapKeys idx :=
  h.fresh g (hidx ▸ mapKeys_unitPart_initial m0 done post hg)

theorem clean_nodup_current {m0 : List (String × Node)} {idx : List (String × List String)}
    (h : Clean m0 idx) {done post : List (String × List String)} (hidx : idx = done ++ post) :
    (mapKeys (recordPart m0 done ++ unitPart m0 done)).Nodup := by
  rw [mapKeys_append, mapKeys_recordPart]
  refine List.Nodup.append h.nodup0 ?_ ?_
  · have := h.unitsNodup
    rw [hidx] at this
    unfold unitPart at this
    rw [List.filterMap_append, mapKeys_append] at this
    exact (List.nodup_append.1 this).1
  · intro g hg hg'
    exact (clean_unitKey_not_mem h hidx hg').1 hg

theorem mapGet_current {m0 : List (String × Node)} (done : List (String × List String))
    (U : List (String × Node)) {q : String} (hq : q ∈ mapKeys m0) :
    mapGet (recordPart m0 done ++ U) q = (mapGet m0 q).map (updated m0 done q) := by
  rw [mapGet_append, mapKeys_recordPart, if_pos hq, mapGet_recordPart]

/-- The pair search reads the same ids and spouse ids in the current lookup as in
the registry. -/
theorem eligible_current {m0 : List (String × Node)} (hk : KeyIsId m0)
    (done : List (String × List String)) (U : List (String × Node)) {ps : List String}
    (hps : ∀ p ∈ ps, p ∈ mapKeys m0) {p : String} (hp : p ∈ ps) :
    eligible (recordPart m0 done ++ U) ps p =
      (eligible m0 ps p).map
        (fun ab => (updated m0 done ab.1.id ab.1, updated m0 done ab.2.id ab.2)) := by
  unfold eligible
  rw [mapGet_current done U (hps p hp)]
  cases hga : mapGet m0 p with
  | none => rfl
  | some a =>
    have hida : a.id = p := keyIsId_get hk hga
    simp only [Option.map_some', spouseKey_updated]
    cases hs : spouseKey a with
    | none => rfl
    | some s =>
      simp only
      by_cases h1 : s = ""
      · simp [h1]
      · by_cases h2 : s ∈ ps
        · simp only [h1, h2, if_true, if_false]
          rw [mapGet_current done U (hps s h2)]
          cases hgb : mapGet m0 s with
          | none => rfl
          | some b =>
            have hidb : b.id = s := keyIsId_get hk hgb
            simp [hida, hidb]
        · simp [h1, h2]

theorem findPair_current {m0 : List (String × Node)} (hk : KeyIsId m0)
    (done : List (String × List String)) (U : List (String × Node)) {ps : List String}
    (hps : ∀ p ∈ ps, p ∈ mapKeys m0) :
    ∀ todo : List String, (∀ p ∈ todo, p ∈ ps) →
      findPair (recordPart m0 done ++ U) ps todo =
        (findPair m0 ps todo).map
          (fun ab => (updated m0 done ab.1.id ab.1, updated m0 done ab.2.id ab.2)) := by
  intro todo
  induction todo with
  | nil => intro _; rfl
  | cons p todo ih =>
    intro hsub
    rw [findPair_cons, findPair_cons, eligible_current hk done U hps (hsub p (List.mem_cons_self _ _)),
      ih (fun p' hp' => hsub p' (List.mem_cons_of_mem _ hp'))]
    cases eligible m0 ps p <;> rfl

/-- The lookup after an iteration of step 3, from a description of the edit `T` it
applies to each object. -/
theorem current_ext {m0 : List (String × Node)} {idx : List (String × List String)}
    (h : Clean m0 idx) {done post : List (String × List String)} {e : String × List String}
    (hidx : idx = done ++ e :: post) {M : List (String × Node)} (T : String → Node → Node)
    (hkeys : mapKeys M = mapKeys (recordPart m0 done ++ unitPart m0 done))
    (hget : ∀ q, mapGet M q = (mapGet (recordPart m0 done ++ unitPart m0 done) q).map (T q))
    (hT : ∀ q n0, mapGet m0 q = some n0 →
      T q (updated m0 done q n0) = updated m0 (done ++ [e]) q n0)
    (hT' : ∀ q n, q ∉ mapKeys m0 → T q n = n) :
    M = recordPart m0 (done ++ [e]) ++ unitPart m0 done := by
  have hnd := clean_nodup_current h hidx
  apply map_ext
  · rw [hkeys, mapKeys_append, mapKeys_append, mapKeys_recordPart, mapKeys_recordPart]
  · rw [hkeys]; exact hnd
  · intro q
    rw [hget]
    by_cases hq : q ∈ mapKeys m0
    · rw [mapGet_current done _ hq, mapGet_current (done ++ [e]) _ hq]
      cases hg : mapGet m0 q with
      | none => rfl
      | some n0 => simp [hT q n0 hg]
    · rw [mapGet_append, mapKeys_recordPart, if_neg hq, mapGet_append, mapKeys_recordPart,
        if_neg hq]
      cases mapGet (unitPart m0 done) q with
      | none => rfl
      | some n => simp [hT' q n hq]

theorem decision_of_long {m0 : List (String × Node)} {e : String × List String}
    (hl : 1 < e.2.length) : decision m0 e = findPair m0 e.2 e.2 := by
  unfold decision; rw [if_pos hl]

theorem decision_of_short {m0 : List (String × Node)} {e : String × List String}
    (hl : ¬ 1 < e.2.length) : decision m0 e = none := by
  unfold decision; rw [if_neg hl]

/-- A pair found in the registry consists of two registered objects, the first one
a parent of the claim list. -/
theorem findPair_ids {m0 : List (String × Node)} (hk : KeyIsId m0) {ps : List String}
    {a b : Node} (hp : findPair m0 ps ps = some (a, b)) :
    a.id ∈ ps ∧ b.id ∈ ps ∧ mapGet m0 a.id = some a ∧ mapGet m0 b.id = some b ∧
      spouseKey a = some b.id := by
  obtain ⟨pre, p, post, hps, _, hel⟩ := findPair_some hp
  obtain ⟨hga, s, hs, _, hsp, hgb⟩ := eligible_some hel
  have hida : a.id = p := keyIsId_get hk hga
  have hidb : b.id = s := keyIsId_get hk hgb
  refine ⟨?_, ?_, ?_, ?_, ?_⟩
  · rw [hida, hps]; simp
  · rw [hidb]; exact hsp
  · rw [hida]; exact hga
  · rw [hidb]; exact hgb
  · rw [hidb]; exact hs

/-- One iteration of step 3, in the description. -/
theorem synthChild_current {m0 : List (String × Node)} {idx : List (String × List String)}
    (h : Clean m0 idx) {done post : List (String × List String)} {e : String × List String}
    (hidx : idx = done ++ e :: post) :
    synthChild (recordPart m0 done ++ unitPart m0 done) e =
      recordPart m0 (done ++ [e]) ++ unitPart m0 (done ++ [e]) := by
  have hidx' : idx = done ++ (e :: post) := hidx
  have he : e ∈ idx := by rw [hidx]; simp
  have hps : ∀ p ∈ e.2, p ∈ mapKeys m0 := h.parents e he
  have hc : e.1 ∈ mapKeys idx := List.mem_map.2 ⟨e, he, rfl⟩
  have hfresh : ∀ q, ∀ g ∈ pushedTo m0 done q, g ≠ e.1 := by
    intro q g hg hge
    exact (clean_unitKey_not_mem h hidx' (pushedTo_subset_units hg)).2 (hge ▸ hc)
  by_cases hl : 1 < e.2.length
  · have hfp := findPair_current h.keyIsId0 done (unitPart m0 done) hps e.2 (fun _ hp => hp)
    cases hp : findPair m0 e.2 e.2 with
    | none =>
      rw [hp] at hfp
      have hdec : decision m0 e = none := by rw [decision_of_long hl, hp]
      rw [synthChild_noPair hl hfp, unitPart_append]
      have hpu : plannedUnit m0 e = none := by unfold plannedUnit; rw [hdec]; rfl
      rw [hpu]
      simp only [Option.toList_none, List.append_nil]
      apply current_ext h hidx (fun q n => if q ∈ e.2.tail then dropChild e.1 n else n)
      · exact mapKeys_dropFromOthers _ _ _
      · intro q; exact mapGet_dropFromOthers _ _ _ _
      · intro q n0 _
        have hpush : pushOf m0 e q = none := by unfold pushOf; rw [hdec]
        by_cases hq : q ∈ e.2.tail
        · rw [if_pos hq]
          apply updated_drop n0 _ (hfresh q) hpush
          unfold removes; rw [hdec]; simp [hl, hq]
        · rw [if_neg hq]
          apply updated_keep n0 _ hpush
          unfold removes; rw [hdec]; simp [hq]
      · intro q n hq
        have : q ∉ e.2.tail := fun hq' => hq (hps q (List.mem_of_mem_tail hq'))
        rw [if_neg this]
    | some ab =>
      obtain ⟨a, b⟩ := ab
      rw [hp] at hfp
      have hdec : decision m0 e = some (a, b) := by rw [decision_of_long hl, hp]
      obtain ⟨ha, hb, hga, hgb, _⟩ := findPair_ids h.keyIsId0 hp
      have hpu : plannedUnit m0 e = some (familyId a b e.1, familyUnit a b e.1) := by
        unfold plannedUnit; rw [hdec]; rfl
      have hgu : familyId a b e.1 ∈ mapKeys (unitPart m0 idx) :=
        mem_mapKeys_unitPart.2 ⟨e, he, a, b, hdec, rfl⟩
      rw [synthChild_pair hl hfp, unitPart_append, hpu]
      simp only [updated_id, familyId_updated, familyUnit_updated, Option.toList_some]
      have hX : mapModify (mapModify (mapModify (recordPart m0 done ++ unitPart m0 done) a.id
          (dropChild e.1)) b.id (dropChild e.1)) a.id (pushChild (familyId a b e.1)) =
          recordPart m0 (done ++ [e]) ++ unitPart m0 done := by
        apply current_ext h hidx (fun q n => if a.id = q then
          pushChild (familyId a b e.1) (dropChild e.1 n) else if b.id = q then dropChild e.1 n
          else n)
        · simp only [mapKeys_mapModify]
        · intro q; exact mapGet_pairEdits _ _ _ _ _ (dropChild_idem e.1) q
        · intro q n0 _
          by_cases h1 : a.id = q
          · rw [if_pos h1]
            apply updated_drop_push n0 _ (hfresh q)
            · unfold pushOf; rw [hdec]; simp [h1]
            · unfold removes; rw [hdec]; simp [h1]
          · rw [if_neg h1]
            have hpush : pushOf m0 e q = none := by unfold pushOf; rw [hdec]; simp [h1]
            by_cases h2 : b.id = q
            · rw [if_pos h2]
              apply updated_drop n0 _ (hfresh q) hpush
              unfold removes; rw [hdec]; simp [h2]
            · rw [if_neg h2]
              apply updated_keep n0 _ hpush
              unfold removes; rw [hdec]
              have h1' : ¬ q = a.id := fun h => h1 h.symm
              have h2' : ¬ q = b.id := fun h => h2 h.symm
              simp [h1', h2']
        · intro q n hq
          have h1 : ¬ a.id = q := fun h1 => hq (h1 ▸ hps _ ha)
          have h2 : ¬ b.id = q := fun h2 => hq (h2 ▸ hps _ hb)
          rw [if_neg h1, if_neg h2]
      rw [hX, mapSet_of_not_mem, List.append_assoc]
      rw [mapKeys_append, mapKeys_recordPart, List.mem_append, not_or]
      refine ⟨(h.fresh _ hgu).1, ?_⟩
      have hnd := h.unitsNodup
      rw [hidx] at hnd
      have hsplit : unitPart m0 (done ++ e :: post) =
          unitPart m0 done ++ (familyId a b e.1, familyUnit a b e.1) :: unitPart m0 post := by
        unfold unitPart
        rw [List.filterMap_append, List.filterMap_cons, hpu]
      rw [hsplit, mapKeys_append, mapKeys_cons] at hnd
      intro hmem
      exact (List.nodup_append.1 hnd).2.2 hmem (List.mem_cons_self _ _)
  · have hdec : decision m0 e = none := decision_of_short hl
    have hpu : plannedUnit m0 e = none := by unfold plannedUnit; rw [hdec]; rfl
    rw [synthChild_single hl, unitPart_append, hpu]
    simp only [Option.toList_none, List.append_nil]
    apply current_ext h hidx (fun _ n => n)
    · rfl
    · intro q; cases mapGet (recordPart m0 done ++ unitPart m0 done) q <;> rfl
    · intro q n0 _
      apply updated_keep n0
      · unfold removes; rw [hdec]; simp [hl]
      · unfold pushOf; rw [hdec]
    · intro _ _ _; rfl

/-- The lookup after the entries `done` of the index, when no id clashes. -/
theorem step3_initial {m0 : List (String × Node)} {idx : List (String × List String)}
    (h : Clean m0 idx) :
    ∀ done post : List (String × List String), idx = done ++ post →
      step3 m0 done = recordPart m0 done ++ unitPart m0 done := by
  intro done
  induction done using List.reverseRecOn with
  | nil =>
    intro post _
    rw [recordPart_nil h.some0]
    simp [step3, unitPart]
  | append_singleton done e ih =>
    intro post hidx
    have hidx' : idx = done ++ e :: post := by rw [hidx]; simp
    rw [step3_append, ih (e :: post) hidx', synthChild_current h hidx']

theorem step3_clean {m0 : List (String × Node)} {idx : List (String × List String)}
    (h : Clean m0 idx) : step3 m0 idx = recordPart m0 idx ++ unitPart m0 idx :=
  step3_initial h idx [] (by simp)

/-! ## The forest returned by `buildTree` -/

theorem buildTree_some {ms : List Member} {f : Forest} (h : buildTree (some ms) = some f) :
    ms ≠ [] ∧ f = assemble ms := by
  cases ms with
  | nil => simp [buildTree] at h
  | cons m ms =>
    simp only [buildTree, Option.some.injEq] at h
    exact ⟨by simp, h.symm⟩

theorem buildTree_of_ne_nil {ms : List Member} (h : ms ≠ []) :
    buildTree (some ms) = some (assemble ms) := by
  cases ms with
  | nil => exact absurd rfl h
  | cons m ms => rfl

theorem clean_of_noClash {ms : List Member} (h : NoClash ms) :
    Clean (step1 ms) (step2 (step1 ms)) where
  nodup0 := step1_nodup ms
  keyIsId0 := step1_keyIsId ms
  some0 := by
    intro e he
    obtain ⟨member, _, rfl⟩ := step1_mem ms e he
    exact ⟨_, rfl⟩
  idxNodup := step2_nodup _
  parents := by
    intro e he p hp
    rw [(step2_mem he).1] at hp
    exact claimList_subset_keys (step1_keyIsId ms) hp
  unitsNodup := h.1
  fresh := h.2

/-- Without id clashes the lookup after synthesis is the record copies with their
working lists rewritten, followed by the family units in allocation order. -/
theorem synthesize_eq {ms : List Member} (h : NoClash ms) :
    synthesize ms =
      recordPart (step1 ms) (step2 (step1 ms)) ++ unitPart (step1 ms) (step2 (step1 ms)) :=
  step3_clean (clean_of_noClash h)

theorem synthesize_keyIsId (ms : List Member) : KeyIsId (synthesize ms) :=
  (synthesize_linkable ms).keyIsId

/-- Every key of the registry is a key of the lookup after synthesis. -/
theorem mem_keys_synthesize {ms : List Member} {key : String}
    (h : key ∈ mapKeys (step1 ms)) : key ∈ mapKeys (synthesize ms) :=
  step3_keys h _

theorem mapKeys_assemble (ms : List Member) :
    mapKeys (assemble ms).memberMap = mapKeys (synthesize ms) := by
  rw [assemble_memberMap]
  exact mapKeys_map_snd _ (fun _ n => resolved (synthesize ms) n)

theorem mapGet_assemble (ms : List Member) (key : String) :
    mapGet (assemble ms).memberMap key =
      (mapGet (synthesize ms) key).map (resolved (synthesize ms)) := by
  rw [assemble_memberMap]
  exact mapGet_map_snd _ (fun _ n => resolved (synthesize ms) n) key

/-- Resolving a working list keeps exactly the ids that are registered. -/
theorem resolveIds_eq_filter {m : List (String × Node)} (hk : KeyIsId m) (l : List String) :
    resolveIds m l = l.filter (fun x => decide (x ∈ mapKeys m)) := by
  induction l with
  | nil => rfl
  | cons x l ih =>
    unfold resolveIds at ih ⊢
    rw [List.filterMap_cons, List.filter_cons]
    cases hg : mapGet m x with
    | none =>
      have : x ∉ mapKeys m := (mapGet_eq_none_iff m x).1 hg
      simp only [Option.map_none', this, decide_False, Bool.false_eq_true, if_false]
      exact ih
    | some n =>
      have : x ∈ mapKeys m := (mapGet_isSome_iff m x).1 ⟨n, hg⟩
      simp only [Option.map_some', this, decide_True, if_true, keyIsId_get hk hg]
      rw [ih]

theorem mem_resolveIds {m : List (String × Node)} (hk : KeyIsId m) {l : List String}
    {x : String} : x ∈ resolveIds m l ↔ x ∈ l ∧ x ∈ mapKeys m := by
  rw [resolveIds_eq_filter hk, List.mem_filter]
  simp

/-- The children, in the forest, of the object that synthesis leaves under `key`. -/
theorem childrenOf_assemble {ms : List Member} {key : String} {n : Node}
    (h : mapGet (synthesize ms) key = some n) :
    childrenOf (assemble ms) key = resolveIds (synthesize ms) (n._childIds.getD []) := by
  unfold childrenOf
  rw [mapGet_assemble, h]
  rfl

/-! ### Roots -/

theorem mem_foldl_children (m : List (String × Node)) :
    ∀ (acc : List String) (x : String),
      x ∈ m.foldl (fun used entry => used ++ entry.2.children) acc ↔
        x ∈ acc ∨ ∃ e ∈ m, x ∈ e.2.children := by
  induction m with
  | nil => intro acc x; simp
  | cons e m ih =>
    intro acc x
    rw [List.foldl_cons, ih, List.mem_append]
    constructor
    · rintro ((h | h) | ⟨e', he', h⟩)
      · exact Or.inl h
      · exact Or.inr ⟨e, List.mem_cons_self _ _, h⟩
      · exact Or.inr ⟨e', List.mem_cons_of_mem _ he', h⟩
    · rintro (h | ⟨e', he', h⟩)
      · exact Or.inl (Or.inl h)
      · rcases List.mem_cons.1 he' with rfl | he'
        · exact Or.inl (Or.inr h)
        · exact Or.inr ⟨e', he', h⟩

theorem mem_usedAsChild {m : List (String × Node)} {x : String} :
    x ∈ usedAsChild m ↔ ∃ e ∈ m, x ∈ e.2.children := by
  unfold usedAsChild
  rw [mem_foldl_children]
  simp

theorem mem_findRoots {m : List (String × Node)} {x : String} :
    x ∈ findRoots m ↔ ∃ e ∈ m, e.2.id = x ∧ x ∉ usedAsChild m := by
  unfold findRoots
  simp only [List.mem_map, List.mem_filter, decide_eq_true_eq]
  constructor
  · rintro ⟨e, ⟨he, hu⟩, rfl⟩
    exact ⟨e, he, rfl, hu⟩
  · rintro ⟨e, he, rfl, hu⟩
    exact ⟨e, ⟨he, hu⟩, rfl⟩

theorem mem_childrenOf {f : Forest} {key x : String} (h : x ∈ childrenOf f key) :
    ∃ e ∈ f.memberMap, x ∈ e.2.children := by
  unfold childrenOf at h
  cases hg : mapGet f.memberMap key with
  | none => rw [hg] at h; simp at h
  | some n =>
    rw [hg] at h
    exact ⟨(key, n), mem_of_mapGet hg, h⟩

/-- A node that is somebody's child is not a root. -/
theorem not_root_of_child {ms : List Member} {key x : String}
    (h : x ∈ childrenOf (assemble ms) key) : x ∉ (assemble ms).rootNodes := by
  intro hr
  have hr' : x ∈ findRoots (assemble ms).memberMap := hr
  obtain ⟨_, _, _, hu⟩ := mem_findRoots.1 hr'
  exact hu (mem_usedAsChild.2 (mem_childrenOf h))

/-! ### Working lists after synthesis -/

theorem removedBy_eq_true {m0 : List (String × Node)} {done : List (String × List String)}
    {q x : String} :
    removedBy m0 done q x = true ↔ ∃ e ∈ done, e.1 = x ∧ removes m0 e q = true := by
  unfold removedBy
  simp [List.any_eq_true]

theorem mem_workList {m0 : List (String × Node)} {done : List (String × List String)}
    {q x : String} {orig : List String} :
    x ∈ workList m0 done q orig ↔
      (x ∈ orig ∧ removedBy m0 done q x = false) ∨ x ∈ pushedTo m0 done q := by
  unfold workList
  rw [List.mem_append, List.mem_filter]
  simp

/-- Without id clashes, the object that synthesis leaves under a registry key. -/
theorem mapGet_synthesize_record {ms : List Member} (h : NoClash ms) {q : String} {n : Node}
    (hq : mapGet (step1 ms) q = some n) :
    mapGet (synthesize ms) q = some (updated (step1 ms) (step2 (step1 ms)) q n) := by
  rw [synthesize_eq h, mapGet_current _ _ ((mapGet_isSome_iff _ _).1 ⟨n, hq⟩), hq]
  rfl

/-- Without id clashes, the children of a record in the forest. -/
theorem mem_childrenOf_record {ms : List Member} (h : NoClash ms) {q : String} {n : Node}
    (hq : mapGet (step1 ms) q = some n) {x : String} :
    x ∈ childrenOf (assemble ms) q ↔
      x ∈ workList (step1 ms) (step2 (step1 ms)) q (n._childIds.getD []) ∧
        x ∈ mapKeys (synthesize ms) := by
  rw [childrenOf_assemble (mapGet_synthesize_record h hq), mem_resolveIds (synthesize_keyIsId ms)]
  rfl

/-- Without id clashes, the family unit of an entry with a pair is in the lookup
after synthesis, under its id. -/
theorem mapGet_synthesize_unit {ms : List Member} (h : NoClash ms) {e : String × List String}
    (he : e ∈ step2 (step1 ms)) {a b : Node} (hd : decision (step1 ms) e = some (a, b)) :
    mapGet (synthesize ms) (familyId a b e.1) = some (familyUnit a b e.1) := by
  have hmem : (familyId a b e.1, familyUnit a b e.1) ∈
      unitPart (step1 ms) (step2 (step1 ms)) := mem_unitPart.2 ⟨e, he, a, b, hd, rfl⟩
  have hkey : familyId a b e.1 ∈ mapKeys (unitPart (step1 ms) (step2 (step1 ms))) :=
    List.mem_map.2 ⟨_, hmem, rfl⟩
  rw [synthesize_eq h, mapGet_append, mapKeys_recordPart, if_neg (h.2 _ hkey).1]
  exact mapGet_of_mem h.1 hmem

/-- A child id of a record is a key of the index. -/
theorem mem_keys_step2 {m : List (String × Node)} {e : String × Node} (he : e ∈ m)
    {x : String} (hx : x ∈ e.2._childIds.getD []) : x ∈ mapKeys (step2 m) := by
  apply (mapGet_isSome_iff _ _).1
  have hne : claimList m x ≠ [] := by
    intro h0
    have : e.2.id ∈ claimList m x := mem_claimList.2 ⟨e, he, rfl, hx⟩
    rw [h0] at this
    simp at this
  exact ⟨claimList m x, by rw [step2_get, if_neg hne]⟩

/-! ### Claim lists and what synthesis does to a child -/

theorem eligible_eq_none {m : List (String × Node)} {ps : List String} {q : String}
    (h : ∀ t ∈ ps, spouseOf m q ≠ some t) : eligible m ps q = none := by
  unfold eligible
  cases hg : mapGet m q with
  | none => rfl
  | some n =>
    simp only
    cases hs : spouseKey n with
    | none => rfl
    | some t =>
      simp only
      have : t ∉ ps := fun ht => h t ht (by simp [spouseOf, hg, hs])
      simp [this]

theorem eligible_isSome {m : List (String × Node)} {ps : List String} {p s : String}
    (hps : ∀ q ∈ ps, q ∈ mapKeys m) (hs : spouseOf m p = some s) (hsin : s ∈ ps) :
    ∃ a b, mapGet m p = some a ∧ mapGet m s = some b ∧ eligible m ps p = some (a, b) := by
  unfold spouseOf at hs
  cases ha : mapGet m p with
  | none => rw [ha] at hs; simp at hs
  | some a =>
    rw [ha] at hs
    obtain ⟨b, hb⟩ := (mapGet_isSome_iff m s).2 (hps s hsin)
    exact ⟨a, b, rfl, hb, eligible_of ha hs (spouseKey_ne_empty hs) hsin hb⟩

theorem spouseOf_of_eligible {m : List (String × Node)} {ps : List String} {p : String}
    {ab : Node × Node} (h : eligible m ps p = some ab) :
    ∃ s ∈ ps, spouseOf m p = some s := by
  obtain ⟨a, b⟩ := ab
  obtain ⟨hga, s, hs, _, hsin, _⟩ := eligible_some h
  exact ⟨s, hsin, by simp [spouseOf, hga, hs]⟩

theorem parents_registered {ms : List Member} {e : String × List String}
    (he : e ∈ step2 (step1 ms)) : ∀ p ∈ e.2, p ∈ mapKeys (step1 ms) := by
  intro p hp
  rw [(step2_mem he).1] at hp
  exact claimList_subset_keys (step1_keyIsId ms) hp

/-- A parent of the claim list of `x` is a registered record that lists `x`. -/
theorem claimant_lists {ms : List Member} {e : String × List String}
    (he : e ∈ step2 (step1 ms)) {p : String} (hp : p ∈ e.2) :
    ∃ n, mapGet (step1 ms) p = some n ∧ e.1 ∈ n._childIds.getD [] := by
  rw [(step2_mem he).1] at hp
  obtain ⟨e0, he0, hid, hx⟩ := mem_claimList.1 hp
  refine ⟨e0.2, ?_, hx⟩
  have hkey : e0.1 = p := by rw [← (step1_keyIsId ms) e0 he0, hid]
  rw [← hkey]
  exact mapGet_of_mem (step1_nodup ms) he0

/-- The index has one entry per child id. -/
theorem entry_unique {m : List (String × Node)} {e e' : String × List String}
    (he : e ∈ step2 m) (he' : e' ∈ step2 m) (hk : e'.1 = e.1) : e' = e := by
  have h1 := mapGet_of_mem (step2_nodup m) he
  have h2 := mapGet_of_mem (step2_nodup m) he'
  rw [hk, h1] at h2
  obtain ⟨k, ps⟩ := e
  obtain ⟨k', ps'⟩ := e'
  simp only at hk
  subst hk
  simp only [Option.some.injEq] at h2
  rw [h2]

theorem removedBy_entry {m0 : List (String × Node)} {e : String × List String}
    (he : e ∈ step2 m0) (m : List (String × Node)) (q : String) :
    removedBy m (step2 m0) q e.1 = removes m e q := by
  cases hr : removes m e q with
  | true => exact removedBy_eq_true.2 ⟨e, he, rfl, hr⟩
  | false =>
    cases hb : removedBy m (step2 m0) q e.1 with
    | false => rfl
    | true =>
      obtain ⟨e', he', hk, hr'⟩ := removedBy_eq_true.1 hb
      rw [entry_unique he he' hk, hr] at hr'
      exact absurd hr' (by simp)

/-- A child id is never the id of a family unit pushed on a working list. -/
theorem not_pushed_of_child {ms : List Member} (h : NoClash ms) {x q : String}
    (hx : x ∈ mapKeys (step2 (step1 ms))) :
    x ∉ pushedTo (step1 ms) (step2 (step1 ms)) q :=
  fun hp => (h.2 x (pushedTo_subset_units hp)).2 hx

/-- Without id clashes a registered child stays under a parent that lists it and
from whose working list it is not removed. -/
theorem kept_child {ms : List Member} (h : NoClash ms) {q x : String} {n : Node}
    (hq : mapGet (step1 ms) q = some n) (hx : x ∈ n._childIds.getD [])
    (hkey : x ∈ mapKeys (step1 ms))
    (hrem : removedBy (step1 ms) (step2 (step1 ms)) q x = false) :
    x ∈ childrenOf (assemble ms) q :=
  (mem_childrenOf_record h hq).2 ⟨mem_workList.2 (Or.inl ⟨hx, hrem⟩), mem_keys_synthesize hkey⟩

/-- Without id clashes a child removed from a working list is not among the
children. -/
theorem not_child_of_removed {ms : List Member} (h : NoClash ms) {q : String} {n : Node}
    (hq : mapGet (step1 ms) q = some n) {e : String × List String}
    (he : e ∈ step2 (step1 ms)) (hrem : removes (step1 ms) e q = true) :
    e.1 ∉ childrenOf (assemble ms) q := by
  intro hc
  rcases mem_workList.1 ((mem_childrenOf_record h hq).1 hc).1 with h1 | h1
  · rw [removedBy_entry he, hrem] at h1
    simp at h1
  · exact not_pushed_of_child h (List.mem_map.2 ⟨e, he, rfl⟩) h1

/-- Two entries of the index with the same family-unit id are the same entry. -/
theorem filterMap_key_inj {α β : Type} (f : α → Option (String × β)) :
    ∀ (l : List α), (mapKeys (l.filterMap f)).Nodup → ∀ x ∈ l, ∀ y ∈ l, ∀ u v,
      f x = some u → f y = some v → u.1 = v.1 → x = y := by
  intro l
  induction l with
  | nil => intro _ x hx; simp at hx
  | cons z l ih =>
    intro hnd x hx y hy u v hfx hfy huv
    have hmem : ∀ w ∈ l, ∀ t, f w = some t → t.1 ∈ mapKeys (l.filterMap f) := by
      intro w hw t ht
      exact List.mem_map.2 ⟨t, List.mem_filterMap.2 ⟨w, hw, ht⟩, rfl⟩
    cases hfz : f z with
    | none =>
      rw [List.filterMap_cons, hfz] at hnd
      rcases List.mem_cons.1 hx with rfl | hx
      · rw [hfz] at hfx; simp at hfx
      · rcases List.mem_cons.1 hy with rfl | hy
        · rw [hfz] at hfy; simp at hfy
        · exact ih hnd x hx y hy u v hfx hfy huv
    | some w =>
      rw [List.filterMap_cons, hfz, mapKeys_cons, List.nodup_cons] at hnd
      rcases List.mem_cons.1 hx with hxz | hx'
      · rcases List.mem_cons.1 hy with hyz | hy'
        · rw [hxz, hyz]
        · exfalso
          rw [hxz, hfz] at hfx
          cases hfx
          exact hnd.1 (huv ▸ hmem y hy' v hfy)
      · rcases List.mem_cons.1 hy with hyz | hy'
        · exfalso
          rw [hyz, hfz] at hfy
          cases hfy
          exact hnd.1 (huv ▸ hmem x hx' u hfx)
        · exact ih hnd.2 x hx' y hy' u v hfx hfy huv

theorem unit_entry_unique {ms : List Member} (h : NoClash ms) {e e' : String × List String}
    (he : e ∈ step2 (step1 ms)) (he' : e' ∈ step2 (step1 ms)) {a b a' b' : Node}
    (hd : decision (step1 ms) e = some (a, b)) (hd' : decision (step1 ms) e' = some (a', b'))
    (hid : familyId a b e.1 = familyId a' b' e'.1) : e = e' := by
  apply filterMap_key_inj (plannedUnit (step1 ms)) _ h.1 e he e' he'
    (familyId a b e.1, familyUnit a b e.1) (familyId a' b' e'.1, familyUnit a' b' e'.1)
  · unfold plannedUnit; rw [hd]; rfl
  · unfold plannedUnit; rw [hd']; rfl
  · exact hid

/-- Without id clashes, the pair found by the run of step 3 on an entry is the pair
found in the registry, with the working lists of the moment. -/
theorem findPair_run {ms : List Member} (h : NoClash ms)
    {pre post : List (String × List String)} {e : String × List String}
    (hidx : step2 (step1 ms) = pre ++ e :: post) {a b : Node}
    (hp : findPair (step3 (step1 ms) pre) e.2 e.2 = some (a, b)) :
    ∃ a0 b0, findPair (step1 ms) e.2 e.2 = some (a0, b0) ∧ a.id = a0.id ∧ b.id = b0.id ∧
      a.name = a0.name ∧ b.name = b0.name := by
  have hc := clean_of_noClash h
  have he : e ∈ step2 (step1 ms) := by rw [hidx]; simp
  rw [step3_initial hc pre (e :: post) hidx,
    findPair_current hc.keyIsId0 pre _ (parents_registered he) e.2 (fun _ hp => hp)] at hp
  cases hf : findPair (step1 ms) e.2 e.2 with
  | none => rw [hf] at hp; simp at hp
  | some ab =>
    rw [hf] at hp
    simp only [Option.map_some', Option.some.injEq, Prod.mk.injEq] at hp
    obtain ⟨rfl, rfl⟩ := hp
    exact ⟨ab.1, ab.2, rfl, rfl, rfl, rfl, rfl⟩

theorem step1_nodeType {ms : List Member} {q : String} {n : Node}
    (h : mapGet (step1 ms) q = some n) : n.nodeType = none := by
  obtain ⟨_, _, _, rfl⟩ := step1_get h
  rfl

/-- Without id clashes, the family units of the lookup after synthesis are the
planned ones. -/
theorem unit_of_synthesize {ms : List Member} (h : NoClash ms) {u : String × Node}
    (hu : u ∈ synthesize ms) (hfu : u.2.nodeType = some "family-unit") :
    ∃ e ∈ step2 (step1 ms), ∃ a b, decision (step1 ms) e = some (a, b) ∧
      u = (familyId a b e.1, familyUnit a b e.1) := by
  rw [synthesize_eq h, List.mem_append] at hu
  rcases hu with hu | hu
  · exfalso
    unfold recordPart at hu
    obtain ⟨e0, he0, rfl⟩ := List.mem_map.1 hu
    have : e0.2.nodeType = none :=
      step1_nodeType (mapGet_of_mem (step1_nodup ms) (show (e0.1, e0.2) ∈ step1 ms from he0))
    simp [updated, this] at hfu
  · exact mem_unitPart.1 hu

theorem mem_unitsFor {ms : List Member} {c key : String} :
    key ∈ unitsFor ms c ↔ ∃ n, (key, n) ∈ synthesize ms ∧
      n.nodeType = some "family-unit" ∧ n._childIds = some [c] := by
  unfold unitsFor
  simp only [List.mem_map, List.mem_filter, decide_eq_true_eq]
  constructor
  · rintro ⟨u, ⟨hu, h1, h2⟩, rfl⟩
    exact ⟨u.2, hu, h1, h2⟩
  · rintro ⟨n, hn, h1, h2⟩
    exact ⟨(key, n), ⟨hn, h1, h2⟩, rfl⟩

theorem step2_ne_nil_ms {ms : List Member} {c : String} {ps : List String}
    (h : mapGet (step2 (step1 ms)) c = some ps) : ms ≠ [] := by
  rintro rfl
  simp [step1, step2, mapGet] at h

/-! ## The properties -/

/-- C1 (single placement), evaluated at the failing input `exThree`: the couple `P1`,
`P2` and a third record `P3` all list `X`.  The pair branch removes `X` from `P1` and
`P2` only, so in the forest `X` is a child of the family unit `family-P1-P2-X` and of
`P3`. -/
theorem single_placement_violated :
    (buildTree (some exThree)).map
      (fun f => (childrenOf f "family-P1-P2-X", childrenOf f "P3")) = some (["X"], ["X"]) := by
  decide

/-- C2, as stated, fails on two inputs.  In `exZero` the claim list of `7` is
`[0, 5]` and parent `5` has `spouseId` `0`, the id of the other parent, but `0` is
falsy and no family unit is created.  In `exShadow` the claim list of `X` is
`[family-2-1-3, Q]` and the record `family-2-1-3` has `spouseId` `Q`, but that record
has been replaced in the lookup by the family unit of `1` and `2`, and no family unit
is created for `X`. -/
theorem attachment_parent_counterexample :
    (mapGet (step2 (step1 exZero)) "7" = some ["0", "5"] ∧
      (mapGet (step1 exZero) "5").map (fun n => n.spouseId.toStr) = some "0" ∧
      (buildTree (some exZero)).map
        (fun f => f.memberMap.filter (fun e => e.2.nodeType = some "family-unit")) = some []) ∧
    (mapGet (step2 (step1 exShadow)) "X" = some ["family-2-1-3", "Q"] ∧
      (mapGet (step1 exShadow) "family-2-1-3").map (fun n => n.spouseId.toStr) = some "Q" ∧
      (buildTree (some exShadow)).map
        (fun f => (f.memberMap.filter (fun e => e.2.nodeType = some "family-unit")).map
          (fun e => (e.1, e.2.children))) = some [("family-2-1-3", ["3"])]) := by
  decide

/-- C2 (amended): attachment-parent selection.  When no generated family-unit id
clashes with a record id, a child id or another generated id, and the claim list
`pre ++ p :: post` of the child id `c` has more than one entry: if `p` is the first
parent of the list whose record has a truthy `spouseId` whose string form `s` is in
the list, then the forest contains the family unit `family-p-s-c`, and its `spouses`
are `p` then `s`. -/
theorem attachment_parent_first (ms : List Member) (f : Forest) (c : String)
    (pre post : List String) (p s : String)
    (hb : buildTree (some ms) = some f) (hclash : NoClash ms)
    (hps : mapGet (step2 (step1 ms)) c = some (pre ++ p :: post))
    (hlen : 1 < (pre ++ p :: post).length)
    (hpre : ∀ q ∈ pre, ∀ t ∈ pre ++ p :: post, spouseOf (step1 ms) q ≠ some t)
    (hs : spouseOf (step1 ms) p = some s) (hsin : s ∈ pre ++ p :: post) :
    ∃ fu, mapGet f.memberMap ("family-" ++ p ++ "-" ++ s ++ "-" ++ c) = some fu ∧
      fu.nodeType = some "family-unit" ∧ fu.spouses = some (p, s) := by
  obtain ⟨_, rfl⟩ := buildTree_some hb
  have he : (c, pre ++ p :: post) ∈ step2 (step1 ms) := mem_of_mapGet hps
  obtain ⟨a, b, hga, hgb, hel⟩ := eligible_isSome (parents_registered he) hs hsin
  have hfp : findPair (step1 ms) (pre ++ p :: post) (pre ++ p :: post) = some (a, b) :=
    findPair_first _ _ pre post p (a, b) (fun q hq => eligible_eq_none (hpre q hq)) hel
  have hd : decision (step1 ms) (c, pre ++ p :: post) = some (a, b) := by
    rw [decision_of_long hlen]; exact hfp
  have hida : a.id = p := keyIsId_get (step1_keyIsId ms) hga
  have hidb : b.id = s := keyIsId_get (step1_keyIsId ms) hgb
  have hu := mapGet_synthesize_unit hclash he hd
  refine ⟨resolved (synthesize ms) (familyUnit a b c), ?_, rfl, ?_⟩
  · rw [mapGet_assemble]
    have : "family-" ++ p ++ "-" ++ s ++ "-" ++ c = familyId a b c := by
      rw [← hida, ← hidb]; rfl
    rw [this, hu]
    rfl
  · show some (a.id, b.id) = some (p, s)
    rw [hida, hidb]

/-- C2, witness: in `exCouple` the claim list of `3` is `[1, 2]`; parent `1` has no
spouse id, parent `2` has spouse id `1`: the attachment parent is `2`, which is
neither the first parent of the list nor the first by id. -/
theorem attachment_parent_first_witness :
    NoClash exCouple ∧ mapGet (step2 (step1 exCouple)) "3" = some ["1", "2"] ∧
      spouseOf (step1 exCouple) "1" = none ∧ spouseOf (step1 exCouple) "2" = some "1" ∧
      ∃ fu, mapGet (assemble exCouple).memberMap ("family-" ++ "2" ++ "-" ++ "1" ++ "-" ++ "3")
        = some fu ∧ fu.nodeType = some "family-unit" ∧ fu.spouses = some ("2", "1") :=
  ⟨by decide, by decide, by decide, by decide,
    attachment_parent_first exCouple (assemble exCouple) "3" ["1"] [] "2" "1"
      (by decide) (by decide) (by decide) (by decide) (by decide) (by decide) (by decide)⟩

/-- C4, as stated, fails on `exRewire`: the couple `a`, `b` lists the children
`family-a-b-d` and `d`.  A pair is found for the child `family-a-b-d`, and the family
unit later allocated for `d` takes that very id and is pushed on the working list of
`a`: in the forest the id `family-a-b-d` is among the children of `a`. -/
theorem asymmetric_rewiring_counterexample :
    step2 (step1 exRewire) = [("family-a-b-d", ["a", "b"]), ("d", ["a", "b"])] ∧
    (findPair (step3 (step1 exRewire) []) ["a", "b"] ["a", "b"]).map
      (fun ab => (ab.1.id, ab.2.id)) = some ("a", "b") ∧
    (buildTree (some exRewire)).map (fun f => childrenOf f "a") =
      some ["family-a-b-family-a-b-d", "family-a-b-d"] := by
  decide

/-- C4 (amended): asymmetric rewiring.  When no generated family-unit id clashes with
a record id, a child id or another generated id: whenever the iteration of step 3 for
the entry `(c, ps)` finds the pair `(a, b)` with `a` different from `b`, then in the
forest `c` is a child of neither `a` nor `b`, the family unit of `c` is a child of
`a`, and it is not a child of `b`. -/
theorem asymmetric_rewiring (ms : List Member) (f : Forest)
    (pre post : List (String × List String)) (c : String) (ps : List String) (a b : Node)
    (hb : buildTree (some ms) = some f) (hclash : NoClash ms)
    (hidx : step2 (step1 ms) = pre ++ (c, ps) :: post) (hlen : 1 < ps.length)
    (hpair : findPair (step3 (step1 ms) pre) ps ps = some (a, b)) (hab : a.id ≠ b.id) :
    c ∉ childrenOf f a.id ∧ c ∉ childrenOf f b.id ∧
      familyId a b c ∈ childrenOf f a.id ∧ familyId a b c ∉ childrenOf f b.id := by
  obtain ⟨_, rfl⟩ := buildTree_some hb
  have he : (c, ps) ∈ step2 (step1 ms) := by rw [hidx]; simp
  obtain ⟨a0, b0, hfp, hida, hidb, _, _⟩ := findPair_run hclash hidx hpair
  have hd : decision (step1 ms) (c, ps) = some (a0, b0) := by
    rw [decision_of_long hlen]; exact hfp
  obtain ⟨_, _, hga, hgb, _⟩ := findPair_ids (step1_keyIsId ms) hfp
  have hfid : familyId a b c = familyId a0 b0 c := by
    unfold familyId; rw [hida, hidb]
  have hra : removes (step1 ms) (c, ps) a0.id = true := by
    unfold removes; rw [hd]; simp
  have hrb : removes (step1 ms) (c, ps) b0.id = true := by
    unfold removes; rw [hd]; simp
  have hu := mapGet_synthesize_unit hclash he hd
  have hukey : familyId a0 b0 c ∈ mapKeys (unitPart (step1 ms) (step2 (step1 ms))) :=
    mem_mapKeys_unitPart.2 ⟨(c, ps), he, a0, b0, hd, rfl⟩
  rw [hida, hidb, hfid]
  refine ⟨not_child_of_removed hclash hga he hra, not_child_of_removed hclash hgb he hrb, ?_, ?_⟩
  · apply (mem_childrenOf_record hclash hga).2
    constructor
    · apply mem_workList.2
      right
      unfold pushedTo
      apply List.mem_filterMap.2
      refine ⟨(c, ps), he, ?_⟩
      unfold pushOf
      rw [hd]
      simp
    · exact (mapGet_isSome_iff _ _).1 ⟨_, hu⟩
  · intro hmem
    rcases mem_workList.1 ((mem_childrenOf_record hclash hgb).1 hmem).1 with h1 | h1
    · exact (hclash.2 _ hukey).2 (mem_keys_step2 (mem_of_mapGet hgb) h1.1)
    · obtain ⟨e', he', a', b', hd', hq, hg⟩ := mem_pushedTo h1
      have hee : (c, ps) = e' := unit_entry_unique hclash he he' hd hd' hg
      subst hee
      rw [hd] at hd'
      simp only [Option.some.injEq, Prod.mk.injEq] at hd'
      obtain ⟨rfl, rfl⟩ := hd'
      exact hab (by rw [hida, hidb, hq])

/-- C4, witness: in `exCouple` the pair found for the child `3` is `(2, 1)`; `3` is a
child of neither, the family unit `family-2-1-3` is a child of `2` and not of `1`. -/
theorem asymmetric_rewiring_witness :
    NoClash exCouple ∧ step2 (step1 exCouple) = [("3", ["1", "2"])] ∧
      (findPair (step3 (step1 exCouple) []) ["1", "2"] ["1", "2"]).map
        (fun ab => (ab.1.id, ab.2.id)) = some ("2", "1") ∧
      "3" ∉ childrenOf (assemble exCouple) "2" ∧ "3" ∉ childrenOf (assemble exCouple) "1" ∧
      "family-2-1-3" ∈ childrenOf (assemble exCouple) "2" ∧
      "family-2-1-3" ∉ childrenOf (assemble exCouple) "1" :=
  ⟨by decide, by decide, by decide,
    asymmetric_rewiring exCouple (assemble exCouple) [] [] "3" ["1", "2"]
      (mkNode (record "2" (some "1") ["3"])) (mkNode (record "1" none ["3"]))
      (by decide) (by decide) (by decide) (by decide) (by decide) (by decide)⟩

/-- C5, as stated, fails on `exFallback`: the ids are pairwise distinct, `X` is
registered and is listed once each by the unrelated parents `family-2-1-3` and `Q`,
neither of which has a spouse id; but the first parent is replaced in the lookup by
the family unit of the couple `1`, `2`, whose only child is `3`, so `X` is a child of
nobody. -/
theorem fallback_counterexample :
    (exFallback.map (fun m => m.id.toStr)).Nodup ∧
    mapGet (step2 (step1 exFallback)) "X" = some ["family-2-1-3", "Q"] ∧
    spouseOf (step1 exFallback) "family-2-1-3" = none ∧
    spouseOf (step1 exFallback) "Q" = none ∧
    (buildTree (some exFallback)).map
      (fun f => (childrenOf f "family-2-1-3", f.memberMap.filter
        (fun e => decide ("X" ∈ e.2.children)))) = some (["3"], []) := by
  decide

/-- C5 (amended): no-reciprocal fallback.  When no generated family-unit id clashes
with a record id, a child id or another generated id: if the registered child `x` has
the claim list `p1 :: rest` of two or more distinct parents, none of which has a
(truthy) spouse id in the list, then in the forest `x` is a child of `p1`, a child of
no parent of `rest`, and no family unit is triggered by `x`. -/
theorem fallback_first_parent (ms : List Member) (f : Forest) (x p1 : String)
    (rest : List String)
    (hb : buildTree (some ms) = some f) (hclash : NoClash ms)
    (hps : mapGet (step2 (step1 ms)) x = some (p1 :: rest)) (hrest : rest ≠ [])
    (hnd : (p1 :: rest).Nodup) (hx : x ∈ mapKeys (step1 ms))
    (hno : ∀ q ∈ p1 :: rest, ∀ t ∈ p1 :: rest, spouseOf (step1 ms) q ≠ some t) :
    x ∈ childrenOf f p1 ∧ (∀ q ∈ rest, x ∉ childrenOf f q) ∧ unitsFor ms x = [] := by
  obtain ⟨_, rfl⟩ := buildTree_some hb
  have he : (x, p1 :: rest) ∈ step2 (step1 ms) := mem_of_mapGet hps
  have hlen : 1 < (p1 :: rest).length := by
    cases rest with
    | nil => exact absurd rfl hrest
    | cons r rs => simp
  have hd : decision (step1 ms) (x, p1 :: rest) = none := by
    rw [decision_of_long hlen]
    exact (findPair_eq_none_iff _ _ _).2 (fun p hp => eligible_eq_none (hno p hp))
  have hrem : ∀ q, removes (step1 ms) (x, p1 :: rest) q = decide (q ∈ rest) := by
    intro q
    unfold removes
    rw [hd]
    simp only [hlen, decide_True, Bool.true_and, List.tail_cons]
  refine ⟨?_, ?_, ?_⟩
  · obtain ⟨n, hn, hxn⟩ := claimant_lists he (List.mem_cons_self p1 rest)
    apply kept_child hclash hn hxn hx
    have := removedBy_entry he (step1 ms) p1
    rw [this, hrem]
    simpa using (List.nodup_cons.1 hnd).1
  · intro q hq
    obtain ⟨n, hn, _⟩ := claimant_lists he (List.mem_cons_of_mem p1 hq)
    apply not_child_of_removed hclash hn he
    rw [hrem]
    simpa using hq
  · apply List.eq_nil_iff_forall_not_mem.2
    intro key hkey
    obtain ⟨n, hn, hfu, hc⟩ := mem_unitsFor.1 hkey
    obtain ⟨e', he', a, b, hd', hu⟩ := unit_of_synthesize hclash hn hfu
    simp only [Prod.mk.injEq] at hu
    rw [hu.2] at hc
    simp only [familyUnit, Option.some.injEq, List.cons.injEq, and_true] at hc
    have := entry_unique he he' hc
    rw [this, hd] at hd'
    simp at hd'

/-- C5, witness: in `exUnrelated` three unrelated parents list `X`; only `P1`
keeps it. -/
theorem fallback_first_parent_witness :
    NoClash exUnrelated ∧ mapGet (step2 (step1 exUnrelated)) "X" = some ["P1", "P2", "P3"] ∧
      "X" ∈ childrenOf (assemble exUnrelated) "P1" ∧
      (∀ q ∈ ["P2", "P3"], "X" ∉ childrenOf (assemble exUnrelated) q) ∧
      unitsFor exUnrelated "X" = [] :=
  ⟨by decide, by decide,
    fallback_first_parent exUnrelated (assemble exUnrelated) "X" "P1" ["P2", "P3"]
      (by decide) (by decide) (by decide) (by decide) (by decide) (by decide) (by decide)⟩

/-- C6 (first claimant keeps the child), evaluated at the failing input `exTwice`:
record `1` lists the child `2` twice, so the claim list of `2` is `[1, 1]` and no
parent has a spouse id.  The fallback loop removes `2` from every parent after the
first entry, which is the first parent itself: in the forest `1` has no children. -/
theorem first_claimant_loses_child :
    mapGet (step2 (step1 exTwice)) "2" = some ["1", "1"] ∧
    spouseOf (step1 exTwice) "1" = none ∧
    (buildTree (some exTwice)).map (fun f => childrenOf f "1") = some [] := by
  decide

/-- C7, as stated, fails on `exCouple`: the forest contains the family unit
`family-2-1-3` triggered by `3`, whose claim list is `[1, 2]`, although no two parents
of the list name each other as spouse: `1` has no spouse id. -/
theorem reciprocal_pair_counterexample :
    unitsFor exCouple "3" = ["family-2-1-3"] ∧
    (buildTree (some exCouple)).map
      (fun f => (mapGet f.memberMap "family-2-1-3").map Node.nodeType) =
        some (some (some "family-unit")) ∧
    mapGet (step2 (step1 exCouple)) "3" = some ["1", "2"] ∧
    ¬ ∃ p ∈ ["1", "2"], ∃ q ∈ ["1", "2"],
        spouseOf (step1 exCouple) p = some q ∧ spouseOf (step1 exCouple) q = some p := by
  decide

/-- C7 (amended): family-unit existence.  When no generated family-unit id clashes
with a record id, a child id or another generated id, the forest contains a family
unit triggered by the child id `c` if and only if `c` has a claim list of at least two
entries in which some parent has a (truthy) spouse id that is in the list; the spouse
need not name that parent back. -/
theorem family_unit_iff_spouse_listed (ms : List Member) (f : Forest) (c : String)
    (hb : buildTree (some ms) = some f) (hclash : NoClash ms) :
    (∃ key ∈ unitsFor ms c, ∃ n, mapGet f.memberMap key = some n ∧
        n.nodeType = some "family-unit") ↔
      ∃ ps, mapGet (step2 (step1 ms)) c = some ps ∧ 2 ≤ ps.length ∧
        ∃ p ∈ ps, ∃ s ∈ ps, spouseOf (step1 ms) p = some s := by
  obtain ⟨_, rfl⟩ := buildTree_some hb
  constructor
  · rintro ⟨key, hkey, _⟩
    obtain ⟨n0, hn0, hfu, hc⟩ := mem_unitsFor.1 hkey
    obtain ⟨e, he, a, b, hd, hu⟩ := unit_of_synthesize hclash hn0 hfu
    simp only [Prod.mk.injEq] at hu
    rw [hu.2] at hc
    simp only [familyUnit, Option.some.injEq, List.cons.injEq, and_true] at hc
    have hlen : 1 < e.2.length := by
      by_contra hl
      rw [decision_of_short hl] at hd
      simp at hd
    rw [decision_of_long hlen] at hd
    obtain ⟨pre, p, post, hsplit, _, hel⟩ := findPair_some hd
    obtain ⟨s, hs, hsp⟩ := spouseOf_of_eligible hel
    refine ⟨e.2, ?_, hlen, p, ?_, s, hs, hsp⟩
    · rw [← hc]
      exact mapGet_of_mem (step2_nodup _) he
    · rw [hsplit]; simp
  · rintro ⟨ps, hps, hlen, p, hp, s, hs, hsp⟩
    have he : (c, ps) ∈ step2 (step1 ms) := mem_of_mapGet hps
    obtain ⟨a, b, _, _, hel⟩ := eligible_isSome (parents_registered he) hsp hs
    have hlen' : 1 < ps.length := hlen
    cases hf : findPair (step1 ms) ps ps with
    | none =>
      have := (findPair_eq_none_iff _ _ _).1 hf p hp
      rw [hel] at this
      simp at this
    | some ab =>
      have hd : decision (step1 ms) (c, ps) = some (ab.1, ab.2) := by
        rw [decision_of_long hlen']; exact hf
      have hu := mapGet_synthesize_unit hclash he hd
      refine ⟨familyId ab.1 ab.2 c, ?_, resolved (synthesize ms) (familyUnit ab.1 ab.2 c), ?_,
        rfl⟩
      · exact mem_unitsFor.2 ⟨_, mem_of_mapGet hu, rfl, rfl⟩
      · rw [mapGet_assemble, hu]
        rfl

/-- C7, witness: in `exCouple` the child `3` has the claim list `[1, 2]` and parent
`2` has the spouse id `1`: the forest contains a family unit triggered by `3`. -/
theorem family_unit_iff_spouse_listed_witness :
    NoClash exCouple ∧
      ((∃ key ∈ unitsFor exCouple "3", ∃ n, mapGet (assemble exCouple).memberMap key = some n ∧
          n.nodeType = some "family-unit") ↔
        ∃ ps, mapGet (step2 (step1 exCouple)) "3" = some ps ∧ 2 ≤ ps.length ∧
          ∃ p ∈ ps, ∃ s ∈ ps, spouseOf (step1 exCouple) p = some s) :=
  ⟨by decide,
    family_unit_iff_spouse_listed exCouple (assemble exCouple) "3" (by decide) (by decide)⟩

/-- C8, as stated, fails on `exCycle`: `A` lists `B` and `B` lists `A`, and
`buildTree` returns a forest, in which each is the other's child and there is no
root. -/
theorem cycle_counterexample :
    (buildTree (some exCycle)).map (fun f => (childrenOf f "A", childrenOf f "B", f.rootNodes)) =
      some (["B"], ["A"], []) := by
  decide

/-- A child with a single claimant stays under it, when no id clashes. -/
theorem single_claim_kept {ms : List Member} (hclash : NoClash ms) {x p : String}
    (hps : mapGet (step2 (step1 ms)) x = some [p]) (hx : x ∈ mapKeys (step1 ms)) :
    x ∈ childrenOf (assemble ms) p := by
  have he : (x, [p]) ∈ step2 (step1 ms) := mem_of_mapGet hps
  obtain ⟨n, hn, hxn⟩ := claimant_lists he (List.mem_singleton_self p)
  apply kept_child hclash hn hxn hx
  rw [removedBy_entry he]
  unfold removes
  rw [decision_of_short (by simp)]
  simp

/-- C8 (amended): `buildTree` has no cycle check and raises no error.  When no
generated family-unit id clashes with a record id, a child id or another generated id,
and `a` and `b` list each other, each being listed by nobody else, `buildTree` returns
a forest in which `b` is a child of `a`, `a` is a child of `b`, and neither is a
root. -/
theorem cycle_is_returned (ms : List Member) (a b : String) (hclash : NoClash ms)
    (hab : mapGet (step2 (step1 ms)) b = some [a])
    (hba : mapGet (step2 (step1 ms)) a = some [b]) :
    ∃ f, buildTree (some ms) = some f ∧ b ∈ childrenOf f a ∧ a ∈ childrenOf f b ∧
      a ∉ f.rootNodes ∧ b ∉ f.rootNodes := by
  have ha : a ∈ mapKeys (step1 ms) :=
    parents_registered (mem_of_mapGet hab) a (List.mem_singleton_self a)
  have hb : b ∈ mapKeys (step1 ms) :=
    parents_registered (mem_of_mapGet hba) b (List.mem_singleton_self b)
  have h1 := single_claim_kept hclash hab hb
  have h2 := single_claim_kept hclash hba ha
  exact ⟨assemble ms, buildTree_of_ne_nil (step2_ne_nil_ms hab), h1, h2,
    not_root_of_child h2, not_root_of_child h1⟩

/-- C8, witness: the input `exCycle`. -/
theorem cycle_is_returned_witness :
    NoClash exCycle ∧ mapGet (step2 (step1 exCycle)) "B" = some ["A"] ∧
      mapGet (step2 (step1 exCycle)) "A" = some ["B"] ∧
      ∃ f, buildTree (some exCycle) = some f ∧ "B" ∈ childrenOf f "A" ∧
        "A" ∈ childrenOf f "B" ∧ "A" ∉ f.rootNodes ∧ "B" ∉ f.rootNodes :=
  ⟨by decide, by decide, by decide,
    cycle_is_returned exCycle "A" "B" (by decide) (by decide) (by decide)⟩

/-- C9, as stated, fails on `exDuplicate`: the ids `1` (number) and `"1"` (string)
coerce to the same string, and `buildTree` returns a forest whose lookup holds the
second record only. -/
theorem duplicate_id_counterexample :
    (exDuplicate.map (fun m => m.id.toStr)) = ["1", "1"] ∧
    (buildTree (some exDuplicate)).map
      (fun f => (f.memberMap.map (fun e => (e.1, e.2.name)), f.rootNodes)) =
        some ([("1", .str "second")], ["1"]) := by
  decide

theorem mapGet_foldl_other (k : String) :
    ∀ (l : List Member) (acc : List (String × Node)), (∀ b ∈ l, b.id.toStr ≠ k) →
      mapGet (l.foldl (fun mm b => mapSet mm b.id.toStr (mkNode b)) acc) k = mapGet acc k := by
  intro l
  induction l with
  | nil => intro acc _; rfl
  | cons b l ih =>
    intro acc h
    rw [List.foldl_cons, ih _ (fun b' hb' => h b' (List.mem_cons_of_mem _ hb')), mapGet_mapSet,
      if_neg (h b (List.mem_cons_self _ _))]

/-- The registry holds, under an id, the copy of the last record with that id. -/
theorem step1_last (pre post : List Member) (m : Member)
    (h : ∀ m' ∈ post, m'.id.toStr ≠ m.id.toStr) :
    mapGet (step1 (pre ++ m :: post)) m.id.toStr = some (mkNode m) := by
  unfold step1
  rw [List.foldl_append, List.foldl_cons, mapGet_foldl_other _ post _ h, mapGet_mapSet,
    if_pos rfl]

theorem step1_length_lt {ms : List Member} (hdup : ¬ (ms.map (fun m => m.id.toStr)).Nodup) :
    (step1 ms).length < ms.length := by
  have hsub : mapKeys (step1 ms) ⊆ ms.map (fun m => m.id.toStr) := by
    intro k hk
    obtain ⟨e, he, rfl⟩ := List.mem_map.1 hk
    obtain ⟨member, hm, rfl⟩ := step1_mem ms e he
    exact List.mem_map.2 ⟨member, hm, rfl⟩
  have hsp := (step1_nodup ms).subperm hsub
  have hle := hsp.length_le
  have hlen : (mapKeys (step1 ms)).length = (step1 ms).length := by simp [mapKeys]
  have hlen' : (ms.map (fun m => m.id.toStr)).length = ms.length := by simp
  rcases Nat.lt_or_ge (step1 ms).length ms.length with h | h
  · exact h
  · exfalso
    apply hdup
    have hperm := hsp.perm_of_length_le (by omega)
    exact hperm.nodup_iff.1 (step1_nodup ms)

/-- C9 (amended): duplicate ids raise no error.  For every input in which two
records have the same id after coercion to string, `buildTree` returns a forest whose
lookup has pairwise distinct keys; the registry has fewer entries than the input has
records, and holds under each id the copy of the last record with that id. -/
theorem duplicate_id_overwrites (ms : List Member)
    (hdup : ¬ (ms.map (fun m => m.id.toStr)).Nodup) :
    ∃ f, buildTree (some ms) = some f ∧ (mapKeys f.memberMap).Nodup ∧
      (step1 ms).length < ms.length ∧
      ∀ pre m post, ms = pre ++ m :: post → (∀ m' ∈ post, m'.id.toStr ≠ m.id.toStr) →
        mapGet (step1 ms) m.id.toStr = some (mkNode m) := by
  have hne : ms ≠ [] := by
    rintro rfl
    exact hdup List.nodup_nil
  refine ⟨assemble ms, buildTree_of_ne_nil hne, ?_, step1_length_lt hdup, ?_⟩
  · rw [mapKeys_assemble]
    exact (synthesize_linkable ms).nodup
  · rintro pre m post rfl h
    exact step1_last pre post m h

/-- C9, witness: the input `exDuplicate`. -/
theorem duplicate_id_overwrites_witness :
    ¬ (exDuplicate.map (fun m => m.id.toStr)).Nodup ∧
      ∃ f, buildTree (some exDuplicate) = some f ∧ (mapKeys f.memberMap).Nodup ∧
        (step1 exDuplicate).length < exDuplicate.length ∧
        ∀ pre m post, exDuplicate = pre ++ m :: post →
          (∀ m' ∈ post, m'.id.toStr ≠ m.id.toStr) →
          mapGet (step1 exDuplicate) m.id.toStr = some (mkNode m) :=
  ⟨by decide, duplicate_id_overwrites exDuplicate (by decide)⟩

/-- C10, as stated, fails on `exNoId`: the first record has no id, and `buildTree`
returns a forest in which it is registered under the key `undefined`. -/
theorem missing_id_counterexample :
    (buildTree (some exNoId)).map
      (fun f => (f.memberMap.map (fun e => (e.1, e.2.name)), f.rootNodes)) =
        some ([("undefined", .str "nameless"), ("1", .str "named")], ["undefined", "1"]) := by
  decide

/-- C10 (amended): a missing id raises no error.  For every input containing a
record without id, `buildTree` returns a forest whose lookup has an object under the
key `undefined`, the string form of the absent id, with that string as its id. -/
theorem missing_id_registered (ms : List Member) (m : Member) (hm : m ∈ ms)
    (hid : m.id = .undefined) :
    ∃ f, buildTree (some ms) = some f ∧
      ∃ n, mapGet f.memberMap "undefined" = some n ∧ n.id = "undefined" := by
  have hne : ms ≠ [] := List.ne_nil_of_mem hm
  have hkey : "undefined" ∈ mapKeys (step1 ms) := by
    have := step1_keys ms m hm
    rw [hid] at this
    exact this
  obtain ⟨n, hn⟩ := (mapGet_isSome_iff _ _).2 (mem_keys_synthesize hkey)
  refine ⟨assemble ms, buildTree_of_ne_nil hne, resolved (synthesize ms) n, ?_, ?_⟩
  · rw [mapGet_assemble, hn]
    rfl
  · show n.id = "undefined"
    exact keyIsId_get (synthesize_keyIsId ms) hn

/-- C10, witness: the input `exNoId`, whose first record has no id. -/
theorem missing_id_registered_witness :
    ∃ f, buildTree (some exNoId) = some f ∧
      ∃ n, mapGet f.memberMap "undefined" = some n ∧ n.id = "undefined" :=
  missing_id_registered exNoId { id := .undefined, name := .str "nameless" }
    (by decide) rfl

/-! ### Keys of the lookup -/

theorem nodeType_dropChild (c : String) (n : Node) : (dropChild c n).nodeType = n.nodeType := rfl

theorem nodeType_pushChild (x : String) (n : Node) : (pushChild x n).nodeType = n.nodeType := rfl

/-- One iteration of step 3 keeps a property of all objects that the working-list
edits keep and that the new family unit has. -/
theorem allNodes_synthChild {P : String → Node → Prop} {m : List (String × Node)}
    (e : String × List String)
    (hdrop : ∀ key n, P key n → P key (dropChild e.1 n))
    (hpush : ∀ key x n, P key n → P key (pushChild x n))
    (hunit : ∀ a b, P (familyId a b e.1) (familyUnit a b e.1))
    (h : AllNodes P m) : AllNodes P (synthChild m e) := by
  by_cases hl : 1 < e.2.length
  · cases hp : findPair m e.2 e.2 with
    | none =>
      rw [synthChild_noPair hl hp]
      exact allNodes_dropFromOthers hdrop _ _ h
    | some ab =>
      obtain ⟨a, b⟩ := ab
      rw [synthChild_pair hl hp]
      apply allNodes_mapSet _ (hunit a b)
      have h1 : AllNodes P (mapModify m a.id (dropChild e.1)) :=
        allNodes_mapModify h (fun n hn => hdrop _ n (h _ n hn))
      have h2 : AllNodes P (mapModify (mapModify m a.id (dropChild e.1)) b.id (dropChild e.1)) :=
        allNodes_mapModify h1 (fun n hn => hdrop _ n (h1 _ n hn))
      exact allNodes_mapModify h2 (fun n hn => hpush _ _ n (h2 _ n hn))
  · rw [synthChild_single hl]
    exact h

theorem allNodes_step3 {P : String → Node → Prop} {m : List (String × Node)}
    (hdrop : ∀ c key n, P key n → P key (dropChild c n))
    (hpush : ∀ key x n, P key n → P key (pushChild x n))
    (hunit : ∀ a b c, P (familyId a b c) (familyUnit a b c))
    (h : AllNodes P m) : ∀ idx : List (String × List String), AllNodes P (step3 m idx) := by
  intro idx
  induction idx using List.reverseRecOn with
  | nil => exact h
  | append_singleton idx e ih =>
    rw [step3_append]
    exact allNodes_synthChild e (hdrop e.1) hpush (fun a b => hunit a b e.1) ih

/-- Every key of the lookup after synthesis is the id of a record or the key of a
family unit. -/
theorem key_origin (ms : List Member) :
    AllNodes (fun key n => key ∈ mapKeys (step1 ms) ∨ n.nodeType = some "family-unit")
      (synthesize ms) := by
  apply allNodes_step3
  · intro c key n h; exact h
  · intro key x n h; exact h
  · intro a b c; exact Or.inr rfl
  · intro key n hg
    exact Or.inl ((mapGet_isSome_iff _ _).1 ⟨n, hg⟩)

theorem mapKeys_step1_subset (ms : List Member) {x : String} (h : x ∈ mapKeys (step1 ms)) :
    x ∈ ms.map (fun r => r.id.toStr) := by
  obtain ⟨e, he, rfl⟩ := List.mem_map.1 h
  obtain ⟨member, hm, rfl⟩ := step1_mem ms e he
  exact List.mem_map.2 ⟨member, hm, rfl⟩

/-- Every child of a node of the forest is registered in the lookup. -/
theorem child_registered (ms : List Member) {key y : String}
    (h : y ∈ childrenOf (assemble ms) key) : y ∈ mapKeys (assemble ms).memberMap := by
  rw [mapKeys_assemble]
  cases hg : mapGet (synthesize ms) key with
  | none =>
    unfold childrenOf at h
    rw [mapGet_assemble, hg] at h
    simp at h
  | some n =>
    rw [childrenOf_assemble hg] at h
    exact ((mem_resolveIds (synthesize_keyIsId ms)).1 h).2

theorem mem_unitIds {f : Forest} {x : String} :
    x ∈ unitIds f ↔ ∃ n, (x, n) ∈ f.memberMap ∧ n.nodeType = some "family-unit" := by
  unfold unitIds
  simp only [List.mem_map, List.mem_filter, decide_eq_true_eq]
  constructor
  · rintro ⟨e, ⟨he, hfu⟩, rfl⟩
    exact ⟨e.2, he, hfu⟩
  · rintro ⟨n, hn, hfu⟩
    exact ⟨(x, n), ⟨hn, hfu⟩, rfl⟩

/-! ## The properties, continued -/

/-- C11, as stated, fails on `exDangling`: record `Q` lists `family-2-1-3`, which is the
id of no record, but the family unit of the couple `1`, `2` is registered under that
id, and in the forest it is a child of `Q`. -/
theorem dangling_reference_counterexample :
    "family-2-1-3" ∉ exDangling.map (fun r => r.id.toStr) ∧
    (buildTree (some exDangling)).map (fun f => childrenOf f "Q") = some ["family-2-1-3"] := by
  decide

/-- C11 (amended): dangling references.  For every input in which a record lists a
child id `x` that is the id of no record, `buildTree` returns a forest; if `x` is not
the id of a family unit of that forest either, no node has `x` among its children; and
every child of every node is registered in the returned lookup. -/
theorem dangling_reference_dropped (ms : List Member) (member : Member) (x : String)
    (hm : member ∈ ms) (_hlist : x ∈ (member.children.getD []).map JsVal.toStr)
    (hrec : x ∉ ms.map (fun r => r.id.toStr)) :
    ∃ f, buildTree (some ms) = some f ∧
      (x ∉ unitIds f → ∀ key, x ∉ childrenOf f key) ∧
      ∀ key y, y ∈ childrenOf f key → y ∈ mapKeys f.memberMap := by
  refine ⟨assemble ms, buildTree_of_ne_nil (List.ne_nil_of_mem hm), ?_,
    fun key y h => child_registered ms h⟩
  intro hunit key hx
  have hkey := child_registered ms hx
  rw [mapKeys_assemble] at hkey
  obtain ⟨n, hn⟩ := (mapGet_isSome_iff _ _).2 hkey
  rcases key_origin ms x n hn with h | h
  · exact hrec (mapKeys_step1_subset ms h)
  · apply hunit
    apply mem_unitIds.2
    refine ⟨resolved (synthesize ms) n, ?_, h⟩
    apply mem_of_mapGet
    rw [mapGet_assemble, hn]
    rfl

/-- C11, witness: in `exMissing` record `1` lists `9`, the id of no record and of no
family unit: nobody has the child `9`. -/
theorem dangling_reference_dropped_witness :
    "9" ∉ exMissing.map (fun r => r.id.toStr) ∧
      ∃ f, buildTree (some exMissing) = some f ∧
        ("9" ∉ unitIds f → ∀ key, "9" ∉ childrenOf f key) ∧
        ∀ key y, y ∈ childrenOf f key → y ∈ mapKeys f.memberMap :=
  ⟨by decide,
    dangling_reference_dropped exMissing (record "1" none ["9"]) "9"
      (by decide) (by decide) (by decide)⟩

/-- C13: parentage index.  The keys of the child-to-parents map built in step 2 are
exactly the ids that occur in the child list of an object of the registry, they are
pairwise distinct, and the map sends each of them to its claim list: the ids of the
objects listing it, in registry iteration order, one entry per occurrence. -/
theorem parentage_index (ms : List Member) (c : String) :
    (c ∈ mapKeys (step2 (step1 ms)) ↔ ∃ e ∈ step1 ms, c ∈ e.2._childIds.getD []) ∧
      (c ∈ mapKeys (step2 (step1 ms)) →
        mapGet (step2 (step1 ms)) c = some (claimList (step1 ms) c)) ∧
      (mapKeys (step2 (step1 ms))).Nodup := by
  have hiff : c ∈ mapKeys (step2 (step1 ms)) ↔ claimList (step1 ms) c ≠ [] := by
    rw [← mapGet_isSome_iff, step2_get]
    by_cases h : claimList (step1 ms) c = [] <;> simp [h]
  refine ⟨?_, ?_, step2_nodup _⟩
  · rw [hiff]
    constructor
    · intro hne
      obtain ⟨p, hp⟩ := List.exists_mem_of_ne_nil _ hne
      obtain ⟨e, he, _, hc⟩ := mem_claimList.1 hp
      exact ⟨e, he, hc⟩
    · rintro ⟨e, he, hc⟩ h0
      have : e.2.id ∈ claimList (step1 ms) c := mem_claimList.2 ⟨e, he, rfl, hc⟩
      rw [h0] at this
      simp at this
  · intro hc
    rw [step2_get, if_neg (hiff.1 hc)]

/-- C13, witness: in `exCouple` the child `3` is listed by `1` and by `2`, in this
order. -/
theorem parentage_index_witness :
    claimList (step1 exCouple) "3" = ["1", "2"] ∧ mapKeys (step2 (step1 exCouple)) = ["3"] ∧
    ("3" ∈ mapKeys (step2 (step1 exCouple)) ↔
        ∃ e ∈ step1 exCouple, "3" ∈ e.2._childIds.getD []) ∧
      ("3" ∈ mapKeys (step2 (step1 exCouple)) →
        mapGet (step2 (step1 exCouple)) "3" = some (claimList (step1 exCouple) "3")) ∧
      (mapKeys (step2 (step1 exCouple))).Nodup :=
  ⟨by decide, by decide, parentage_index exCouple "3"⟩

/-- C17: family-unit ids of one couple never collide.  For the same pair `(a, b)`,
distinct child ids give distinct family-unit ids, so storing the second unit does not
replace the first in the lookup. -/
theorem family_ids_distinct (a b : Node) (c1 c2 : String) (h : c1 ≠ c2) :
    familyId a b c1 ≠ familyId a b c2 ∧
      ∀ (m : List (String × Node)) (u1 u2 : Node),
        mapGet (mapSet (mapSet m (familyId a b c1) u1) (familyId a b c2) u2) (familyId a b c1)
          = some u1 := by
  have hne : familyId a b c1 ≠ familyId a b c2 := by
    intro heq
    apply h
    unfold familyId at heq
    have := congrArg String.data heq
    simp only [String.data_append] at this
    exact String.ext (List.append_cancel_left this)
  refine ⟨hne, fun m u1 u2 => ?_⟩
  rw [mapGet_mapSet, if_neg (fun h' => hne h'.symm), mapGet_mapSet, if_pos rfl]

/-- C17, witness: the couple `a`, `b` of `exRewire` with the children `c` and `d`. -/
theorem family_ids_distinct_witness :
    familyId (mkNode (record "a" (some "b") [])) (mkNode (record "b" none [])) "c" ≠
        familyId (mkNode (record "a" (some "b") [])) (mkNode (record "b" none [])) "d" ∧
      ∀ (m : List (String × Node)) (u1 u2 : Node),
        mapGet (mapSet (mapSet m
            (familyId (mkNode (record "a" (some "b") [])) (mkNode (record "b" none [])) "c") u1)
            (familyId (mkNode (record "a" (some "b") [])) (mkNode (record "b" none [])) "d") u2)
            (familyId (mkNode (record "a" (some "b") [])) (mkNode (record "b" none [])) "c")
          = some u1 :=
  family_ids_distinct _ _ "c" "d" (by decide)

/-! ### Sizes -/

theorem length_mapKeys {α : Type} (m : List (String × α)) : (mapKeys m).length = m.length := by
  simp [mapKeys]

theorem length_mapSet_le {α : Type} (m : List (String × α)) (k : String) (v : α) :
    (mapSet m k v).length ≤ m.length + 1 := by
  rw [← length_mapKeys, ← length_mapKeys m]
  by_cases h : k ∈ mapKeys m
  · rw [mapKeys_mapSet_of_mem m k v h]; omega
  · rw [mapKeys_mapSet_of_not_mem m k v h]; simp

theorem length_synthChild_le (m : List (String × Node)) (e : String × List String) :
    (synthChild m e).length ≤ m.length + 1 := by
  rw [← length_mapKeys, ← length_mapKeys m]
  rcases mapKeys_synthChild m e with h | ⟨a, b, _, _, h⟩
  · rw [h]; omega
  · rw [h, length_mapKeys, length_mapKeys]
    exact length_mapSet_le _ _ _

theorem length_step3_le (m : List (String × Node)) (idx : List (String × List String)) :
    (step3 m idx).length ≤ m.length + idx.length := by
  induction idx using List.reverseRecOn with
  | nil => simp [step3]
  | append_singleton idx e ih =>
    rw [step3_append, List.length_append]
    have := length_synthChild_le (step3 m idx) e
    simp only [List.length_singleton]
    omega

/-- The number of child ids listed by the objects of a lookup. -/
theorem sum_mapSet_le (g : Node → Nat) (m : List (String × Node)) (k : String) (v : Node) :
    ((mapSet m k v).map (fun e => g e.2)).sum ≤ (m.map (fun e => g e.2)).sum + g v := by
  induction m with
  | nil => simp [mapSet]
  | cons e m ih =>
    obtain ⟨k', x⟩ := e
    by_cases h : k' = k
    · simp only [mapSet, h, if_true, List.map_cons, List.sum_cons]
      omega
    · simp only [mapSet, h, if_false, List.map_cons, List.sum_cons]
      omega

theorem length_step1_le (ms : List Member) :
    (step1 ms).length ≤ ms.length ∧
      ((step1 ms).map (fun e => (e.2._childIds.getD []).length)).sum ≤
        (ms.map (fun r => (r.children.getD []).length)).sum := by
  have key : ∀ (l : List Member) (acc : List (String × Node)),
      (l.foldl (fun mm b => mapSet mm b.id.toStr (mkNode b)) acc).length ≤ acc.length + l.length ∧
      ((l.foldl (fun mm b => mapSet mm b.id.toStr (mkNode b)) acc).map
          (fun e => (e.2._childIds.getD []).length)).sum ≤
        (acc.map (fun e => (e.2._childIds.getD []).length)).sum +
          (l.map (fun r => (r.children.getD []).length)).sum := by
    intro l
    induction l with
    | nil => intro acc; simp
    | cons b l ih =>
      intro acc
      have h1 := ih (mapSet acc b.id.toStr (mkNode b))
      have h2 := length_mapSet_le acc b.id.toStr (mkNode b)
      have h3 := sum_mapSet_le (fun n => (n._childIds.getD []).length) acc b.id.toStr (mkNode b)
      have h4 : ((mkNode b)._childIds.getD []).length = (b.children.getD []).length := by
        simp [mkNode]
      simp only [List.foldl_cons, List.length_cons, List.map_cons, List.sum_cons]
      constructor
      · omega
      · omega
  simpa [step1] using key ms []

theorem length_foldl_addClaim_le (p : String) (ids : List String) :
    ∀ acc : List (String × List String),
      (ids.foldl (addClaim p) acc).length ≤ acc.length + ids.length := by
  induction ids with
  | nil => intro acc; simp
  | cons i ids ih =>
    intro acc
    have h1 := ih (addClaim p acc i)
    have h2 : (addClaim p acc i).length ≤ acc.length + 1 := length_mapSet_le _ _ _
    simp only [List.foldl_cons, List.length_cons]
    omega

/-- The index has at most one entry per listed child id. -/
theorem length_step2_le (m : List (String × Node)) :
    (step2 m).length ≤ (m.map (fun e => (e.2._childIds.getD []).length)).sum := by
  have key : ∀ (l : List (String × Node)) (acc : List (String × List String)),
      (l.foldl (fun childToParents entry =>
        (entry.2._childIds.getD []).foldl (addClaim entry.2.id) childToParents) acc).length ≤
        acc.length + (l.map (fun e => (e.2._childIds.getD []).length)).sum := by
    intro l
    induction l with
    | nil => intro acc; simp
    | cons e l ih =>
      intro acc
      have h1 := ih ((e.2._childIds.getD []).foldl (addClaim e.2.id) acc)
      have h2 := length_foldl_addClaim_le e.2.id (e.2._childIds.getD []) acc
      simp only [List.foldl_cons, List.map_cons, List.sum_cons]
      omega
  simpa [step2] using key m []

theorem length_assemble (ms : List Member) :
    (assemble ms).memberMap.length = (synthesize ms).length := by
  rw [assemble_memberMap, List.length_map]

theorem length_rootNodes_le (ms : List Member) :
    (assemble ms).rootNodes.length ≤ (assemble ms).memberMap.length := by
  show (findRoots (assemble ms).memberMap).length ≤ _
  unfold findRoots
  rw [List.length_map]
  exact List.length_filter_le _ _

/-- C19: no unbounded work.  `buildTree` is a composition of loops over finite lists,
none of which extends the list it runs over, and so returns on every input, cyclic
ones included: for every non-empty input it returns a forest whose lookup has at most
one object per record plus one per listed child id, and whose roots are nodes of the
lookup. -/
theorem buildTree_returns (ms : List Member) (hne : ms ≠ []) :
    ∃ f, buildTree (some ms) = some f ∧
      f.memberMap.length ≤ ms.length + (ms.map (fun r => (r.children.getD []).length)).sum ∧
      f.rootNodes.length ≤ f.memberMap.length := by
  refine ⟨assemble ms, buildTree_of_ne_nil hne, ?_, length_rootNodes_le ms⟩
  rw [length_assemble]
  have h1 := length_step3_le (step1 ms) (step2 (step1 ms))
  have h2 := length_step1_le ms
  have h3 := length_step2_le (step1 ms)
  show (step3 (step1 ms) (step2 (step1 ms))).length ≤ _
  omega

/-- C19, witness: the cyclic input `exCycle`, in which `A` lists `B` and `B` lists
`A`. -/
theorem buildTree_returns_witness :
    ∃ f, buildTree (some exCycle) = some f ∧
      f.memberMap.length ≤
        exCycle.length + (exCycle.map (fun r => (r.children.getD []).length)).sum ∧
      f.rootNodes.length ≤ f.memberMap.length :=
  buildTree_returns exCycle (by decide)

/-- C20: determinism.  Two results of `buildTree` on the same input have the same
roots in the same order, the same children in the same order under every key, and the
same family-unit ids. -/
theorem buildTree_deterministic (members : Option (List Member)) (f f' : Forest)
    (h : buildTree members = some f) (h' : buildTree members = some f') :
    f'.rootNodes = f.rootNodes ∧ (∀ key, childrenOf f' key = childrenOf f key) ∧
      unitIds f' = unitIds f := by
  rw [h] at h'
  cases h'
  exact ⟨rfl, fun _ => rfl, rfl⟩

/-- C20, witness: two runs on `exCouple`. -/
theorem buildTree_deterministic_witness :
    (assemble exCouple).rootNodes = (assemble exCouple).rootNodes ∧
      (∀ key, childrenOf (assemble exCouple) key = childrenOf (assemble exCouple) key) ∧
      unitIds (assemble exCouple) = unitIds (assemble exCouple) :=
  buildTree_deterministic (some exCouple) (assemble exCouple) (assemble exCouple)
    (by decide) (by decide)

/-! ### Lookup order -/

theorem mapKeys_foldl_mapSet (g : Member → Node) :
    ∀ (l : List Member) (acc : List (String × Node)),
      mapKeys (l.foldl (fun mm b => mapSet mm b.id.toStr (g b)) acc) =
        mapKeys acc ++
          (firstOccurrences (l.map (fun r => r.id.toStr))).filter
            (fun y => decide (y ∉ mapKeys acc)) := by
  intro l
  induction l with
  | nil => intro acc; simp [firstOccurrences]
  | cons b l ih =>
    intro acc
    rw [List.foldl_cons, ih]
    simp only [List.map_cons, firstOccurrences]
    by_cases hb : b.id.toStr ∈ mapKeys acc
    · rw [mapKeys_mapSet_of_mem _ _ _ hb, List.filter_cons]
      simp only [hb, not_true_eq_false, decide_False, Bool.false_eq_true, if_false]
      rw [List.filter_filter]
      congr 1
      apply List.filter_congr
      intro y _
      by_cases hy : y ∈ mapKeys acc
      · simp [hy]
      · have : y ≠ b.id.toStr := fun h => hy (h ▸ hb)
        simp [hy, this]
    · rw [mapKeys_mapSet_of_not_mem _ _ _ hb, List.filter_cons]
      simp only [hb, not_false_eq_true, decide_True, if_true]
      rw [List.filter_filter, List.append_assoc]
      congr 1
      simp only [List.singleton_append, List.cons.injEq, true_and]
      apply List.filter_congr
      intro y _
      by_cases hy : y ∈ mapKeys acc
      · simp [hy]
      · by_cases hyb : y = b.id.toStr
        · simp [hyb]
        · simp [hy, hyb]

/-- The keys of the registry are the record ids in the order of their first
occurrence. -/
theorem mapKeys_step1 (ms : List Member) :
    mapKeys (step1 ms) = firstOccurrences (ms.map (fun r => r.id.toStr)) := by
  have := mapKeys_foldl_mapSet mkNode ms []
  simpa [step1, mapKeys] using this

/-- Without id clashes the lookup is ordered: the records in the order of the first
occurrence of their ids, then the family units in allocation order. -/
theorem mapKeys_assemble_noClash {ms : List Member} (h : NoClash ms) :
    mapKeys (assemble ms).memberMap =
      firstOccurrences (ms.map (fun r => r.id.toStr)) ++ familyIds ms := by
  rw [mapKeys_assemble, synthesize_eq h, mapKeys_append, mapKeys_recordPart, mapKeys_step1]
  rfl

/-- C12, as stated, fails on `exRootOrder`: the roots are the family unit
`family-2-1-3`, which took the place of the first record in the lookup, followed by the
records `1` and `2`; a family unit precedes records. -/
theorem root_order_counterexample :
    (buildTree (some exRootOrder)).map
      (fun f => f.rootNodes.map (fun k => (k, (mapGet f.memberMap k).bind Node.nodeType))) =
      some [("family-2-1-3", some "family-unit"), ("1", none), ("2", none)] := by
  decide

/-- C12 (amended): root finder.  For every input the roots are exactly the nodes of
the lookup whose id is among the children of no node, in lookup iteration order; when
no generated family-unit id clashes with a record id, a child id or another generated
id, that order is the records in the order of the first occurrence of their ids, then
the family units in allocation order. -/
theorem root_finder (ms : List Member) (f : Forest) (hb : buildTree (some ms) = some f) :
    f.rootNodes =
        (f.memberMap.filter
          (fun e => decide (∀ e' ∈ f.memberMap, e.2.id ∉ e'.2.children))).map
          (fun e => e.2.id) ∧
      (NoClash ms →
        mapKeys f.memberMap = firstOccurrences (ms.map (fun r => r.id.toStr)) ++ familyIds ms) := by
  obtain ⟨_, rfl⟩ := buildTree_some hb
  refine ⟨?_, mapKeys_assemble_noClash⟩
  show findRoots (assemble ms).memberMap = _
  unfold findRoots
  congr 1
  apply List.filter_congr
  intro e _
  apply decide_eq_decide.2
  rw [mem_usedAsChild]
  constructor
  · intro h e' he' hc
    exact h ⟨e', he', hc⟩
  · rintro h ⟨e', he', hc⟩
    exact h e' he' hc

/-- C12, witness: in `exCouple` the lookup is `1`, `2`, `3`, `family-2-1-3` and the
roots are `1` and `2`. -/
theorem root_finder_witness :
    NoClash exCouple ∧ (assemble exCouple).rootNodes = ["1", "2"] ∧
      (assemble exCouple).rootNodes =
        ((assemble exCouple).memberMap.filter
          (fun e => decide (∀ e' ∈ (assemble exCouple).memberMap, e.2.id ∉ e'.2.children))).map
          (fun e => e.2.id) ∧
      (NoClash exCouple →
        mapKeys (assemble exCouple).memberMap =
          firstOccurrences (exCouple.map (fun r => r.id.toStr)) ++ familyIds exCouple) :=
  ⟨by decide, by decide, root_finder exCouple (assemble exCouple) (by decide)⟩

/-! ### Children under every key, without id clashes -/

/-- Without id clashes a child of a node is an id of the working list of a record,
or the triggering child of a family unit. -/
theorem mem_childrenOf_cases {ms : List Member} (h : NoClash ms) {q x : String}
    (hx : x ∈ childrenOf (assemble ms) q) :
    (∃ n, mapGet (step1 ms) q = some n ∧
        x ∈ workList (step1 ms) (step2 (step1 ms)) q (n._childIds.getD [])) ∨
      ∃ e ∈ step2 (step1 ms), ∃ a b, decision (step1 ms) e = some (a, b) ∧
        q = familyId a b e.1 ∧ x = e.1 := by
  by_cases hq : q ∈ mapKeys (step1 ms)
  · obtain ⟨n, hn⟩ := (mapGet_isSome_iff _ _).2 hq
    exact Or.inl ⟨n, hn, ((mem_childrenOf_record h hn).1 hx).1⟩
  · right
    cases hg : mapGet (synthesize ms) q with
    | none =>
      unfold childrenOf at hx
      rw [mapGet_assemble, hg] at hx
      simp at hx
    | some n3 =>
      rw [childrenOf_assemble hg] at hx
      have hmem := mem_of_mapGet hg
      rw [synthesize_eq h, List.mem_append] at hmem
      rcases hmem with hmem | hmem
      · exfalso
        apply hq
        rw [← mapKeys_recordPart (step1 ms) (step2 (step1 ms))]
        exact List.mem_map.2 ⟨_, hmem, rfl⟩
      · obtain ⟨e, he, a, b, hd, hu⟩ := mem_unitPart.1 hmem
        simp only [Prod.mk.injEq] at hu
        refine ⟨e, he, a, b, hd, hu.1, ?_⟩
        rw [hu.2] at hx
        have := ((mem_resolveIds (synthesize_keyIsId ms)).1 hx).1
        simpa [familyUnit] using this

/-- Without id clashes no family unit is triggered by a child without pair. -/
theorem unitsFor_eq_nil {ms : List Member} (h : NoClash ms) {e : String × List String}
    (he : e ∈ step2 (step1 ms)) (hd : decision (step1 ms) e = none) :
    unitsFor ms e.1 = [] := by
  apply List.eq_nil_iff_forall_not_mem.2
  intro key hkey
  obtain ⟨n, hn, hfu, hc⟩ := mem_unitsFor.1 hkey
  obtain ⟨e', he', a, b, hd', hu⟩ := unit_of_synthesize h hn hfu
  simp only [Prod.mk.injEq] at hu
  rw [hu.2] at hc
  simp only [familyUnit, Option.some.injEq, List.cons.injEq, and_true] at hc
  have := entry_unique he he' hc
  rw [this, hd] at hd'
  simp at hd'

/-- C14, as stated, fails on `exOrphan`: the claim list of the registered child `Y` is
`[family-2-1-3]`, a single parent; that record is replaced in the lookup by the family
unit of the couple `1`, `2`, and `Y` is a child of nobody. -/
theorem single_parent_counterexample :
    mapGet (step2 (step1 exOrphan)) "Y" = some ["family-2-1-3"] ∧
    "Y" ∈ exOrphan.map (fun r => r.id.toStr) ∧
    (buildTree (some exOrphan)).map
      (fun f => (childrenOf f "family-2-1-3",
        f.memberMap.filter (fun e => decide ("Y" ∈ e.2.children)))) = some (["3"], []) := by
  decide

/-- C14 (amended): single-parent children are untouched.  When no generated
family-unit id clashes with a record id, a child id or another generated id: for every
child id `c` whose claim list is the single parent `p`, no family unit is triggered by
`c`, and if `c` is registered it is a child of `p` and of no other node. -/
theorem single_parent_untouched (ms : List Member) (f : Forest) (c p : String)
    (hb : buildTree (some ms) = some f) (hclash : NoClash ms)
    (hps : mapGet (step2 (step1 ms)) c = some [p]) :
    unitsFor ms c = [] ∧
      (c ∈ mapKeys (step1 ms) → c ∈ childrenOf f p ∧ ∀ q, q ≠ p → c ∉ childrenOf f q) := by
  obtain ⟨_, rfl⟩ := buildTree_some hb
  have he : (c, [p]) ∈ step2 (step1 ms) := mem_of_mapGet hps
  have hd : decision (step1 ms) (c, [p]) = none := decision_of_short (by simp)
  refine ⟨unitsFor_eq_nil hclash he hd, fun hc => ⟨single_claim_kept hclash hps hc, ?_⟩⟩
  intro q hq hmem
  rcases mem_childrenOf_cases hclash hmem with ⟨n, hn, hw⟩ | ⟨e', he', a, b, hd', _, hx⟩
  · rcases mem_workList.1 hw with h1 | h1
    · have hcl : q ∈ claimList (step1 ms) c :=
        mem_claimList.2 ⟨(q, n), mem_of_mapGet hn, keyIsId_get (step1_keyIsId ms) hn, h1.1⟩
      rw [← (step2_mem he).1] at hcl
      exact hq (List.mem_singleton.1 hcl)
    · exact not_pushed_of_child hclash (List.mem_map.2 ⟨_, he, rfl⟩) h1
  · have := entry_unique he he' hx.symm
    rw [this, hd] at hd'
    simp at hd'

/-- C14, witness: in `exSingle` the child `2` has the single parent `1`. -/
theorem single_parent_untouched_witness :
    NoClash exSingle ∧ mapGet (step2 (step1 exSingle)) "2" = some ["1"] ∧
      unitsFor exSingle "2" = [] ∧
      ("2" ∈ mapKeys (step1 exSingle) →
        "2" ∈ childrenOf (assemble exSingle) "1" ∧
          ∀ q, q ≠ "1" → "2" ∉ childrenOf (assemble exSingle) q) :=
  ⟨by decide, by decide,
    single_parent_untouched exSingle (assemble exSingle) "2" "1" (by decide) (by decide)
      (by decide)⟩

/-! ### Inputs in which every child has a single claimant -/

theorem step3_of_short (m : List (String × Node)) :
    ∀ idx : List (String × List String), (∀ e ∈ idx, e.2.length ≤ 1) → step3 m idx = m := by
  intro idx
  induction idx using List.reverseRecOn with
  | nil => intro _; rfl
  | append_singleton idx e ih =>
    intro h
    rw [step3_append, ih (fun e' he' => h e' (List.mem_append_left _ he')),
      synthChild_single (by have := h e (by simp); omega)]

theorem length_filter_eq_count (c : String) (l : List String) :
    (l.filter (fun x => decide (x = c))).length = l.count c := by
  induction l with
  | nil => rfl
  | cons x l ih =>
    by_cases hx : x = c
    · simp [List.filter_cons, hx, ih]
    · have hx' : (x == c) = false := by simpa using hx
      simp [List.filter_cons, hx, ih, List.count_cons, hx']

theorem length_claimList (m : List (String × Node)) (c : String) :
    (claimList m c).length = (m.flatMap (fun e => e.2._childIds.getD [])).count c := by
  induction m with
  | nil => simp [claimList]
  | cons e m ih =>
    unfold claimList at ih ⊢
    rw [List.flatMap_cons, List.flatMap_cons, List.length_append, List.count_append, ih,
      List.length_map, length_filter_eq_count]

/-- When no child id is listed twice, synthesis leaves the registry as it is. -/
theorem synthesize_of_nodup_kids (ms : List Member)
    (h : ((step1 ms).flatMap (fun e => e.2._childIds.getD [])).Nodup) :
    synthesize ms = step1 ms := by
  apply step3_of_short
  intro e he
  rw [(step2_mem he).1, length_claimList]
  exact List.nodup_iff_count_le_one.1 h e.1

theorem flatMap_kids_step1 (ms : List Member) (h : (ms.map (fun r => r.id.toStr)).Nodup) :
    (step1 ms).flatMap (fun e => e.2._childIds.getD []) = ms.flatMap childStrs := by
  rw [step1_of_nodup ms h, List.flatMap_map]
  rfl

theorem kids_of_lineage :
    ∀ ms : List Member, lineage ms = true →
      ms.flatMap childStrs = (ms.map (fun r => r.id.toStr)).tail := by
  intro ms
  induction ms with
  | nil => intro h; simp [lineage] at h
  | cons r ms ih =>
    intro h
    cases ms with
    | nil =>
      simp only [lineage, decide_eq_true_eq] at h
      simp [h]
    | cons r' rest =>
      simp only [lineage, Bool.and_eq_true, decide_eq_true_eq] at h
      have := ih h.2
      rw [List.flatMap_cons, this, h.1]
      simp

theorem filter_head_only {α β : Type} (p : β → Bool) (g : α → β) (r1 : α) (rest : List α)
    (h1 : p (g r1) = true) (h2 : ∀ r ∈ rest, p (g r) = false) :
    ((r1 :: rest).map g).filter p = [g r1] := by
  rw [List.map_cons, List.filter_cons, if_pos h1]
  congr 1
  rw [List.filter_eq_nil_iff]
  intro e he
  obtain ⟨r, hr, rfl⟩ := List.mem_map.1 he
  simp [h2 r hr]

/-- C18: linear lineage.  For every input `r1 :: rest` with pairwise distinct ids (as
strings) in which the only child of each record is the next record and the last record
has no children, the roots of the forest are exactly `[r1]`. -/
theorem lineage_single_root (r1 : Member) (rest : List Member)
    (hnd : ((r1 :: rest).map (fun r => r.id.toStr)).Nodup)
    (hlin : lineage (r1 :: rest) = true) :
    ∃ f, buildTree (some (r1 :: rest)) = some f ∧ f.rootNodes = [r1.id.toStr] := by
  refine ⟨assemble (r1 :: rest), rfl, ?_⟩
  have hkids := kids_of_lineage _ hlin
  have hflat := flatMap_kids_step1 _ hnd
  have hsyn : synthesize (r1 :: rest) = step1 (r1 :: rest) := by
    apply synthesize_of_nodup_kids
    rw [hflat, hkids]
    exact hnd.tail
  have hmap : (assemble (r1 :: rest)).memberMap =
      (r1 :: rest).map (fun r => (r.id.toStr, resolved (step1 (r1 :: rest)) (mkNode r))) := by
    rw [assemble_memberMap, hsyn]
    have := congrArg (List.map (fun e : String × Node =>
      (e.1, resolved (step1 (r1 :: rest)) e.2))) (step1_of_nodup _ hnd)
    rw [this, List.map_map]
    rfl
  have hkeys : mapKeys (step1 (r1 :: rest)) = (r1 :: rest).map (fun r => r.id.toStr) := by
    rw [step1_of_nodup _ hnd]
    simp [mapKeys, Function.comp_def]
  have hused : ∀ x, x ∈ usedAsChild (assemble (r1 :: rest)).memberMap ↔
      x ∈ rest.map (fun r => r.id.toStr) := by
    intro x
    have htail : rest.map (fun r => r.id.toStr) = (r1 :: rest).flatMap childStrs := by
      rw [hkids]; rfl
    rw [mem_usedAsChild, hmap, htail, List.mem_flatMap]
    constructor
    · rintro ⟨e, he, hx⟩
      obtain ⟨r, hr, rfl⟩ := List.mem_map.1 he
      exact ⟨r, hr, ((mem_resolveIds (step1_keyIsId _)).1 hx).1⟩
    · rintro ⟨r, hr, hx⟩
      refine ⟨_, List.mem_map.2 ⟨r, hr, rfl⟩, ?_⟩
      apply (mem_resolveIds (step1_keyIsId _)).2
      refine ⟨hx, ?_⟩
      rw [hkeys]
      have : x ∈ (r1 :: rest).flatMap childStrs := List.mem_flatMap.2 ⟨r, hr, hx⟩
      rw [hkids] at this
      exact List.mem_cons_of_mem _ this
  have hnd' := List.nodup_cons.1 hnd
  show findRoots (assemble (r1 :: rest)).memberMap = _
  unfold findRoots
  obtain ⟨p, hp⟩ : ∃ p : String × Node → Bool,
      p = fun entry => decide (entry.2.id ∉ usedAsChild (assemble (r1 :: rest)).memberMap) :=
    ⟨_, rfl⟩
  rw [← hp, hmap, filter_head_only p _ r1 rest]
  · rfl
  · rw [hp]
    simp only [decide_eq_true_eq]
    rw [hused]
    exact hnd'.1
  · intro r hr
    rw [hp]
    simp only [decide_eq_false_iff_not, not_not]
    rw [hused]
    exact List.mem_map.2 ⟨r, hr, rfl⟩

/-- C18, witness: the lineage `1`, `2`, `3` of `exLineage`. -/
theorem lineage_single_root_witness :
    ∃ f, buildTree (some exLineage) = some f ∧ f.rootNodes = ["1"] :=
  lineage_single_root { id := .num 1, children := some [.num 2] }
    [ { id := .str "2", children := some [.str "3"] }, { id := .num 3 } ]
    (by decide) (by decide)

/-! ### The family units of a couple -/

theorem step1_spouses {ms : List Member} {q : String} {n : Node}
    (h : mapGet (step1 ms) q = some n) : n.spouses = none := by
  obtain ⟨_, _, _, rfl⟩ := step1_get h
  rfl

/-- Without id clashes, an object of the lookup after synthesis that has `spouses` is
a planned family unit. -/
theorem unit_of_spouses {ms : List Member} (h : NoClash ms) {u : String × Node}
    (hu : u ∈ synthesize ms) (hs : u.2.spouses ≠ none) :
    ∃ e ∈ step2 (step1 ms), ∃ a b, decision (step1 ms) e = some (a, b) ∧
      u = (familyId a b e.1, familyUnit a b e.1) := by
  rw [synthesize_eq h, List.mem_append] at hu
  rcases hu with hu | hu
  · exfalso
    unfold recordPart at hu
    obtain ⟨e0, he0, rfl⟩ := List.mem_map.1 hu
    have : e0.2.spouses = none :=
      step1_spouses (mapGet_of_mem (step1_nodup ms) (show (e0.1, e0.2) ∈ step1 ms from he0))
    exact hs this
  · exact mem_unitPart.1 hu

/-- The pair found for a child claimed by exactly `a` and `b`, one of which names the
other as spouse and neither of which names itself. -/
theorem findPair_couple {ms : List Member} {a b : String} {ps : List String}
    (hreg : ∀ p ∈ ps, p ∈ mapKeys (step1 ms)) (hps : ps = [a, b] ∨ ps = [b, a])
    (hsp : spouseOf (step1 ms) a = some b ∨ spouseOf (step1 ms) b = some a)
    (hself : spouseOf (step1 ms) a ≠ some a ∧ spouseOf (step1 ms) b ≠ some b) :
    ∃ a' b', findPair (step1 ms) ps ps = some (a', b') ∧
      ((a'.id = a ∧ b'.id = b) ∨ (a'.id = b ∧ b'.id = a)) := by
  have hmem : ∀ x, x ∈ ps ↔ x = a ∨ x = b := by
    intro x
    rcases hps with rfl | rfl <;> simp [or_comm]
  cases hf : findPair (step1 ms) ps ps with
  | none =>
    exfalso
    have hnone := (findPair_eq_none_iff _ _ _).1 hf
    rcases hsp with h | h
    · obtain ⟨_, _, _, _, hel⟩ :=
        eligible_isSome hreg h ((hmem b).2 (Or.inr rfl))
      rw [hnone a ((hmem a).2 (Or.inl rfl))] at hel
      simp at hel
    · obtain ⟨_, _, _, _, hel⟩ :=
        eligible_isSome hreg h ((hmem a).2 (Or.inl rfl))
      rw [hnone b ((hmem b).2 (Or.inr rfl))] at hel
      simp at hel
  | some ab =>
    obtain ⟨a', b'⟩ := ab
    refine ⟨a', b', rfl, ?_⟩
    obtain ⟨ha, hb, hga, _, hs⟩ := findPair_ids (step1_keyIsId ms) hf
    have hso : spouseOf (step1 ms) a'.id = some b'.id := by
      unfold spouseOf
      rw [hga]
      exact hs
    rcases (hmem _).1 ha with h1 | h1 <;> rcases (hmem _).1 hb with h2 | h2
    · rw [h1, h2] at hso
      exact absurd hso hself.1
    · exact Or.inl ⟨h1, h2⟩
    · exact Or.inr ⟨h1, h2⟩
    · rw [h1, h2] at hso
      exact absurd hso hself.2

theorem nodup_of_nodup_keys {α : Type} {m : List (String × α)} (h : (mapKeys m).Nodup) :
    m.Nodup :=
  List.Nodup.of_map _ h

/-- C16, as stated, fails on `exChildless`: the couple `a`, `b` lists the same child
id `c`, claimed by exactly these two, but no record has the id `c`; the one family
unit created for the couple holds no child.  It also fails on `exSelfSpouse`, where
`a` names `b` and `b`, first in the claim list of the registered child `c`, names
itself: the only family unit is one of `b` with `b`. -/
theorem shared_child_counterexample :
    (mapGet (step2 (step1 exChildless)) "c" = some ["a", "b"] ∧
      spouseOf (step1 exChildless) "a" = some "b" ∧
      (buildTree (some exChildless)).map
        (fun f => (coupleUnits f "a" "b").map (fun e => (e.1, e.2.children))) =
        some [("family-a-b-c", [])]) ∧
    (mapGet (step2 (step1 exSelfSpouse)) "c" = some ["b", "a"] ∧
      spouseOf (step1 exSelfSpouse) "a" = some "b" ∧
      (buildTree (some exSelfSpouse)).map
        (fun f => (coupleUnits f "a" "b", f.memberMap.filterMap (fun e => e.2.spouses))) =
        some ([], [("b", "b")])) := by
  decide

/-- C16 (amended): one family unit per shared child.  When no generated family-unit
id clashes with a record id, a child id or another generated id: if one of `a` and `b`
has the other as its (truthy) spouse id and neither has itself (so they are distinct),
and `cs` are the distinct child ids claimed by both, each registered and claimed by
exactly these two, then the family units of the couple are as many as `cs`, and their
children lists are the singletons `[c]` for the `c` of `cs`. -/
theorem one_unit_per_shared_child (ms : List Member) (f : Forest) (a b : String)
    (cs : List String)
    (hb : buildTree (some ms) = some f) (hclash : NoClash ms)
    (hsp : spouseOf (step1 ms) a = some b ∨ spouseOf (step1 ms) b = some a)
    (hself : spouseOf (step1 ms) a ≠ some a ∧ spouseOf (step1 ms) b ≠ some b)
    (hnd : cs.Nodup)
    (hcs : ∀ c ∈ cs, c ∈ mapKeys (step1 ms) ∧
      (mapGet (step2 (step1 ms)) c = some [a, b] ∨ mapGet (step2 (step1 ms)) c = some [b, a]))
    (hall : ∀ c ps, mapGet (step2 (step1 ms)) c = some ps → a ∈ ps → b ∈ ps → c ∈ cs) :
    ((coupleUnits f a b).map (fun e => e.2.children)).Perm (cs.map (fun c => [c])) ∧
      (coupleUnits f a b).length = cs.length := by
  obtain ⟨_, rfl⟩ := buildTree_some hb
  -- the shape of a family unit of the couple
  have hshape : ∀ u ∈ coupleUnits (assemble ms) a b,
      ∃ e ∈ step2 (step1 ms), ∃ a' b', decision (step1 ms) e = some (a', b') ∧
        u = (familyId a' b' e.1, resolved (synthesize ms) (familyUnit a' b' e.1)) ∧
        e.1 ∈ cs ∧ u.2.children = [e.1] := by
    intro u hu
    unfold coupleUnits at hu
    rw [List.mem_filter, decide_eq_true_eq, assemble_memberMap] at hu
    obtain ⟨hmem, hsps⟩ := hu
    obtain ⟨u0, hu0, rfl⟩ := List.mem_map.1 hmem
    have hs0 : u0.2.spouses ≠ none := by
      intro h0
      have : (resolved (synthesize ms) u0.2).spouses = u0.2.spouses := rfl
      simp only [this, h0] at hsps
      rcases hsps with h | h <;> simp at h
    obtain ⟨e, he, a', b', hd, rfl⟩ := unit_of_spouses hclash hu0 hs0
    have hlen : 1 < e.2.length := by
      by_contra hl
      rw [decision_of_short hl] at hd
      simp at hd
    rw [decision_of_long hlen] at hd
    obtain ⟨ha, hb', _, _, _⟩ := findPair_ids (step1_keyIsId ms) hd
    have hids : (a'.id = a ∧ b'.id = b) ∨ (a'.id = b ∧ b'.id = a) := by
      have : some (a'.id, b'.id) = some (a, b) ∨ some (a'.id, b'.id) = some (b, a) := hsps
      simp only [Option.some.injEq, Prod.mk.injEq] at this
      exact this
    have hin : e.1 ∈ cs := by
      apply hall e.1 e.2 (mapGet_of_mem (step2_nodup _) he)
      · rcases hids with h | h
        · exact h.1 ▸ ha
        · exact h.2 ▸ hb'
      · rcases hids with h | h
        · exact h.2 ▸ hb'
        · exact h.1 ▸ ha
    refine ⟨e, he, a', b', by rw [decision_of_long hlen]; exact hd, rfl, hin, ?_⟩
    show resolveIds (synthesize ms) [e.1] = [e.1]
    rw [resolveIds_eq_filter (synthesize_keyIsId ms)]
    have : e.1 ∈ mapKeys (synthesize ms) := mem_keys_synthesize (hcs e.1 hin).1
    simp [List.filter, this]
  -- every child of `cs` has its unit
  have hunit : ∀ c ∈ cs, ∃ u ∈ coupleUnits (assemble ms) a b, u.2.children = [c] := by
    intro c hc
    obtain ⟨hreg, hps⟩ := hcs c hc
    obtain ⟨ps, hget, hps'⟩ : ∃ ps, mapGet (step2 (step1 ms)) c = some ps ∧
        (ps = [a, b] ∨ ps = [b, a]) := by
      rcases hps with h | h
      · exact ⟨_, h, Or.inl rfl⟩
      · exact ⟨_, h, Or.inr rfl⟩
    have he : (c, ps) ∈ step2 (step1 ms) := mem_of_mapGet hget
    obtain ⟨a', b', hf, hids⟩ := findPair_couple (parents_registered he) hps' hsp hself
    have hlen : 1 < ps.length := by rcases hps' with rfl | rfl <;> simp
    have hd : decision (step1 ms) (c, ps) = some (a', b') := by
      rw [decision_of_long hlen]; exact hf
    have hu := mapGet_synthesize_unit hclash he hd
    refine ⟨(familyId a' b' c, resolved (synthesize ms) (familyUnit a' b' c)), ?_, ?_⟩
    · unfold coupleUnits
      rw [List.mem_filter, decide_eq_true_eq, assemble_memberMap]
      refine ⟨List.mem_map.2 ⟨_, mem_of_mapGet hu, rfl⟩, ?_⟩
      show some (a'.id, b'.id) = some (a, b) ∨ some (a'.id, b'.id) = some (b, a)
      rcases hids with h | h
      · exact Or.inl (by rw [h.1, h.2])
      · exact Or.inr (by rw [h.1, h.2])
    · show resolveIds (synthesize ms) [c] = [c]
      rw [resolveIds_eq_filter (synthesize_keyIsId ms)]
      have : c ∈ mapKeys (synthesize ms) := mem_keys_synthesize hreg
      simp [List.filter, this]
  have hnd1 : ((coupleUnits (assemble ms) a b).map (fun e => e.2.children)).Nodup := by
    apply List.Nodup.map_on
    · intro u hu v hv huv
      obtain ⟨e, he, a1, b1, hd, rfl, _, hch⟩ := hshape u hu
      obtain ⟨e', he', a2, b2, hd', rfl, _, hch'⟩ := hshape v hv
      simp only at huv
      rw [hch, hch'] at huv
      have hk : e'.1 = e.1 := by simpa using huv.symm
      have := entry_unique he he' hk
      subst this
      rw [hd] at hd'
      simp only [Option.some.injEq, Prod.mk.injEq] at hd'
      obtain ⟨rfl, rfl⟩ := hd'
      rfl
    · unfold coupleUnits
      apply List.Nodup.filter
      apply nodup_of_nodup_keys
      rw [mapKeys_assemble]
      exact (synthesize_linkable ms).nodup
  have hnd2 : (cs.map (fun c => [c])).Nodup :=
    List.Nodup.map (fun x y h => by simpa using h) hnd
  have hperm : ((coupleUnits (assemble ms) a b).map (fun e => e.2.children)).Perm
      (cs.map (fun c => [c])) := by
    rw [List.perm_ext_iff_of_nodup hnd1 hnd2]
    intro l
    constructor
    · intro hl
      obtain ⟨u, hu, rfl⟩ := List.mem_map.1 hl
      obtain ⟨e, _, _, _, _, _, hin, hch⟩ := hshape u hu
      exact List.mem_map.2 ⟨e.1, hin, hch.symm⟩
    · intro hl
      obtain ⟨c, hc, rfl⟩ := List.mem_map.1 hl
      obtain ⟨u, hu, hch⟩ := hunit c hc
      exact List.mem_map.2 ⟨u, hu, hch⟩
  refine ⟨hperm, ?_⟩
  have := hperm.length_eq
  simpa using this

/-- C16, witness: in `exTwoKids` the couple `a`, `b` has the two registered children
`c` and `d`: two family units, one holding `c`, one holding `d`. -/
theorem one_unit_per_shared_child_witness :
    NoClash exTwoKids ∧
      (coupleUnits (assemble exTwoKids) "a" "b").map (fun e => (e.1, e.2.children)) =
        [("family-a-b-c", ["c"]), ("family-a-b-d", ["d"])] ∧
      ((coupleUnits (assemble exTwoKids) "a" "b").map (fun e => e.2.children)).Perm
        (["c", "d"].map (fun c => [c])) ∧
      (coupleUnits (assemble exTwoKids) "a" "b").length = ["c", "d"].length :=
  ⟨by decide, by decide,
    one_unit_per_shared_child exTwoKids (assemble exTwoKids) "a" "b" ["c", "d"]
      (by decide) (by decide) (by decide) (by decide) (by decide) (by decide)
      (by
        intro c ps hps _ _
        have hkeys : mapKeys (step2 (step1 exTwoKids)) = ["c", "d"] := by decide
        rw [← hkeys]
        exact (mapGet_isSome_iff _ _).1 ⟨ps, hps⟩)⟩

/-! ### Numbers and their string forms in id positions -/

theorem mapGet_mapVals {α : Type} (g : α → α) (m : List (String × α)) (k : String) :
    mapGet (mapVals g m) k = (mapGet m k).map g := by
  induction m with
  | nil => rfl
  | cons e m ih =>
    obtain ⟨k0, v⟩ := e
    show (if k0 = k then some (g v) else mapGet (mapVals g m) k) = _
    by_cases h : k0 = k
    · simp [mapGet, h]
    · simp [mapGet, h, ih]

theorem mapKeys_mapVals {α : Type} (g : α → α) (m : List (String × α)) :
    mapKeys (mapVals g m) = mapKeys m := by
  unfold mapKeys mapVals
  rw [List.map_map]
  rfl

theorem mapSet_mapVals {α : Type} (g : α → α) (m : List (String × α)) (k : String) (v : α) :
    mapSet (mapVals g m) k (g v) = mapVals g (mapSet m k v) := by
  induction m with
  | nil => rfl
  | cons e m ih =>
    obtain ⟨k0, x⟩ := e
    show (if k0 = k then (k0, g v) :: mapVals g m else (k0, g x) :: mapSet (mapVals g m) k (g v))
      = mapVals g (if k0 = k then (k0, v) :: m else (k0, x) :: mapSet m k v)
    by_cases h : k0 = k
    · simp [h, mapVals]
    · simp only [h, if_false, ih]
      rfl

theorem mapModify_mapVals {α : Type} (g : α → α) (u v : α → α) (huv : ∀ x, u (g x) = g (v x))
    (m : List (String × α)) (k : String) :
    mapModify (mapVals g m) k u = mapVals g (mapModify m k v) := by
  induction m with
  | nil => rfl
  | cons e m ih =>
    obtain ⟨k0, x⟩ := e
    show (if k0 = k then (k0, u (g x)) :: mapVals g m
        else (k0, g x) :: mapModify (mapVals g m) k u)
      = mapVals g (if k0 = k then (k0, v x) :: m else (k0, x) :: mapModify m k v)
    by_cases h : k0 = k
    · simp [h, mapVals, huv]
    · simp only [h, if_false, ih]
      rfl

theorem toStr_ne_empty_of_truthy {v : JsVal} (h : v.truthy = true) : v.toStr ≠ "" := by
  cases v with
  | undefined => simp [JsVal.truthy] at h
  | null => simp [JsVal.truthy] at h
  | num n => exact intToString_ne_empty n
  | str s => simpa [JsVal.truthy, JsVal.toStr] using h

theorem spouseKey_canonNode (n : Node) : spouseKey (canonNode n) = spouseKey n := by
  have key : ∀ v : JsVal,
      (if (canonSpouse v).truthy then some (canonSpouse v).toStr else none) =
        if v.truthy then some v.toStr else none := by
    intro v
    by_cases h : v.truthy = true
    · have h1 : canonSpouse v = .str v.toStr := by simp [canonSpouse, h]
      have h2 : (JsVal.str v.toStr).truthy = true := by
        simpa [JsVal.truthy] using toStr_ne_empty_of_truthy h
      rw [h1, h2, h]
      rfl
    · have h1 : canonSpouse v = .undefined := by simp [canonSpouse, h]
      rw [h1, if_neg h]
      rfl
  exact key n.spouseId

theorem step2_mapVals (m : List (String × Node)) : step2 (mapVals canonNode m) = step2 m := by
  unfold step2
  suffices h : ∀ acc : List (String × List String),
      (mapVals canonNode m).foldl
        (fun childToParents entry =>
          (entry.2._childIds.getD []).foldl (addClaim entry.2.id) childToParents) acc =
      m.foldl
        (fun childToParents entry =>
          (entry.2._childIds.getD []).foldl (addClaim entry.2.id) childToParents) acc from h []
  induction m with
  | nil => intro acc; rfl
  | cons e m ih =>
    intro acc
    exact ih _

theorem findPair_mapVals (m : List (String × Node)) (ps todo : List String) :
    findPair (mapVals canonNode m) ps todo =
      (findPair m ps todo).map (fun ab => (canonNode ab.1, canonNode ab.2)) := by
  induction todo with
  | nil => rfl
  | cons pid todo ih =>
    unfold findPair
    rw [mapGet_mapVals]
    cases hp : mapGet m pid with
    | none => simpa using ih
    | some pA =>
      simp only [Option.map_some', spouseKey_canonNode]
      cases hs : spouseKey pA with
      | none => simpa using ih
      | some s =>
        simp only
        by_cases h1 : s = ""
        · simpa [h1] using ih
        · simp only [h1, if_false]
          by_cases h2 : s ∈ ps
          · simp only [h2, if_true, mapGet_mapVals]
            cases hq : mapGet m s with
            | none => simpa using ih
            | some pB => simp
          · simpa [h2] using ih

theorem dropFromOthers_mapVals (c : String) (m : List (String × Node)) (others : List String) :
    dropFromOthers c (mapVals canonNode m) others = mapVals canonNode (dropFromOthers c m others) := by
  unfold dropFromOthers
  induction others generalizing m with
  | nil => rfl
  | cons pid others ih =>
    simp only [List.foldl_cons]
    rw [mapGet_mapVals]
    cases hp : mapGet m pid with
    | none => simpa using ih m
    | some p =>
      simp only [Option.map_some']
      rw [mapModify_mapVals canonNode (dropChild c) (dropChild c) (fun _ => rfl)]
      exact ih _

theorem synthChild_mapVals (m : List (String × Node)) (e : String × List String) :
    synthChild (mapVals canonNode m) e = mapVals canonNode (synthChild m e) := by
  unfold synthChild
  by_cases hlen : e.2.length > 1
  · simp only [hlen, if_true]
    rw [findPair_mapVals]
    cases hf : findPair m e.2 e.2 with
    | none =>
      simp only [Option.map_none']
      exact dropFromOthers_mapVals _ _ _
    | some ab =>
      obtain ⟨a, b⟩ := ab
      simp only [Option.map_some']
      have h1 : familyId (canonNode a) (canonNode b) e.1 = familyId a b e.1 := rfl
      have h2 : familyUnit (canonNode a) (canonNode b) e.1 = canonNode (familyUnit a b e.1) := rfl
      have h3 : (canonNode a).id = a.id := rfl
      have h4 : (canonNode b).id = b.id := rfl
      rw [h1, h2, h3, h4, mapSet_mapVals,
        mapModify_mapVals canonNode (dropChild e.1) (dropChild e.1) (fun _ => rfl),
        mapModify_mapVals canonNode (dropChild e.1) (dropChild e.1) (fun _ => rfl),
        mapModify_mapVals canonNode (pushChild (familyId a b e.1)) (pushChild (familyId a b e.1))
          (fun _ => rfl)]
  · simp only [hlen, if_false]

theorem step3_mapVals (m : List (String × Node)) (idx : List (String × List String)) :
    step3 (mapVals canonNode m) idx = mapVals canonNode (step3 m idx) := by
  unfold step3
  induction idx generalizing m with
  | nil => rfl
  | cons e idx ih =>
    simp only [List.foldl_cons]
    rw [synthChild_mapVals]
    exact ih _

theorem resolveIds_mapVals (m : List (String × Node)) (ids : List String) :
    resolveIds (mapVals canonNode m) ids = resolveIds m ids := by
  unfold resolveIds
  congr 1
  funext cid
  rw [mapGet_mapVals]
  cases mapGet m cid <;> rfl

theorem linkChild_mapVals (key : String) (m : List (String × Node)) (cid : String) :
    linkChild key (mapVals canonNode m) cid = mapVals canonNode (linkChild key m cid) := by
  unfold linkChild
  rw [mapGet_mapVals]
  cases hc : mapGet m cid with
  | none => rfl
  | some child =>
    simp only [Option.map_some']
    have h1 : (canonNode child).nodeType = child.nodeType := rfl
    have h2 : (canonNode child)._childIds = child._childIds := rfl
    have h3 : (canonNode child).id = child.id := rfl
    rw [h1, h2, h3]
    cases hx : (if child.nodeType = some "family-unit" then child._childIds else none) with
    | none =>
      simp only
      refine mapModify_mapVals canonNode _ _ ?_ _ _
      intro x
      rfl
    | some ids =>
      simp only
      rw [resolveIds_mapVals, mapModify_mapVals canonNode _
        (fun c => { c with children := resolveIds m ids, _childIds := none }) (fun _ => rfl)]
      refine mapModify_mapVals canonNode _ _ ?_ _ _
      intro x
      rfl

theorem foldl_linkChild_mapVals (key : String) (ids : List String) (m : List (String × Node)) :
    ids.foldl (linkChild key) (mapVals canonNode m) =
      mapVals canonNode (ids.foldl (linkChild key) m) := by
  induction ids generalizing m with
  | nil => rfl
  | cons cid ids ih =>
    simp only [List.foldl_cons]
    rw [linkChild_mapVals]
    exact ih _

theorem resolveMember_mapVals (m : List (String × Node)) (key : String) :
    resolveMember (mapVals canonNode m) key = mapVals canonNode (resolveMember m key) := by
  unfold resolveMember
  rw [mapGet_mapVals]
  cases hc : mapGet m key with
  | none => rfl
  | some member =>
    simp only [Option.map_some']
    have h2 : (canonNode member)._childIds = member._childIds := rfl
    rw [h2, foldl_linkChild_mapVals]
    refine mapModify_mapVals canonNode _ _ ?_ _ _
    intro x
    rfl

theorem step4_mapVals (m : List (String × Node)) :
    step4 (mapVals canonNode m) = mapVals canonNode (step4 m) := by
  unfold step4
  rw [mapKeys_mapVals]
  generalize mapKeys m = keys
  induction keys generalizing m with
  | nil => rfl
  | cons k keys ih =>
    simp only [List.foldl_cons]
    rw [resolveMember_mapVals]
    exact ih _

theorem usedAsChild_mapVals (m : List (String × Node)) :
    usedAsChild (mapVals canonNode m) = usedAsChild m := by
  unfold usedAsChild
  generalize ([] : List String) = acc
  induction m generalizing acc with
  | nil => rfl
  | cons e m ih => exact ih _

theorem findRoots_mapVals (m : List (String × Node)) :
    findRoots (mapVals canonNode m) = findRoots m := by
  unfold findRoots
  rw [usedAsChild_mapVals]
  unfold mapVals
  rw [List.filter_map, List.map_map]
  rfl

theorem toStr_of_restrung {v w : JsVal} (h : restrung v w = true) : w.toStr = v.toStr := by
  unfold restrung at h
  rw [Bool.or_eq_true] at h
  rcases h with h | h
  · rw [beq_iff_eq] at h
    rw [h]
  · cases v with
    | num n =>
      simp only [beq_iff_eq] at h
      rw [h]
      rfl
    | undefined => simp at h
    | null => simp at h
    | str s => simp at h

theorem canonSpouse_of_restrung {v w : JsVal} (h : restrungSpouse v w = true) :
    canonSpouse w = canonSpouse v := by
  unfold restrungSpouse at h
  rw [Bool.or_eq_true] at h
  rcases h with h | h
  · rw [beq_iff_eq] at h
    rw [h]
  · cases v with
    | num n =>
      simp only [Bool.and_eq_true, bne_iff_ne, ne_eq, beq_iff_eq] at h
      obtain ⟨hn, rfl⟩ := h
      have := intToString_ne_empty n
      simp [canonSpouse, JsVal.truthy, JsVal.toStr, hn, this]
    | undefined => simp at h
    | null => simp at h
    | str s => simp at h

theorem map_toStr_of_restrungList {vs ws : List JsVal} (h : restrungList vs ws = true) :
    ws.map JsVal.toStr = vs.map JsVal.toStr := by
  induction vs generalizing ws with
  | nil =>
    cases ws with
    | nil => rfl
    | cons w ws => simp [restrungList] at h
  | cons v vs ih =>
    cases ws with
    | nil => simp [restrungList] at h
    | cons w ws =>
      simp only [restrungList, Bool.and_eq_true] at h
      simp [toStr_of_restrung h.1, ih h.2]

theorem mkNode_of_recoded {r r2 : Member} (h : recoded r r2 = true) :
    r2.id.toStr = r.id.toStr ∧ canonNode (mkNode r2) = canonNode (mkNode r) := by
  unfold recoded at h
  simp only [Bool.and_eq_true, beq_iff_eq] at h
  obtain ⟨⟨⟨hid, hname⟩, hsp⟩, hch⟩ := h
  have h1 := toStr_of_restrung hid
  have h2 := canonSpouse_of_restrung hsp
  have h3 : (r2.children.getD []).map JsVal.toStr = (r.children.getD []).map JsVal.toStr := by
    cases hc : r.children with
    | none =>
      cases hc2 : r2.children with
      | none => rfl
      | some cs2 => simp [hc, hc2] at hch
    | some cs =>
      cases hc2 : r2.children with
      | none => simp [hc, hc2] at hch
      | some cs2 =>
        simp only [hc, hc2] at hch
        exact map_toStr_of_restrungList hch
  refine ⟨h1, ?_⟩
  unfold canonNode mkNode
  simp only [h1, h2, h3, hname]

theorem step1_of_recodedAll {ms ms2 : List Member} (h : recodedAll ms ms2 = true) :
    mapVals canonNode (step1 ms2) = mapVals canonNode (step1 ms) := by
  unfold step1
  suffices hgen : ∀ acc acc2 : List (String × Node),
      mapVals canonNode acc2 = mapVals canonNode acc →
      mapVals canonNode
          (ms2.foldl (fun memberMap member => mapSet memberMap member.id.toStr (mkNode member))
            acc2) =
        mapVals canonNode
          (ms.foldl (fun memberMap member => mapSet memberMap member.id.toStr (mkNode member))
            acc) from hgen [] [] rfl
  induction ms generalizing ms2 with
  | nil =>
    cases ms2 with
    | nil => intro acc acc2 hacc; exact hacc
    | cons r2 rs2 => simp [recodedAll] at h
  | cons r rs ih =>
    cases ms2 with
    | nil => simp [recodedAll] at h
    | cons r2 rs2 =>
      simp only [recodedAll, Bool.and_eq_true] at h
      intro acc acc2 hacc
      simp only [List.foldl_cons]
      apply ih h.2
      obtain ⟨hid, hnode⟩ := mkNode_of_recoded h.1
      rw [← mapSet_mapVals, ← mapSet_mapVals, hid, hnode, hacc]

theorem nodeView_canon (m : List (String × Node)) :
    (mapVals canonNode m).map nodeView = m.map nodeView := by
  unfold mapVals
  rw [List.map_map]
  rfl

/-- Replacing numbers by their string forms, a spouse id `0` apart, changes nothing
in the forest but the raw `spouseId` fields. -/
theorem assemble_of_recodedAll {ms ms2 : List Member} (h : recodedAll ms ms2 = true) :
    (assemble ms2).rootNodes = (assemble ms).rootNodes ∧
      mapVals canonNode (assemble ms2).memberMap = mapVals canonNode (assemble ms).memberMap := by
  have h1 := step1_of_recodedAll h
  have h3 : mapVals canonNode (synthesize ms2) = mapVals canonNode (synthesize ms) := by
    unfold synthesize
    rw [← step3_mapVals, ← step3_mapVals, ← step2_mapVals (step1 ms2), ← step2_mapVals (step1 ms),
      h1]
  have h4 : mapVals canonNode (step4 (synthesize ms2)) = mapVals canonNode (step4 (synthesize ms)) := by
    rw [← step4_mapVals, ← step4_mapVals, h3]
  refine ⟨?_, h4⟩
  show findRoots (step4 (synthesize ms2)) = findRoots (step4 (synthesize ms))
  rw [← findRoots_mapVals, ← findRoots_mapVals (step4 (synthesize ms)), h4]

theorem unitIds_of_view {f f2 : Forest} (h : f2.memberMap.map nodeView = f.memberMap.map nodeView) :
    unitIds f2 = unitIds f := by
  have key : ∀ m : List (String × Node),
      (m.filter (fun e => decide (e.2.nodeType = some "family-unit"))).map Prod.fst =
        ((m.map nodeView).filter (fun v => decide (v.2.2.2.1 = some "family-unit"))).map
          Prod.fst := by
    intro m
    rw [List.filter_map, List.map_map]
    rfl
  unfold unitIds
  rw [key, key, h]

theorem childrenOf_of_view {f f2 : Forest}
    (h : f2.memberMap.map nodeView = f.memberMap.map nodeView) (key : String) :
    childrenOf f2 key = childrenOf f key := by
  have hk : ∀ m : List (String × Node),
      ((mapGet m key).map Node.children).getD [] =
        ((mapGet (m.map (fun e => (e.1, nodeView e))) key).map
          (fun v => v.2.2.2.2.2)).getD [] := by
    intro m
    induction m with
    | nil => rfl
    | cons e m ih =>
      obtain ⟨k, n⟩ := e
      by_cases hkk : k = key
      · simp [mapGet, hkk, nodeView]
      · simpa [mapGet, hkk] using ih
  have hm : ∀ m : List (String × Node),
      m.map (fun e => (e.1, nodeView e)) = (m.map nodeView).map (fun v => (v.1, v)) := by
    intro m
    rw [List.map_map]
    rfl
  unfold childrenOf
  rw [hk, hk, hm, hm, h]

/-- C15, as stated, fails on `exZero`: with the numeric spouse id `0` (falsy) no pair
is found for the child `7`, and no family unit is created; with every number
replaced by its string form the spouse id `"0"` is truthy, and the family unit
`family-5-0-7` is created. -/
theorem canonical_id_counterexample :
    exZeroStr = exZero.map (fun r =>
      { id := .str r.id.toStr
        name := r.name
        spouseId := match r.spouseId with
          | .num n => .str (toString n)
          | v => v
        children := r.children.map (fun cs => cs.map (fun c => .str c.toStr)) }) ∧
    (buildTree (some exZero)).map (fun f => (unitIds f, f.rootNodes, childrenOf f "0")) =
      some ([], ["0", "5"], ["7"]) ∧
    (buildTree (some exZeroStr)).map (fun f => (unitIds f, f.rootNodes, childrenOf f "0")) =
      some (["family-5-0-7"], ["0", "5"], []) := by
  decide

/-- C15 (amended): id canonicalization.  If `ms2` is `ms` with some numeric record
ids, numeric child ids, or numeric spouse ids other than `0` replaced by their string
forms, then `buildTree` returns a forest on `ms2` whenever it does on `ms`, with the
same roots, the same entries but for the raw `spouseId` fields (same keys in the same
order, same ids, names, node types, spouses and children), hence the same family-unit
ids and the same children under every key. -/
theorem canonical_ids (ms ms2 : List Member) (f : Forest)
    (h : recodedAll ms ms2 = true) (hb : buildTree (some ms) = some f) :
    ∃ f2, buildTree (some ms2) = some f2 ∧ f2.rootNodes = f.rootNodes ∧
      f2.memberMap.map nodeView = f.memberMap.map nodeView ∧
      unitIds f2 = unitIds f ∧ ∀ key, childrenOf f2 key = childrenOf f key := by
  obtain ⟨hne, rfl⟩ := buildTree_some hb
  have hne2 : ms2 ≠ [] := by
    intro h0
    subst h0
    cases ms with
    | nil => exact hne rfl
    | cons r rs => simp [recodedAll] at h
  obtain ⟨hroots, hmap⟩ := assemble_of_recodedAll h
  have hview : (assemble ms2).memberMap.map nodeView = (assemble ms).memberMap.map nodeView := by
    rw [← nodeView_canon, ← nodeView_canon (assemble ms).memberMap, hmap]
  exact ⟨assemble ms2, buildTree_of_ne_nil hne2, hroots, hview, unitIds_of_view hview,
    childrenOf_of_view hview⟩

/-- C15, witness: `exNumericStr` is `exNumeric` with some numbers replaced by their
string forms; both inputs give the same forest, with the family unit `family-2-1-3`. -/
theorem canonical_ids_witness :
    unitIds (assemble exNumeric) = ["family-2-1-3"] ∧
    ∃ f2, buildTree (some exNumericStr) = some f2 ∧
      f2.rootNodes = (assemble exNumeric).rootNodes ∧
      f2.memberMap.map nodeView = (assemble exNumeric).memberMap.map nodeView ∧
      unitIds f2 = unitIds (assemble exNumeric) ∧
      ∀ key, childrenOf f2 key = childrenOf (assemble exNumeric) key :=
  ⟨by decide, canonical_ids exNumeric exNumericStr (assemble exNumeric) (by decide) rfl⟩

/-! ## The rendering component -/

theorem getRaw_cons {α : Type} (k : JsVal) (v : α) (m : List (JsVal × α)) (key : JsVal) :
    getRaw ((k, v) :: m) key = if k = key then some v else getRaw m key := rfl

theorem getRaw_eq_none_iff {α : Type} (m : List (JsVal × α)) (key : JsVal) :
    getRaw m key = none ↔ key ∉ keysRaw m := by
  induction m with
  | nil => simp [getRaw, keysRaw]
  | cons e m ih =>
    obtain ⟨k, v⟩ := e
    rw [getRaw_cons]
    by_cases h : k = key
    · simp [h, keysRaw]
    · have h' : ¬ key = k := fun h' => h h'.symm
      simp only [h, if_false, ih, keysRaw, List.map_cons, List.mem_cons, h', false_or]

theorem getRaw_isSome_iff {α : Type} (m : List (JsVal × α)) (key : JsVal) :
    (∃ v, getRaw m key = some v) ↔ key ∈ keysRaw m := by
  rw [← not_iff_not, ← getRaw_eq_none_iff]
  cases getRaw m key <;> simp

theorem getRaw_setRaw {α : Type} (m : List (JsVal × α)) (k : JsVal) (v : α) (q : JsVal) :
    getRaw (setRaw m k v) q = if k = q then some v else getRaw m q := by
  induction m with
  | nil => rfl
  | cons e m ih =>
    obtain ⟨k0, x⟩ := e
    by_cases h : k0 = k
    · subst h
      by_cases hq : k0 = q <;> simp [setRaw, getRaw, hq]
    · by_cases hq : k0 = q
      · subst hq
        have : ¬ k = k0 := fun h' => h h'.symm
        simp [setRaw, getRaw, h, this]
      · simp [setRaw, getRaw, h, hq, ih]

theorem getRaw_modifyRaw {α : Type} (m : List (JsVal × α)) (k : JsVal) (f : α → α) (q : JsVal) :
    getRaw (modifyRaw m k f) q = if k = q then (getRaw m q).map f else getRaw m q := by
  induction m with
  | nil => simp [modifyRaw, getRaw]
  | cons e m ih =>
    obtain ⟨k0, x⟩ := e
    by_cases h : k0 = k
    · subst h
      by_cases hq : k0 = q <;> simp [modifyRaw, getRaw, hq]
    · by_cases hq : k0 = q
      · subst hq
        have : ¬ k = k0 := fun h' => h h'.symm
        simp [modifyRaw, getRaw, h, this]
      · simp [modifyRaw, getRaw, h, hq, ih]

theorem keysRaw_modifyRaw {α : Type} (m : List (JsVal × α)) (k : JsVal) (f : α → α) :
    keysRaw (modifyRaw m k f) = keysRaw m := by
  induction m with
  | nil => rfl
  | cons e m ih =>
    obtain ⟨k0, x⟩ := e
    by_cases h : k0 = k
    · simp [modifyRaw, keysRaw, h]
    · simp only [modifyRaw, h, if_false, keysRaw, List.map_cons, List.cons.injEq, true_and]
      exact ih

theorem mem_keysRaw_setRaw {α : Type} (m : List (JsVal × α)) (k : JsVal) (v : α) (q : JsVal) :
    q ∈ keysRaw (setRaw m k v) ↔ q = k ∨ q ∈ keysRaw m := by
  rw [← getRaw_isSome_iff, getRaw_setRaw, ← getRaw_isSome_iff]
  by_cases h : k = q
  · simp [h]
  · have h' : ¬ q = k := fun h' => h h'.symm
    simp [h, h']

theorem nodup_keysRaw_setRaw {α : Type} (m : List (JsVal × α)) (k : JsVal) (v : α)
    (h : (keysRaw m).Nodup) : (keysRaw (setRaw m k v)).Nodup := by
  induction m with
  | nil => simp [setRaw, keysRaw]
  | cons e m ih =>
    obtain ⟨k0, x⟩ := e
    have h0 : k0 ∉ keysRaw m ∧ (keysRaw m).Nodup := by
      simpa [keysRaw] using h
    by_cases hk : k0 = k
    · simpa [setRaw, hk, keysRaw] using h
    · have : k0 ∉ keysRaw (setRaw m k v) := by
        rw [mem_keysRaw_setRaw]
        exact fun hc => hc.elim hk h0.1
      have ih' := ih h0.2
      simp only [setRaw, hk, if_false]
      show (k0 :: keysRaw (setRaw m k v)).Nodup
      exact List.nodup_cons.2 ⟨this, ih'⟩

theorem getRaw_of_mem {α : Type} {m : List (JsVal × α)} (hnd : (keysRaw m).Nodup)
    {e : JsVal × α} (he : e ∈ m) : getRaw m e.1 = some e.2 := by
  induction m with
  | nil => simp at he
  | cons e0 m ih =>
    obtain ⟨k0, x⟩ := e0
    have h0 : k0 ∉ keysRaw m ∧ (keysRaw m).Nodup := by
      simpa [keysRaw] using hnd
    rcases List.mem_cons.1 he with h | h
    · subst h
      simp [getRaw]
    · have hne : k0 ≠ e.1 := by
        intro hk
        exact h0.1 (hk ▸ List.mem_map.2 ⟨e, h, rfl⟩)
      rw [getRaw_cons, if_neg hne]
      exact ih h0.2 h

theorem mem_of_getRaw {α : Type} {m : List (JsVal × α)} {k : JsVal} {v : α}
    (h : getRaw m k = some v) : (k, v) ∈ m := by
  induction m with
  | nil => simp [getRaw] at h
  | cons e0 m ih =>
    obtain ⟨k0, x⟩ := e0
    rw [getRaw_cons] at h
    by_cases hk : k0 = k
    · rw [if_pos hk] at h
      simp only [Option.some.injEq] at h
      subst hk
      subst h
      exact List.mem_cons_self _ _
    · rw [if_neg hk] at h
      exact List.mem_cons_of_mem _ (ih h)

/-- Two maps with the same keys in the same order, pairwise distinct, and the same
value under every key are equal. -/
theorem raw_ext {α : Type} {m₁ m₂ : List (JsVal × α)} (hk : keysRaw m₁ = keysRaw m₂)
    (hnd : (keysRaw m₁).Nodup) (hg : ∀ q, getRaw m₁ q = getRaw m₂ q) : m₁ = m₂ := by
  induction m₁ generalizing m₂ with
  | nil =>
    cases m₂ with
    | nil => rfl
    | cons e m => simp [keysRaw] at hk
  | cons e₁ m₁ ih =>
    cases m₂ with
    | nil => simp [keysRaw] at hk
    | cons e₂ m₂ =>
      obtain ⟨k₁, v₁⟩ := e₁
      obtain ⟨k₂, v₂⟩ := e₂
      simp only [keysRaw, List.map_cons, List.cons.injEq] at hk
      obtain ⟨hk1, hk2⟩ := hk
      subst hk1
      have h0 : k₁ ∉ keysRaw m₁ ∧ (keysRaw m₁).Nodup := by
        simpa [keysRaw] using hnd
      have hv : v₁ = v₂ := by
        have := hg k₁
        simpa [getRaw] using this
      subst hv
      congr 1
      apply ih hk2 h0.2
      intro q
      have := hg q
      rw [getRaw_cons, getRaw_cons] at this
      by_cases hq : k₁ = q
      · subst hq
        rw [(getRaw_eq_none_iff m₁ k₁).2 h0.1]
        have h2 : k₁ ∉ keysRaw m₂ := by
          show k₁ ∉ List.map Prod.fst m₂
          rw [← hk2]
          exact h0.1
        rw [(getRaw_eq_none_iff m₂ k₁).2 h2]
      · rw [if_neg hq, if_neg hq] at this
        exact this

theorem getRaw_map_snd {α : Type} (m : List (JsVal × α)) (g : JsVal → α → α) (q : JsVal) :
    getRaw (m.map (fun e => (e.1, g e.1 e.2))) q = (getRaw m q).map (g q) := by
  induction m with
  | nil => rfl
  | cons e m ih =>
    obtain ⟨k, v⟩ := e
    simp only [List.map_cons, getRaw_cons]
    by_cases h : k = q
    · subst h
      simp
    · simp [h, ih]

theorem keysRaw_map_snd {α : Type} (m : List (JsVal × α)) (g : JsVal → α → α) :
    keysRaw (m.map (fun e => (e.1, g e.1 e.2))) = keysRaw m := by
  unfold keysRaw
  rw [List.map_map]
  rfl

/-! ### The first loop -/

theorem copyMembers_inv (ms : List Member) :
    (keysRaw (copyMembers ms)).Nodup ∧
      (∀ e ∈ copyMembers ms, e.2.id = e.1 ∧ e.2.children = []) ∧
      ∀ q, q ∈ keysRaw (copyMembers ms) ↔ q ∈ ms.map Member.id := by
  unfold copyMembers
  suffices h : ∀ (l : List Member) (acc : List (JsVal × Copy)),
      ((keysRaw acc).Nodup ∧ (∀ e ∈ acc, e.2.id = e.1 ∧ e.2.children = [])) →
      (keysRaw (l.foldl (fun memberMap member => setRaw memberMap member.id (mkCopy member))
          acc)).Nodup ∧
        (∀ e ∈ l.foldl (fun memberMap member => setRaw memberMap member.id (mkCopy member)) acc,
          e.2.id = e.1 ∧ e.2.children = []) ∧
        ∀ q, q ∈ keysRaw (l.foldl
            (fun memberMap member => setRaw memberMap member.id (mkCopy member)) acc) ↔
          q ∈ keysRaw acc ∨ q ∈ l.map Member.id by
    have := h ms [] ⟨by simp [keysRaw], by simp⟩
    simpa [keysRaw] using this
  intro l
  induction l with
  | nil =>
    intro acc h
    exact ⟨h.1, h.2, by simp⟩
  | cons r l ih =>
    intro acc h
    simp only [List.foldl_cons]
    have hstep : (keysRaw (setRaw acc r.id (mkCopy r))).Nodup ∧
        ∀ e ∈ setRaw acc r.id (mkCopy r), e.2.id = e.1 ∧ e.2.children = [] := by
      refine ⟨nodup_keysRaw_setRaw _ _ _ h.1, ?_⟩
      intro e he
      have hnd := nodup_keysRaw_setRaw acc r.id (mkCopy r) h.1
      have hg := getRaw_of_mem hnd he
      rw [getRaw_setRaw] at hg
      by_cases hk : r.id = e.1
      · rw [if_pos hk] at hg
        simp only [Option.some.injEq] at hg
        rw [← hg, ← hk]
        exact ⟨rfl, rfl⟩
      · rw [if_neg hk] at hg
        exact h.2 (e.1, e.2) (mem_of_getRaw hg)
    obtain ⟨h1, h2, h3⟩ := ih _ hstep
    refine ⟨h1, h2, ?_⟩
    intro q
    rw [h3, mem_keysRaw_setRaw]
    simp only [List.map_cons, List.mem_cons]
    tauto

theorem copyMembers_nodup (ms : List Member) : (keysRaw (copyMembers ms)).Nodup :=
  (copyMembers_inv ms).1

theorem mem_keysRaw_copyMembers {ms : List Member} {q : JsVal} :
    q ∈ keysRaw (copyMembers ms) ↔ q ∈ ms.map Member.id :=
  (copyMembers_inv ms).2.2 q

theorem copyMembers_get {ms : List Member} {q : JsVal} {n : Copy}
    (h : getRaw (copyMembers ms) q = some n) : n.id = q ∧ n.children = [] :=
  (copyMembers_inv ms).2.1 (q, n) (mem_of_getRaw h)

/-! ### The second pass -/

theorem getRaw_linkedMid (m0 : List (JsVal × Copy)) (done : List Member) (r : Member)
    (seen : List JsVal) (q : JsVal) :
    getRaw (linkedMid m0 done r seen) q =
      (getRaw m0 q).map (fun n => { n with children := n.children ++ attached m0 done q ++
        (if r.id = q then seen.filter (fun c => decide (c ∈ keysRaw m0)) else []) }) :=
  getRaw_map_snd m0
    (fun k n => { n with children := n.children ++ attached m0 done k ++
      (if r.id = k then seen.filter (fun c => decide (c ∈ keysRaw m0)) else []) }) q

theorem keysRaw_linkedMid (m0 : List (JsVal × Copy)) (done : List Member) (r : Member)
    (seen : List JsVal) : keysRaw (linkedMid m0 done r seen) = keysRaw m0 :=
  keysRaw_map_snd m0
    (fun k n => { n with children := n.children ++ attached m0 done k ++
      (if r.id = k then seen.filter (fun c => decide (c ∈ keysRaw m0)) else []) })

theorem getRaw_linked (m0 : List (JsVal × Copy)) (done : List Member) (q : JsVal) :
    getRaw (linked m0 done) q =
      (getRaw m0 q).map (fun n => { n with children := n.children ++ attached m0 done q }) :=
  getRaw_map_snd m0 (fun k n => { n with children := n.children ++ attached m0 done k }) q

theorem keysRaw_linked (m0 : List (JsVal × Copy)) (done : List Member) :
    keysRaw (linked m0 done) = keysRaw m0 :=
  keysRaw_map_snd m0 (fun k n => { n with children := n.children ++ attached m0 done k })

theorem linkedMid_nil (m0 : List (JsVal × Copy)) (done : List Member) (r : Member) :
    linkedMid m0 done r [] = linked m0 done := by
  unfold linkedMid linked
  apply List.map_congr_left
  intro e _
  simp

theorem attached_append (m0 : List (JsVal × Copy)) (done : List Member) (r : Member)
    (key : JsVal) :
    attached m0 (done ++ [r]) key = attached m0 done key ++
      (if r.id = key then (rawKids r).filter (fun c => decide (c ∈ keysRaw m0)) else []) := by
  unfold attached
  rw [List.filter_append, List.flatMap_append]
  by_cases h : r.id = key
  · simp [List.filter_cons, h]
  · simp [List.filter_cons, h]

theorem linkedMid_all (m0 : List (JsVal × Copy)) (done : List Member) (r : Member) :
    linkedMid m0 done r (rawKids r) = linked m0 (done ++ [r]) := by
  unfold linkedMid linked
  apply List.map_congr_left
  intro e _
  rw [attached_append, List.append_assoc]

/-- One iteration of the inner loop of the second pass. -/
theorem attachChild_linkedMid {m0 : List (JsVal × Copy)} (hnd : (keysRaw m0).Nodup)
    (hid : ∀ e ∈ m0, e.2.id = e.1) (done : List Member) {r : Member}
    (hr : r.id ∈ keysRaw m0) (seen : List JsVal) (c : JsVal) :
    attachChild r (linkedMid m0 done r seen) c = some (linkedMid m0 done r (seen ++ [c])) := by
  unfold attachChild
  rw [getRaw_linkedMid]
  cases hc : getRaw m0 c with
  | none =>
    have hcn : c ∉ keysRaw m0 := (getRaw_eq_none_iff m0 c).1 hc
    simp only [Option.map_none', Option.some.injEq]
    unfold linkedMid
    apply List.map_congr_left
    intro e _
    simp [List.filter_append, List.filter_cons, hcn]
  | some n0 =>
    have hcm : c ∈ keysRaw m0 := (getRaw_isSome_iff m0 c).1 ⟨n0, hc⟩
    have hn0 : n0.id = c := hid (c, n0) (mem_of_getRaw hc)
    obtain ⟨p0, hp0⟩ := (getRaw_isSome_iff m0 r.id).2 hr
    simp only [Option.map_some', getRaw_linkedMid, hp0, Option.some.injEq]
    apply raw_ext
    · rw [keysRaw_modifyRaw, keysRaw_linkedMid, keysRaw_linkedMid]
    · rw [keysRaw_modifyRaw, keysRaw_linkedMid]
      exact hnd
    · intro q
      rw [getRaw_modifyRaw, getRaw_linkedMid, getRaw_linkedMid]
      by_cases hq : r.id = q
      · rw [if_pos hq]
        cases getRaw m0 q with
        | none => rfl
        | some n =>
          simp [hq, List.filter_append, List.filter_cons, hcm, hn0]
      · rw [if_neg hq]
        cases getRaw m0 q with
        | none => rfl
        | some n => simp [hq]

theorem foldlM_attachChild {m0 : List (JsVal × Copy)} (hnd : (keysRaw m0).Nodup)
    (hid : ∀ e ∈ m0, e.2.id = e.1) (done : List Member) {r : Member}
    (hr : r.id ∈ keysRaw m0) (cs : List JsVal) :
    ∀ seen : List JsVal,
      cs.foldlM (attachChild r) (linkedMid m0 done r seen) =
        some (linkedMid m0 done r (seen ++ cs)) := by
  induction cs with
  | nil => intro seen; simp
  | cons c cs ih =>
    intro seen
    rw [List.foldlM_cons, attachChild_linkedMid hnd hid done hr]
    simp only [Option.bind_eq_bind, Option.some_bind]
    rw [ih (seen ++ [c])]
    simp

/-- One iteration of the outer loop of the second pass. -/
theorem linkMember_linked {m0 : List (JsVal × Copy)} (hnd : (keysRaw m0).Nodup)
    (hid : ∀ e ∈ m0, e.2.id = e.1) (done : List Member) {r : Member}
    (hr : r.id ∈ keysRaw m0) :
    FamilyTree.linkMember (linked m0 done) r = some (linked m0 (done ++ [r])) := by
  unfold FamilyTree.linkMember
  cases hc : r.children with
  | none =>
    simp only
    rw [← linkedMid_all]
    have : rawKids r = [] := by simp [rawKids, hc]
    rw [this, linkedMid_nil]
  | some cs =>
    simp only
    have hk : rawKids r = cs := by simp [rawKids, hc]
    by_cases hl : cs.length ≠ 0
    · rw [if_pos hl, ← linkedMid_nil m0 done r, foldlM_attachChild hnd hid done hr cs []]
      rw [List.nil_append, ← hk, linkedMid_all]
    · rw [if_neg hl]
      have : cs = [] := by
        cases cs with
        | nil => rfl
        | cons c cs => simp at hl
      rw [← linkedMid_all, hk, this, linkedMid_nil]

theorem linkChildren_linked {m0 : List (JsVal × Copy)} (hnd : (keysRaw m0).Nodup)
    (hid : ∀ e ∈ m0, e.2.id = e.1) (rest : List Member) :
    ∀ done : List Member, (∀ r ∈ rest, r.id ∈ keysRaw m0) →
      FamilyTree.linkChildren rest (linked m0 done) = some (linked m0 (done ++ rest)) := by
  unfold FamilyTree.linkChildren
  induction rest with
  | nil => intro done _; simp
  | cons r rest ih =>
    intro done hreg
    rw [List.foldlM_cons, linkMember_linked hnd hid done (hreg r (List.mem_cons_self _ _))]
    simp only [Option.bind_eq_bind, Option.some_bind]
    rw [ih (done ++ [r]) (fun r' hr' => hreg r' (List.mem_cons_of_mem _ hr'))]
    simp

theorem linked_nil {m0 : List (JsVal × Copy)} : linked m0 [] = m0 := by
  unfold linked
  conv_rhs => rw [← List.map_id m0]
  apply List.map_congr_left
  intro e _
  simp [attached]

/-- The second pass never raises: it returns the registry with, under every key, the
registered child ids listed by the records with that id. -/
theorem linkChildren_copyMembers (ms : List Member) :
    FamilyTree.linkChildren ms (copyMembers ms) = some (linked (copyMembers ms) ms) := by
  have h := linkChildren_linked (copyMembers_nodup ms)
    (fun e he => ((copyMembers_inv ms).2.1 e he).1) ms []
    (fun r hr => mem_keysRaw_copyMembers.2 (List.mem_map.2 ⟨r, hr, rfl⟩))
  rw [linked_nil] at h
  simpa using h

theorem allChildIds_eq (ms : List Member) : FamilyTree.allChildIds ms = ms.flatMap rawKids := by
  unfold FamilyTree.allChildIds
  have hin : ∀ (cs : List JsVal) (acc : List JsVal),
      cs.foldl (fun s childId => s ++ [childId]) acc = acc ++ cs := by
    intro cs
    induction cs with
    | nil => intro acc; simp
    | cons c cs ih => intro acc; rw [List.foldl_cons, ih]; simp
  suffices h : ∀ (l : List Member) (acc : List JsVal),
      l.foldl
        (fun ids member =>
          match member.children with
          | none => ids
          | some childIds => childIds.foldl (fun s childId => s ++ [childId]) ids) acc =
        acc ++ l.flatMap rawKids by
    simpa using h ms []
  intro l
  induction l with
  | nil => intro acc; simp
  | cons r l ih =>
    intro acc
    rw [List.foldl_cons, ih, List.flatMap_cons]
    cases hc : r.children with
    | none => simp [rawKids, hc]
    | some cs => simp [rawKids, hc, hin]

theorem old_linkChildren_eq (ms : List Member) (m : List (JsVal × Copy)) :
    FamilyTreeOld.linkChildren ms m = FamilyTree.linkChildren ms m := by
  unfold FamilyTreeOld.linkChildren FamilyTree.linkChildren
  congr 1
  funext mm member
  unfold FamilyTreeOld.linkMember FamilyTree.linkMember
  cases member.children with
  | none => rfl
  | some cs =>
    simp only
    by_cases h : cs.length > 0
    · rw [if_pos h, if_pos (by omega)]
    · rw [if_neg h, if_neg (by omega)]

theorem old_allChildIds_eq (ms : List Member) :
    FamilyTreeOld.allChildIds ms = FamilyTree.allChildIds ms := by
  unfold FamilyTreeOld.allChildIds FamilyTree.allChildIds
  congr 1
  funext ids member
  cases member.children with
  | none => rfl
  | some cs => rfl

/-- The value of the rendering `buildTree` on a non-empty input. -/
theorem render_eq {ms : List Member} (hne : ms ≠ []) :
    FamilyTree.buildTree (some ms) = some
      { name := "Kodero Family Legacy"
        generation := 0
        nodeType := "root"
        children :=
          (ms.filter (fun r => decide (r.id ∉ ms.flatMap rawKids))).map Member.id
        memberMap := linked (copyMembers ms) ms } := by
  cases ms with
  | nil => exact absurd rfl hne
  | cons m ms =>
    unfold FamilyTree.buildTree
    simp only [linkChildren_copyMembers, allChildIds_eq]
    congr 2
    rw [← List.filterMap_eq_map]
    apply List.filterMap_congr
    intro r hr
    have hr' : r ∈ m :: ms := (List.mem_filter.1 hr).1
    have hk : r.id ∈ keysRaw (copyMembers (m :: ms)) :=
      mem_keysRaw_copyMembers.2 (List.mem_map.2 ⟨r, hr', rfl⟩)
    obtain ⟨n, hn⟩ := (getRaw_isSome_iff _ _).2 hk
    rw [getRaw_linked, hn]
    simp [(copyMembers_get hn).1]

/-! ### The tree of the rendering component -/

theorem setRaw_of_not_mem {α : Type} (m : List (JsVal × α)) (k : JsVal) (v : α)
    (h : k ∉ keysRaw m) : setRaw m k v = m ++ [(k, v)] := by
  induction m with
  | nil => rfl
  | cons e m ih =>
    obtain ⟨k0, x⟩ := e
    have h0 : ¬ k = k0 ∧ k ∉ keysRaw m := by simpa [keysRaw] using h
    have h1 : ¬ k0 = k := fun hk => h0.1 hk.symm
    simp only [setRaw, h1, if_false, List.cons_append, List.cons.injEq, true_and]
    exact ih h0.2

theorem copyMembers_of_nodup (ms : List Member) (h : (ms.map Member.id).Nodup) :
    copyMembers ms = ms.map (fun r => (r.id, mkCopy r)) := by
  unfold copyMembers
  have key : ∀ (l : List Member) (acc : List (JsVal × Copy)),
      (keysRaw acc ++ l.map Member.id).Nodup →
      l.foldl (fun memberMap member => setRaw memberMap member.id (mkCopy member)) acc =
        acc ++ l.map (fun r => (r.id, mkCopy r)) := by
    intro l
    induction l with
    | nil => intro acc _; simp
    | cons r l ih =>
      intro acc hnd
      have hr : r.id ∉ keysRaw acc := by
        intro hr
        have := (List.nodup_append.1 hnd).2.2 hr
        exact this (by simp)
      rw [List.foldl_cons, setRaw_of_not_mem _ _ _ hr, ih]
      · simp
      · simpa [keysRaw, List.append_assoc] using hnd
  simpa using key ms [] (by simpa [keysRaw] using h)

theorem filter_id_eq {ms : List Member} (h : (ms.map Member.id).Nodup) {r : Member}
    (hr : r ∈ ms) : ms.filter (fun r2 => decide (r2.id = r.id)) = [r] := by
  induction ms with
  | nil => simp at hr
  | cons r0 ms ih =>
    have h0 : r0.id ∉ ms.map Member.id ∧ (ms.map Member.id).Nodup := by simpa using h
    rcases List.mem_cons.1 hr with rfl | hr
    · rw [List.filter_cons, if_pos (by simp)]
      congr 1
      rw [List.filter_eq_nil_iff]
      intro r2 hr2 heq
      apply h0.1
      have : r2.id = r.id := by simpa using heq
      exact this ▸ List.mem_map.2 ⟨r2, hr2, rfl⟩
    · have hne : ¬ r0.id = r.id := by
        intro heq
        exact h0.1 (heq ▸ List.mem_map.2 ⟨r, hr, rfl⟩)
      rw [List.filter_cons, if_neg (by simpa using hne)]
      exact ih h0.2 hr

/-- The children of the copy registered under `p`: the registered child ids listed
by the records with id `p`. -/
theorem mem_copyChildren {ms : List Member} {t : VirtualRoot}
    (hb : FamilyTree.buildTree (some ms) = some t) {p x : JsVal} :
    x ∈ copyChildren t p ↔
      ∃ r ∈ ms, r.id = p ∧ x ∈ rawKids r ∧ x ∈ ms.map Member.id := by
  have hne : ms ≠ [] := by
    intro h0
    subst h0
    simp [FamilyTree.buildTree] at hb
  rw [render_eq hne] at hb
  simp only [Option.some.injEq] at hb
  subst hb
  unfold copyChildren
  simp only
  rw [getRaw_linked]
  cases hg : getRaw (copyMembers ms) p with
  | none =>
    have hp : p ∉ keysRaw (copyMembers ms) := (getRaw_eq_none_iff _ _).1 hg
    simp only [Option.map_none', Option.getD_none, List.not_mem_nil, false_iff]
    rintro ⟨r, hr, rfl, _⟩
    exact hp (mem_keysRaw_copyMembers.2 (List.mem_map.2 ⟨r, hr, rfl⟩))
  | some n =>
    simp only [Option.map_some', Option.getD_some, (copyMembers_get hg).2, List.nil_append]
    unfold attached
    simp only [List.mem_flatMap, List.mem_filter, decide_eq_true_eq]
    constructor
    · rintro ⟨r, ⟨hr, hid⟩, hx, hk⟩
      exact ⟨r, hr, hid, hx, mem_keysRaw_copyMembers.1 hk⟩
    · rintro ⟨r, hr, hid, hx, hk⟩
      exact ⟨r, ⟨hr, hid⟩, hx, mem_keysRaw_copyMembers.2 hk⟩

theorem mem_rootChildren {ms : List Member} {t : VirtualRoot}
    (hb : FamilyTree.buildTree (some ms) = some t) {x : JsVal} :
    x ∈ t.children ↔ x ∈ ms.map Member.id ∧ x ∉ ms.flatMap rawKids := by
  have hne : ms ≠ [] := by
    intro h0
    subst h0
    simp [FamilyTree.buildTree] at hb
  rw [render_eq hne] at hb
  simp only [Option.some.injEq] at hb
  subst hb
  simp only [List.mem_map, List.mem_filter, decide_eq_true_eq]
  constructor
  · rintro ⟨r, ⟨hr, hx⟩, rfl⟩
    exact ⟨⟨r, hr, rfl⟩, hx⟩
  · rintro ⟨⟨r, hr, rfl⟩, hx⟩
    exact ⟨r, ⟨hr, hx⟩, rfl⟩

theorem keysRaw_render {ms : List Member} {t : VirtualRoot}
    (hb : FamilyTree.buildTree (some ms) = some t) {x : JsVal} :
    x ∈ keysRaw t.memberMap ↔ x ∈ ms.map Member.id := by
  have hne : ms ≠ [] := by
    intro h0
    subst h0
    simp [FamilyTree.buildTree] at hb
  rw [render_eq hne] at hb
  simp only [Option.some.injEq] at hb
  subst hb
  simp only
  rw [keysRaw_linked]
  exact mem_keysRaw_copyMembers

/-- C21, as stated, fails on `exCouple`: the rendering component has no family units;
the record `3`, listed by `1` and by `2`, is a child of both. -/
theorem render_strict_counterexample :
    (FamilyTree.buildTree (some exCouple)).map
      (fun t => (copyChildren t (.str "1"), copyChildren t (.str "2"))) =
      some ([.str "3"], [.str "3"]) := by
  decide

/-- C21 (amended): the tree of the rendering component is strict on single-lister
data.  For every input in which every child id is listed by the records of one id
only, in the tree returned by `buildTree` of `components/FamilyTree.jsx` no record is in
the children of two different nodes: the children of two copies with different ids are
disjoint, a child of the virtual root is a child of no copy, and every record copy is a
child of the virtual root or of some copy. -/
theorem render_strict (ms : List Member) (t : VirtualRoot)
    (hb : FamilyTree.buildTree (some ms) = some t) (hone : SingleLister ms) :
    (∀ p q x, x ∈ copyChildren t p → x ∈ copyChildren t q → p = q) ∧
      (∀ x ∈ t.children, ∀ p, x ∉ copyChildren t p) ∧
      ∀ x ∈ keysRaw t.memberMap, x ∈ t.children ∨ ∃ p, x ∈ copyChildren t p := by
  refine ⟨?_, ?_, ?_⟩
  · intro p q x hp hq
    obtain ⟨r, hr, rfl, hx, _⟩ := (mem_copyChildren hb).1 hp
    obtain ⟨r2, hr2, rfl, hx2, _⟩ := (mem_copyChildren hb).1 hq
    exact hone r hr r2 hr2 x hx hx2
  · intro x hx p hp
    obtain ⟨r, hr, _, hxr, _⟩ := (mem_copyChildren hb).1 hp
    exact ((mem_rootChildren hb).1 hx).2 (List.mem_flatMap.2 ⟨r, hr, hxr⟩)
  · intro x hx
    have hreg := (keysRaw_render hb).1 hx
    by_cases hl : x ∈ ms.flatMap rawKids
    · obtain ⟨r, hr, hxr⟩ := List.mem_flatMap.1 hl
      exact Or.inr ⟨r.id, (mem_copyChildren hb).2 ⟨r, hr, rfl, hxr, hreg⟩⟩
    · exact Or.inl ((mem_rootChildren hb).2 ⟨hreg, hl⟩)

/-- C21, witness: in `exSingle` the record `2` is listed by `1` only. -/
theorem render_strict_witness :
    SingleLister exSingle ∧
      (FamilyTree.buildTree (some exSingle)).map
        (fun t => (t.children, copyChildren t (.str "1"))) =
        some ([.str "1", .str "3"], [.str "2"]) ∧
      ∃ t, FamilyTree.buildTree (some exSingle) = some t ∧
        (∀ p q x, x ∈ copyChildren t p → x ∈ copyChildren t q → p = q) ∧
        (∀ x ∈ t.children, ∀ p, x ∉ copyChildren t p) ∧
        ∀ x ∈ keysRaw t.memberMap, x ∈ t.children ∨ ∃ p, x ∈ copyChildren t p :=
  ⟨by decide, by decide,
    (FamilyTree.buildTree (some exSingle)).get (by decide), by simp,
    render_strict exSingle _ (by simp) (by decide)⟩

/-- C26: empty input.  Both `buildTree` of `scripts/inspectTree.js` and `buildTree` of
`components/FamilyTree.jsx` return `null` exactly when the input is absent or an empty
sequence: on every non-empty sequence of records each returns a result (the second pass
of the component never raises, so its `catch` is not taken). -/
theorem empty_input (members : Option (List Member)) :
    (buildTree members = none ↔ members = none ∨ members = some []) ∧
      (FamilyTree.buildTree members = none ↔ members = none ∨ members = some []) := by
  cases members with
  | none => simp [buildTree, FamilyTree.buildTree]
  | some ms =>
    cases ms with
    | nil => simp [buildTree, FamilyTree.buildTree]
    | cons m ms =>
      constructor
      · simp [buildTree]
      · rw [render_eq (by simp)]
        simp

/-- The lookup of the rendering component when the record ids are pairwise distinct
as raw values: one copy per record, in input order, with the listed ids that are ids
of records as children. -/
theorem linked_of_nodup (ms : List Member) (hnd : (ms.map Member.id).Nodup) :
    linked (copyMembers ms) ms = ms.map (fun r => (r.id,
      { mkCopy r with
        children := (rawKids r).filter (fun c => decide (c ∈ ms.map Member.id)) })) := by
  have hkeys : keysRaw (copyMembers ms) = ms.map Member.id := by
    rw [copyMembers_of_nodup ms hnd]
    unfold keysRaw
    rw [List.map_map]
    rfl
  have hatt : ∀ r ∈ ms, attached (copyMembers ms) ms r.id =
      (rawKids r).filter (fun c => decide (c ∈ ms.map Member.id)) := by
    intro r hr
    unfold attached
    rw [hkeys, filter_id_eq hnd hr]
    simp
  unfold linked
  conv_lhs => arg 2; rw [copyMembers_of_nodup ms hnd]
  rw [List.map_map]
  apply List.map_congr_left
  intro r hr
  simp only [Function.comp, hatt r hr, mkCopy, List.nil_append]

/-- C27: the rendering-side `buildTree`.  For every non-empty input with pairwise
distinct record ids (as raw values) it returns the virtual root `Kodero Family Legacy`,
generation `0`, node type `root`, whose children are the copies of the records whose
id is in no record's child list, in input order; the lookup holds exactly one copy per
record, in input order, and the children of the copy of `r` are the ids listed by `r`
that are ids of records, in listed order.  Ids are compared as raw values, and no
other object is created. -/
theorem render_tree (ms : List Member) (hne : ms ≠ []) (hnd : (ms.map Member.id).Nodup) :
    ∃ t, FamilyTree.buildTree (some ms) = some t ∧
      t.name = "Kodero Family Legacy" ∧ t.generation = 0 ∧ t.nodeType = "root" ∧
      t.children = (ms.filter (fun r => decide (r.id ∉ ms.flatMap rawKids))).map Member.id ∧
      t.memberMap = ms.map (fun r => (r.id,
        { mkCopy r with
          children := (rawKids r).filter (fun c => decide (c ∈ ms.map Member.id)) })) :=
  ⟨_, render_eq hne, rfl, rfl, rfl, rfl, linked_of_nodup ms hnd⟩

/-- C27, witness: on `exMixed` (ids `1` and `2` as numbers, child id `"2"` as a string)
the listed id matches no record: both records are children of the virtual root and
the copy of `1` has no children. -/
theorem render_tree_witness :
    ∃ t, FamilyTree.buildTree (some exMixed) = some t ∧
      t.name = "Kodero Family Legacy" ∧ t.generation = 0 ∧ t.nodeType = "root" ∧
      t.children =
        (exMixed.filter (fun r => decide (r.id ∉ exMixed.flatMap rawKids))).map Member.id ∧
      t.memberMap = exMixed.map (fun r => (r.id,
        { mkCopy r with
          children := (rawKids r).filter (fun c => decide (c ∈ exMixed.map Member.id)) })) :=
  render_tree exMixed (by decide) (by decide)

/-- C29: the old and the new rendering implementation are the same function.  For
every input, `buildTree` of `components/FamilyTree.old.jsx` and `buildTree` of
`components/FamilyTree.jsx` return the same value: `null` on the same inputs, and
otherwise the same virtual root over the same copies with the same children. -/
theorem old_new_same (members : Option (List Member)) :
    FamilyTreeOld.buildTree members = FamilyTree.buildTree members := by
  cases members with
  | none => rfl
  | some ms =>
    cases ms with
    | nil => rfl
    | cons m ms =>
      unfold FamilyTreeOld.buildTree FamilyTree.buildTree
      simp only [old_linkChildren_eq, old_allChildIds_eq]

/-! ### The script and the rendering component on single-parent data -/

theorem toStr_inj_of_isStr {v w : JsVal} (hv : v.isStr = true) (hw : w.isStr = true)
    (h : v.toStr = w.toStr) : v = w := by
  cases v <;> cases w <;> simp [JsVal.isStr] at hv hw
  simpa [JsVal.toStr] using h

theorem map_filter_of {α β : Type} (g : α → β) (p : α → Bool) (q : β → Bool) (l : List α)
    (h : ∀ x ∈ l, p x = q (g x)) : (l.filter p).map g = (l.map g).filter q := by
  induction l with
  | nil => rfl
  | cons x l ih =>
    have hx := h x (List.mem_cons_self _ _)
    have ih' := ih (fun y hy => h y (List.mem_cons_of_mem _ hy))
    rw [List.filter_cons, List.map_cons, List.filter_cons, ← hx]
    cases p x <;> simp [ih']

theorem childStrs_eq (r : Member) : childStrs r = (rawKids r).map JsVal.toStr := rfl

theorem flatMap_childStrs (ms : List Member) :
    ms.flatMap childStrs = (ms.flatMap rawKids).map JsVal.toStr := by
  induction ms with
  | nil => rfl
  | cons r ms ih =>
    rw [List.flatMap_cons, List.flatMap_cons, List.map_append, ih, childStrs_eq]

/-- On string ids, an id is listed as written exactly when it is listed after
coercion. -/
theorem mem_map_toStr_iff {l : List JsVal} (hl : ∀ c ∈ l, c.isStr = true) {v : JsVal}
    (hv : v.isStr = true) : v.toStr ∈ l.map JsVal.toStr ↔ v ∈ l := by
  constructor
  · intro h
    obtain ⟨c, hc, heq⟩ := List.mem_map.1 h
    rw [← toStr_inj_of_isStr (hl c hc) hv heq]
    exact hc
  · intro h
    exact List.mem_map.2 ⟨v, h, rfl⟩

/-- C28: the script and the rendering component agree on single-parent data.  For
every input whose record ids and child ids are strings, with pairwise distinct record
ids and no child id listed twice (by two records or twice by one), the roots returned
by `buildTree` of `scripts/inspectTree.js` are, in order, the children of the virtual
root returned by `buildTree` of `components/FamilyTree.jsx`, and every record has the
same children in the same order in both results. -/
theorem script_render_agree (ms : List Member) (f : Forest) (t : VirtualRoot)
    (hf : buildTree (some ms) = some f) (ht : FamilyTree.buildTree (some ms) = some t)
    (hstr : StringIds ms) (hnd : (ms.map Member.id).Nodup)
    (hone : (ms.flatMap rawKids).Nodup) :
    f.rootNodes = t.children.map JsVal.toStr ∧
      ∀ r ∈ ms, childrenOf f r.id.toStr = (copyChildren t r.id).map JsVal.toStr := by
  obtain ⟨hne, rfl⟩ := buildTree_some hf
  have ht' := ht
  rw [render_eq hne] at ht'
  simp only [Option.some.injEq] at ht'
  have hroots : t.children =
      (ms.filter (fun r => decide (r.id ∉ ms.flatMap rawKids))).map Member.id := by
    rw [← ht']
  have hmapR : t.memberMap = ms.map (fun r => (r.id,
      { mkCopy r with
        children := (rawKids r).filter (fun c => decide (c ∈ ms.map Member.id)) })) := by
    rw [← ht']
    exact linked_of_nodup ms hnd
  have hidstr : ∀ v ∈ ms.map Member.id, v.isStr = true := by
    intro v hv
    obtain ⟨r, hr, rfl⟩ := List.mem_map.1 hv
    exact (hstr r hr).1
  have hkidstr : ∀ c ∈ ms.flatMap rawKids, c.isStr = true := by
    intro c hc
    obtain ⟨r, hr, hcr⟩ := List.mem_flatMap.1 hc
    exact (hstr r hr).2 c hcr
  have hnd' : (ms.map (fun r => r.id.toStr)).Nodup := by
    have : ms.map (fun r => r.id.toStr) = (ms.map Member.id).map JsVal.toStr := by
      rw [List.map_map]; rfl
    rw [this]
    exact List.Nodup.map_on
      (fun v hv w hw h => toStr_inj_of_isStr (hidstr v hv) (hidstr w hw) h) hnd
  have hidsmap : ms.map (fun r => r.id.toStr) = (ms.map Member.id).map JsVal.toStr := by
    rw [List.map_map]; rfl
  have hflat := flatMap_kids_step1 ms hnd'
  have hsyn : synthesize ms = step1 ms := by
    apply synthesize_of_nodup_kids
    rw [hflat, flatMap_childStrs]
    exact List.Nodup.map_on
      (fun v hv w hw h => toStr_inj_of_isStr (hkidstr v hv) (hkidstr w hw) h) hone
  have hkeys : mapKeys (step1 ms) = ms.map (fun r => r.id.toStr) := by
    rw [step1_of_nodup _ hnd']
    simp [mapKeys, Function.comp_def]
  have hmap : (assemble ms).memberMap =
      ms.map (fun r => (r.id.toStr, resolved (step1 ms) (mkNode r))) := by
    rw [assemble_memberMap, hsyn]
    have := congrArg (List.map (fun e : String × Node => (e.1, resolved (step1 ms) e.2)))
      (step1_of_nodup _ hnd')
    rw [this, List.map_map]
    rfl
  -- children of a record, on both sides
  have hkids : ∀ r ∈ ms, childrenOf (assemble ms) r.id.toStr =
      (copyChildren t r.id).map JsVal.toStr := by
    intro r hr
    have hg : mapGet (synthesize ms) r.id.toStr = some (mkNode r) := by
      rw [hsyn]
      have hmem : (r.id.toStr, mkNode r) ∈ step1 ms := by
        rw [step1_of_nodup _ hnd']
        exact List.mem_map.2 ⟨r, hr, rfl⟩
      exact mapGet_of_mem (step1_nodup ms) hmem
    rw [childrenOf_assemble hg, hsyn, resolveIds_eq_filter (step1_keyIsId ms), hkeys]
    have hgr : getRaw t.memberMap r.id = some
        { mkCopy r with
          children := (rawKids r).filter (fun c => decide (c ∈ ms.map Member.id)) } := by
      have hndk : (keysRaw t.memberMap).Nodup := by
        rw [hmapR]
        unfold keysRaw
        rw [List.map_map]
        exact hnd
      have hmem : (r.id, ({ mkCopy r with
          children := (rawKids r).filter (fun c => decide (c ∈ ms.map Member.id)) } : Copy)) ∈
          t.memberMap := by
        rw [hmapR]
        exact List.mem_map.2 ⟨r, hr, rfl⟩
      exact getRaw_of_mem hndk hmem
    unfold copyChildren
    rw [hgr]
    simp only [Option.map_some', Option.getD_some]
    show ((rawKids r).map JsVal.toStr).filter _ = _
    rw [map_filter_of JsVal.toStr (fun c => decide (c ∈ ms.map Member.id))
      (fun x => decide (x ∈ ms.map (fun r => r.id.toStr)))]
    intro c hc
    have hcs := (hstr r hr).2 c hc
    rw [hidsmap]
    exact decide_eq_decide.2 (mem_map_toStr_iff hidstr hcs).symm
  refine ⟨?_, hkids⟩
  -- roots
  have hused : ∀ r ∈ ms, (r.id.toStr ∈ usedAsChild (assemble ms).memberMap ↔
      r.id ∈ ms.flatMap rawKids) := by
    intro r hr
    have hrs := (hstr r hr).1
    rw [mem_usedAsChild, hmap]
    constructor
    · rintro ⟨e, he, hx⟩
      obtain ⟨r2, hr2, rfl⟩ := List.mem_map.1 he
      have hx' := ((mem_resolveIds (step1_keyIsId _)).1 hx).1
      have : r.id ∈ rawKids r2 :=
        (mem_map_toStr_iff (fun c hc => (hstr r2 hr2).2 c hc) hrs).1 hx'
      exact List.mem_flatMap.2 ⟨r2, hr2, this⟩
    · intro h
      obtain ⟨r2, hr2, hx⟩ := List.mem_flatMap.1 h
      refine ⟨_, List.mem_map.2 ⟨r2, hr2, rfl⟩, ?_⟩
      apply (mem_resolveIds (step1_keyIsId _)).2
      refine ⟨List.mem_map.2 ⟨r.id, hx, rfl⟩, ?_⟩
      rw [hkeys]
      exact List.mem_map.2 ⟨r, hr, rfl⟩
  show findRoots (assemble ms).memberMap = _
  rw [hroots]
  unfold findRoots
  obtain ⟨p, hp⟩ : ∃ p : String × Node → Bool,
      p = fun entry => decide (entry.2.id ∉ usedAsChild (assemble ms).memberMap) := ⟨_, rfl⟩
  rw [← hp, hmap, List.filter_map, List.map_map, List.map_map]
  have hfil : ms.filter (p ∘ fun r => (r.id.toStr, resolved (step1 ms) (mkNode r))) =
      ms.filter (fun r => decide (r.id ∉ ms.flatMap rawKids)) := by
    apply List.filter_congr
    intro r hr
    rw [hp]
    simp only [Function.comp]
    have := hused r hr
    show decide (r.id.toStr ∉ usedAsChild (assemble ms).memberMap) = _
    exact decide_eq_decide.2 (not_congr this)
  rw [hfil]
  rfl

/-- C28, witness: on `exSingle` both implementations give the roots `1`, `3` and the
child `2` under `1`. -/
theorem script_render_agree_witness :
    (assemble exSingle).rootNodes = ["1", "3"] ∧
      ∃ t, FamilyTree.buildTree (some exSingle) = some t ∧
        (assemble exSingle).rootNodes = t.children.map JsVal.toStr ∧
        ∀ r ∈ exSingle,
          childrenOf (assemble exSingle) r.id.toStr = (copyChildren t r.id).map JsVal.toStr :=
  ⟨by decide, (FamilyTree.buildTree (some exSingle)).get (by decide), by simp,
    script_render_agree exSingle (assemble exSingle) _ rfl (by simp) (by decide) (by decide)
      (by decide)⟩

/-! ## Step 3 when family-unit ids clash with each other only -/

theorem unitMap_append (m0 : List (String × Node)) (done : List (String × List String))
    (e : String × List String) :
    unitMap m0 (done ++ [e]) = placeUnit m0 (unitMap m0 done) e := by
  simp [unitMap, List.foldl_append]

theorem placeUnit_none {m0 : List (String × Node)} {e : String × List String}
    (h : plannedUnit m0 e = none) (units : List (String × Node)) :
    placeUnit m0 units e = units := by
  unfold placeUnit
  rw [h]

theorem placeUnit_some {m0 : List (String × Node)} {e : String × List String}
    {u : String × Node} (h : plannedUnit m0 e = some u) (units : List (String × Node)) :
    placeUnit m0 units e = mapSet units u.1 u.2 := by
  unfold placeUnit
  rw [h]

theorem mem_mapKeys_unitMap (m0 : List (String × Node)) (done : List (String × List String))
    (g : String) : g ∈ mapKeys (unitMap m0 done) ↔ g ∈ mapKeys (unitPart m0 done) := by
  induction done using List.reverseRecOn with
  | nil => simp [unitMap, unitPart, mapKeys]
  | append_singleton done e ih =>
    rw [unitMap_append, unitPart_append, mapKeys_append, List.mem_append]
    cases hp : plannedUnit m0 e with
    | none =>
      rw [placeUnit_none hp, ih]
      simp [mapKeys]
    | some u =>
      rw [placeUnit_some hp, mem_mapKeys_mapSet, ih]
      simp only [Option.toList_some, mapKeys, List.map_cons, List.map_nil, List.mem_singleton]
      tauto

theorem nodup_unitMap (m0 : List (String × Node)) (done : List (String × List String)) :
    (mapKeys (unitMap m0 done)).Nodup := by
  induction done using List.reverseRecOn with
  | nil => simp [unitMap, mapKeys]
  | append_singleton done e ih =>
    rw [unitMap_append]
    cases hp : plannedUnit m0 e with
    | none => rw [placeUnit_none hp]; exact ih
    | some u => rw [placeUnit_some hp]; exact nodup_mapKeys_mapSet _ _ _ ih

/-- An entry of the lookup of family units is a planned unit. -/
theorem mem_unitMap {m0 : List (String × Node)} {done : List (String × List String)}
    {u : String × Node} (h : u ∈ unitMap m0 done) :
    ∃ e ∈ done, ∃ a b, decision m0 e = some (a, b) ∧
      u = (familyId a b e.1, familyUnit a b e.1) := by
  induction done using List.reverseRecOn with
  | nil => simp [unitMap] at h
  | append_singleton done e ih =>
    rw [unitMap_append] at h
    cases hp : plannedUnit m0 e with
    | none =>
      rw [placeUnit_none hp] at h
      obtain ⟨e', he', a, b, hd, hu⟩ := ih h
      exact ⟨e', List.mem_append_left _ he', a, b, hd, hu⟩
    | some v =>
      rw [placeUnit_some hp] at h
      rcases mem_mapSet h with h1 | h1
      · have hv : v ∈ unitPart m0 [e] := by
          unfold unitPart
          simp [List.filterMap_cons, hp]
        obtain ⟨e', he', a, b, hd, hu⟩ := mem_unitPart.1 hv
        have : e' = e := by simpa using he'
        subst this
        refine ⟨e', by simp, a, b, hd, ?_⟩
        rw [h1]
        exact hu
      · obtain ⟨e', he', a, b, hd, hu⟩ := ih h1
        exact ⟨e', List.mem_append_left _ he', a, b, hd, hu⟩

theorem mapSet_append_right {α : Type} (m₁ m₂ : List (String × α)) (k : String) (v : α)
    (h : k ∉ mapKeys m₁) : mapSet (m₁ ++ m₂) k v = m₁ ++ mapSet m₂ k v := by
  induction m₁ with
  | nil => rfl
  | cons e m ih =>
    obtain ⟨k0, x⟩ := e
    rw [mapKeys_cons, List.mem_cons, not_or] at h
    have h2 : ¬ k0 = k := fun h2 => h.1 h2.symm
    simp [mapSet, h2, ih h.2]

theorem tidy_unitKey_not_mem {m0 : List (String × Node)} {idx : List (String × List String)}
    (h : Tidy m0 idx) {done post : List (String × List String)} (hidx : idx = done ++ post)
    {g : String} (hg : g ∈ mapKeys (unitPart m0 done)) :
    g ∉ mapKeys m0 ∧ g ∉ mapKeys idx :=
  h.fresh g (hidx ▸ mapKeys_unitPart_initial m0 done post hg)

theorem tidy_nodup_current {m0 : List (String × Node)} {idx : List (String × List String)}
    (h : Tidy m0 idx) {done post : List (String × List String)} (hidx : idx = done ++ post) :
    (mapKeys (recordPart m0 done ++ unitMap m0 done)).Nodup := by
  rw [mapKeys_append, mapKeys_recordPart]
  refine List.Nodup.append h.nodup0 (nodup_unitMap m0 done) ?_
  intro g hg hg'
  exact (tidy_unitKey_not_mem h hidx ((mem_mapKeys_unitMap m0 done g).1 hg')).1 hg

/-- The lookup after an iteration of step 3, from a description of the edit `T` it
applies to each object, over any lookup `U` of family units. -/
theorem current_ext_units {m0 : List (String × Node)} (done : List (String × List String))
    (e : String × List String) (U : List (String × Node))
    (hnd : (mapKeys (recordPart m0 done ++ U)).Nodup)
    {M : List (String × Node)} (T : String → Node → Node)
    (hkeys : mapKeys M = mapKeys (recordPart m0 done ++ U))
    (hget : ∀ q, mapGet M q = (mapGet (recordPart m0 done ++ U) q).map (T q))
    (hT : ∀ q n0, mapGet m0 q = some n0 →
      T q (updated m0 done q n0) = updated m0 (done ++ [e]) q n0)
    (hT' : ∀ q n, q ∉ mapKeys m0 → T q n = n) :
    M = recordPart m0 (done ++ [e]) ++ U := by
  apply map_ext
  · rw [hkeys, mapKeys_append, mapKeys_append, mapKeys_recordPart, mapKeys_recordPart]
  · rw [hkeys]; exact hnd
  · intro q
    rw [hget]
    by_cases hq : q ∈ mapKeys m0
    · rw [mapGet_current done _ hq, mapGet_current (done ++ [e]) _ hq]
      cases hg : mapGet m0 q with
      | none => rfl
      | some n0 => simp [hT q n0 hg]
    · rw [mapGet_append, mapKeys_recordPart, if_neg hq, mapGet_append, mapKeys_recordPart,
        if_neg hq]
      cases mapGet U q with
      | none => rfl
      | some n => simp [hT' q n hq]

/-- One iteration of step 3, in the description. -/
theorem synthChild_tidy {m0 : List (String × Node)} {idx : List (String × List String)}
    (h : Tidy m0 idx) {done post : List (String × List String)} {e : String × List String}
    (hidx : idx = done ++ e :: post) :
    synthChild (recordPart m0 done ++ unitMap m0 done) e =
      recordPart m0 (done ++ [e]) ++ unitMap m0 (done ++ [e]) := by
  have hidx' : idx = done ++ (e :: post) := hidx
  have he : e ∈ idx := by rw [hidx]; simp
  have hps : ∀ p ∈ e.2, p ∈ mapKeys m0 := h.parents e he
  have hc : e.1 ∈ mapKeys idx := List.mem_map.2 ⟨e, he, rfl⟩
  have hnd := tidy_nodup_current h hidx'
  have hfresh : ∀ q, ∀ g ∈ pushedTo m0 done q, g ≠ e.1 := by
    intro q g hg hge
    exact (tidy_unitKey_not_mem h hidx' (pushedTo_subset_units hg)).2 (hge ▸ hc)
  by_cases hl : 1 < e.2.length
  · have hfp := findPair_current h.keyIsId0 done (unitMap m0 done) hps e.2 (fun _ hp => hp)
    cases hp : findPair m0 e.2 e.2 with
    | none =>
      rw [hp] at hfp
      have hdec : decision m0 e = none := by rw [decision_of_long hl, hp]
      have hpu : plannedUnit m0 e = none := by unfold plannedUnit; rw [hdec]; rfl
      rw [synthChild_noPair hl hfp, unitMap_append, placeUnit_none hpu]
      apply current_ext_units done e _ hnd
        (fun q n => if q ∈ e.2.tail then dropChild e.1 n else n)
      · exact mapKeys_dropFromOthers _ _ _
      · intro q; exact mapGet_dropFromOthers _ _ _ _
      · intro q n0 _
        have hpush : pushOf m0 e q = none := by unfold pushOf; rw [hdec]
        by_cases hq : q ∈ e.2.tail
        · rw [if_pos hq]
          apply updated_drop n0 _ (hfresh q) hpush
          unfold removes; rw [hdec]; simp [hl, hq]
        · rw [if_neg hq]
          apply updated_keep n0 _ hpush
          unfold removes; rw [hdec]; simp [hq]
      · intro q n hq
        have : q ∉ e.2.tail := fun hq' => hq (hps q (List.mem_of_mem_tail hq'))
        rw [if_neg this]
    | some ab =>
      obtain ⟨a, b⟩ := ab
      rw [hp] at hfp
      have hdec : decision m0 e = some (a, b) := by rw [decision_of_long hl, hp]
      obtain ⟨ha, hb, hga, hgb, _⟩ := findPair_ids h.keyIsId0 hp
      have hpu : plannedUnit m0 e = some (familyId a b e.1, familyUnit a b e.1) := by
        unfold plannedUnit; rw [hdec]; rfl
      have hgu : familyId a b e.1 ∈ mapKeys (unitPart m0 idx) :=
        mem_mapKeys_unitPart.2 ⟨e, he, a, b, hdec, rfl⟩
      rw [synthChild_pair hl hfp, unitMap_append, placeUnit_some hpu]
      simp only [updated_id, familyId_updated, familyUnit_updated]
      have hX : mapModify (mapModify (mapModify (recordPart m0 done ++ unitMap m0 done) a.id
          (dropChild e.1)) b.id (dropChild e.1)) a.id (pushChild (familyId a b e.1)) =
          recordPart m0 (done ++ [e]) ++ unitMap m0 done := by
        apply current_ext_units done e _ hnd (fun q n => if a.id = q then
          pushChild (familyId a b e.1) (dropChild e.1 n) else if b.id = q then dropChild e.1 n
          else n)
        · simp only [mapKeys_mapModify]
        · intro q; exact mapGet_pairEdits _ _ _ _ _ (dropChild_idem e.1) q
        · intro q n0 _
          by_cases h1 : a.id = q
          · rw [if_pos h1]
            apply updated_drop_push n0 _ (hfresh q)
            · unfold pushOf; rw [hdec]; simp [h1]
            · unfold removes; rw [hdec]; simp [h1]
          · rw [if_neg h1]
            have hpush : pushOf m0 e q = none := by unfold pushOf; rw [hdec]; simp [h1]
            by_cases h2 : b.id = q
            · rw [if_pos h2]
              apply updated_drop n0 _ (hfresh q) hpush
              unfold removes; rw [hdec]; simp [h2]
            · rw [if_neg h2]
              apply updated_keep n0 _ hpush
              unfold removes; rw [hdec]
              have h1' : ¬ q = a.id := fun h => h1 h.symm
              have h2' : ¬ q = b.id := fun h => h2 h.symm
              simp [h1', h2']
        · intro q n hq
          have h1 : ¬ a.id = q := fun h1 => hq (h1 ▸ hps _ ha)
          have h2 : ¬ b.id = q := fun h2 => hq (h2 ▸ hps _ hb)
          rw [if_neg h1, if_neg h2]
      rw [hX, mapSet_append_right]
      rw [mapKeys_recordPart]
      exact (h.fresh _ hgu).1
  · have hdec : decision m0 e = none := decision_of_short hl
    have hpu : plannedUnit m0 e = none := by unfold plannedUnit; rw [hdec]; rfl
    rw [synthChild_single hl, unitMap_append, placeUnit_none hpu]
    apply current_ext_units done e _ hnd (fun _ n => n)
    · rfl
    · intro q; cases mapGet (recordPart m0 done ++ unitMap m0 done) q <;> rfl
    · intro q n0 _
      apply updated_keep n0
      · unfold removes; rw [hdec]; simp [hl]
      · unfold pushOf; rw [hdec]
    · intro _ _ _; rfl

/-- The lookup after the entries `done` of the index, when no record id and no child
id is a family-unit id. -/
theorem step3_tidy {m0 : List (String × Node)} {idx : List (String × List String)}
    (h : Tidy m0 idx) :
    ∀ done post : List (String × List String), idx = done ++ post →
      step3 m0 done = recordPart m0 done ++ unitMap m0 done := by
  intro done
  induction done using List.reverseRecOn with
  | nil =>
    intro post _
    rw [recordPart_nil h.some0]
    simp [step3, unitMap]
  | append_singleton done e ih =>
    intro post hidx
    have hidx' : idx = done ++ e :: post := by rw [hidx]; simp
    rw [step3_append, ih (e :: post) hidx', synthChild_tidy h hidx']

theorem tidy_of_fresh {ms : List Member} (h : Fresh ms) :
    Tidy (step1 ms) (step2 (step1 ms)) where
  nodup0 := step1_nodup ms
  keyIsId0 := step1_keyIsId ms
  some0 := by
    intro e he
    obtain ⟨member, _, rfl⟩ := step1_mem ms e he
    exact ⟨_, rfl⟩
  idxNodup := step2_nodup _
  parents := by
    intro e he p hp
    rw [(step2_mem he).1] at hp
    exact claimList_subset_keys (step1_keyIsId ms) hp
  fresh := h

theorem fresh_of_noClash {ms : List Member} (h : NoClash ms) : Fresh ms := h.2

/-- When no record id and no child id is a family-unit id, the lookup after synthesis
is the record copies with their working lists rewritten, followed by the family units,
the last one allocated under each id. -/
theorem synthesize_fresh {ms : List Member} (h : Fresh ms) :
    synthesize ms =
      recordPart (step1 ms) (step2 (step1 ms)) ++ unitMap (step1 ms) (step2 (step1 ms)) :=
  step3_tidy (tidy_of_fresh h) _ [] (by simp)

theorem mapGet_synthesize_fresh {ms : List Member} (h : Fresh ms) {q : String} {n : Node}
    (hq : mapGet (step1 ms) q = some n) :
    mapGet (synthesize ms) q = some (updated (step1 ms) (step2 (step1 ms)) q n) := by
  rw [synthesize_fresh h, mapGet_current _ _ ((mapGet_isSome_iff _ _).1 ⟨n, hq⟩), hq]
  rfl

/-- The children of a record in the forest. -/
theorem mem_childrenOf_fresh {ms : List Member} (h : Fresh ms) {q : String} {n : Node}
    (hq : mapGet (step1 ms) q = some n) {x : String} :
    x ∈ childrenOf (assemble ms) q ↔
      x ∈ workList (step1 ms) (step2 (step1 ms)) q (n._childIds.getD []) ∧
        x ∈ mapKeys (synthesize ms) := by
  rw [childrenOf_assemble (mapGet_synthesize_fresh h hq), mem_resolveIds (synthesize_keyIsId ms)]
  rfl

/-- An object of the lookup after synthesis is a record copy under a registry key, or
a planned family unit under its id. -/
theorem mem_synthesize_fresh {ms : List Member} (h : Fresh ms) {u : String × Node}
    (hu : u ∈ synthesize ms) :
    (∃ n, mapGet (step1 ms) u.1 = some n ∧
        u.2 = updated (step1 ms) (step2 (step1 ms)) u.1 n) ∨
      ∃ e ∈ step2 (step1 ms), ∃ a b, decision (step1 ms) e = some (a, b) ∧
        u = (familyId a b e.1, familyUnit a b e.1) := by
  rw [synthesize_fresh h, List.mem_append] at hu
  rcases hu with hu | hu
  · left
    unfold recordPart at hu
    obtain ⟨e0, he0, rfl⟩ := List.mem_map.1 hu
    exact ⟨e0.2, mapGet_of_mem (step1_nodup ms) he0, rfl⟩
  · exact Or.inr (mem_unitMap hu)

/-- The family unit registered under a planned id is in the children of its
attachment parent. -/
theorem unit_under_parent {ms : List Member} (h : Fresh ms) {e : String × List String}
    (he : e ∈ step2 (step1 ms)) {a b : Node} (hd : decision (step1 ms) e = some (a, b)) :
    familyId a b e.1 ∈ childrenOf (assemble ms) a.id := by
  have hl : 1 < e.2.length := by
    by_contra hl
    rw [decision_of_short hl] at hd
    simp at hd
  rw [decision_of_long hl] at hd
  obtain ⟨_, _, hga, _, _⟩ := findPair_ids (step1_keyIsId ms) hd
  have hd' : decision (step1 ms) e = some (a, b) := by rw [decision_of_long hl]; exact hd
  rw [mem_childrenOf_fresh h hga]
  constructor
  · apply mem_workList.2
    right
    unfold pushedTo
    apply List.mem_filterMap.2
    refine ⟨e, he, ?_⟩
    unfold pushOf
    rw [hd']
    simp
  · rw [synthesize_fresh h, mapKeys_append, List.mem_append]
    right
    rw [mem_mapKeys_unitMap]
    exact mem_mapKeys_unitPart.2 ⟨e, he, a, b, hd', rfl⟩

/-! ### Family units and roots -/

theorem nodeType_resolved (m : List (String × Node)) (n : Node) :
    (resolved m n).nodeType = n.nodeType := rfl

theorem spouses_resolved (m : List (String × Node)) (n : Node) :
    (resolved m n).spouses = n.spouses := rfl

/-- An entry of the returned lookup comes from an entry of the lookup after
synthesis. -/
theorem mem_assemble {ms : List Member} {e : String × Node} (he : e ∈ (assemble ms).memberMap) :
    ∃ n, (e.1, n) ∈ synthesize ms ∧ e.2 = resolved (synthesize ms) n := by
  rw [assemble_memberMap] at he
  obtain ⟨u, hu, rfl⟩ := List.mem_map.1 he
  exact ⟨u.2, hu, rfl⟩

/-- A family unit of the returned lookup is a planned unit, stored under its id. -/
theorem unit_of_assemble {ms : List Member} (h : Fresh ms) {e : String × Node}
    (he : e ∈ (assemble ms).memberMap) (hfu : e.2.nodeType = some "family-unit") :
    ∃ e0 ∈ step2 (step1 ms), ∃ a b, decision (step1 ms) e0 = some (a, b) ∧
      e.1 = familyId a b e0.1 ∧ (e.1, familyUnit a b e0.1) ∈ synthesize ms ∧
      e.2 = resolved (synthesize ms) (familyUnit a b e0.1) := by
  obtain ⟨n, hn, hres⟩ := mem_assemble he
  rcases mem_synthesize_fresh h hn with ⟨n0, hg, hup⟩ | ⟨e0, he0, a, b, hd, hu⟩
  · exfalso
    simp only at hup
    rw [hres, nodeType_resolved, hup] at hfu
    have : n0.nodeType = none := step1_nodeType hg
    simp [updated, this] at hfu
  · simp only [Prod.mk.injEq] at hu
    refine ⟨e0, he0, a, b, hd, hu.1, ?_, ?_⟩
    · rw [← hu.2]; exact hn
    · rw [hres, hu.2]

/-- C25: a family unit is never a root.  For every input in which no record id and no
child id equals a generated family-unit id, the generated ids are the ids of the family
units of the returned lookup, every family unit of the lookup is in the resolved
children of its attachment parent (the first of its `spouses`), and no element of
`rootNodes` is a family unit. -/
theorem family_unit_not_root (ms : List Member) (f : Forest)
    (hb : buildTree (some ms) = some f) (hfresh : Fresh ms) :
    (∀ g, g ∈ unitIds f ↔ g ∈ familyIds ms) ∧
      (∀ e ∈ f.memberMap, e.2.nodeType = some "family-unit" →
        ∃ a b, e.2.spouses = some (a, b) ∧ e.1 ∈ childrenOf f a) ∧
      ∀ x ∈ f.rootNodes, (mapGet f.memberMap x).bind Node.nodeType ≠ some "family-unit" := by
  obtain ⟨_, rfl⟩ := buildTree_some hb
  have hunit : ∀ e ∈ (assemble ms).memberMap, e.2.nodeType = some "family-unit" →
      ∃ a b, e.2.spouses = some (a, b) ∧ e.1 ∈ childrenOf (assemble ms) a := by
    intro e he hfu
    obtain ⟨e0, he0, a, b, hd, hk, _, hres⟩ := unit_of_assemble hfresh he hfu
    refine ⟨a.id, b.id, ?_, ?_⟩
    · rw [hres]; rfl
    · rw [hk]; exact unit_under_parent hfresh he0 hd
  refine ⟨?_, hunit, ?_⟩
  · intro g
    rw [mem_unitIds]
    constructor
    · rintro ⟨n, hn, hfu⟩
      obtain ⟨e0, he0, a, b, hd, hk, _, _⟩ := unit_of_assemble hfresh hn hfu
      simp only at hk
      exact mem_mapKeys_unitPart.2 ⟨e0, he0, a, b, hd, hk⟩
    · intro hg
      have hg' : g ∈ mapKeys (unitMap (step1 ms) (step2 (step1 ms))) :=
        (mem_mapKeys_unitMap _ _ g).2 hg
      obtain ⟨u, hu, rfl⟩ := List.mem_map.1 hg'
      obtain ⟨e0, _, a, b, _, hshape⟩ := mem_unitMap hu
      have hmem : u ∈ synthesize ms := by
        rw [synthesize_fresh hfresh]
        exact List.mem_append_right _ hu
      refine ⟨resolved (synthesize ms) u.2, ?_, ?_⟩
      · rw [assemble_memberMap]
        exact List.mem_map.2 ⟨u, hmem, rfl⟩
      · rw [nodeType_resolved, hshape]
        rfl
  · intro x hx hfu
    cases hg : mapGet (assemble ms).memberMap x with
    | none => rw [hg] at hfu; simp at hfu
    | some n =>
      rw [hg] at hfu
      simp only [Option.some_bind] at hfu
      obtain ⟨a, _, _, hc⟩ := hunit (x, n) (mem_of_mapGet hg) hfu
      exact not_root_of_child hc hx

/-- C25, witness: in `exHyphen` the two couples generate the same family-unit id, which
is the id of no record and of no child; the lookup holds one family unit, of `p` and
`q`, which is a child of `p` (and of `p-q`), and the roots are records. -/
theorem family_unit_not_root_witness :
    Fresh exHyphen ∧ ¬ NoClash exHyphen ∧
      (assemble exHyphen).rootNodes = ["p-q", "p", "q", "s"] ∧
      (∀ g, g ∈ unitIds (assemble exHyphen) ↔ g ∈ familyIds exHyphen) ∧
      (∀ e ∈ (assemble exHyphen).memberMap, e.2.nodeType = some "family-unit" →
        ∃ a b, e.2.spouses = some (a, b) ∧ e.1 ∈ childrenOf (assemble exHyphen) a) ∧
      ∀ x ∈ (assemble exHyphen).rootNodes,
        (mapGet (assemble exHyphen).memberMap x).bind Node.nodeType ≠ some "family-unit" :=
  ⟨by decide, by decide, by decide,
    family_unit_not_root exHyphen (assemble exHyphen) rfl (by decide)⟩

/-! ### Coverage of the lookup by the roots -/

theorem keyIsId_assemble (ms : List Member) : KeyIsId (assemble ms).memberMap := by
  intro e he
  obtain ⟨n, hn, hres⟩ := mem_assemble he
  rw [hres]
  exact synthesize_keyIsId ms (e.1, n) hn

/-- A node of the returned lookup that is not a root is a child of some node. -/
theorem child_of_not_root {ms : List Member} {k : String}
    (hk : k ∈ mapKeys (assemble ms).memberMap) (hr : k ∉ (assemble ms).rootNodes) :
    ∃ e ∈ (assemble ms).memberMap, k ∈ e.2.children := by
  obtain ⟨e, he, rfl⟩ := List.mem_map.1 hk
  by_contra hno
  apply hr
  show e.1 ∈ findRoots (assemble ms).memberMap
  rw [mem_findRoots]
  refine ⟨e, he, keyIsId_assemble ms e he, ?_⟩
  rw [mem_usedAsChild]
  exact hno

/-- A record that lists `k` has a smaller rank than `k`. -/
theorem rank_lt_of_lists {ms : List Member} {rank : String → Nat}
    (hrank : ∀ r ∈ ms, ∀ c ∈ childStrs r, rank r.id.toStr < rank c) {p k : String} {n : Node}
    (hp : mapGet (step1 ms) p = some n) (hk : k ∈ n._childIds.getD []) : rank p < rank k := by
  obtain ⟨member, hm, hid, rfl⟩ := step1_get hp
  rw [← hid]
  exact hrank member hm k hk

/-- Every record of the lookup is reached from a root. -/
theorem record_reachable {ms : List Member} (hfresh : Fresh ms) {rank : String → Nat}
    (hrank : ∀ r ∈ ms, ∀ c ∈ childStrs r, rank r.id.toStr < rank c) :
    ∀ (n : Nat) (k : String), rank k = n → k ∈ mapKeys (step1 ms) →
      Reachable (assemble ms) k := by
  intro n
  induction n using Nat.strong_induction_on with
  | _ n ih =>
    intro k hkn hk
    by_cases hroot : k ∈ (assemble ms).rootNodes
    · exact Reachable.root hroot
    · have hkM : k ∈ mapKeys (synthesize ms) := mem_keys_synthesize hk
      have hkF : k ∈ mapKeys (assemble ms).memberMap := by rw [mapKeys_assemble]; exact hkM
      obtain ⟨e, he, hch⟩ := child_of_not_root hkF hroot
      obtain ⟨np, hnp, hres⟩ := mem_assemble he
      have hkin : k ∈ np._childIds.getD [] := by
        rw [hres] at hch
        exact ((mem_resolveIds (synthesize_keyIsId ms)).1 hch).1
      have hgp : mapGet (synthesize ms) e.1 = some np :=
        mapGet_of_mem (synthesize_linkable ms).nodup hnp
      have hchild : k ∈ childrenOf (assemble ms) e.1 := by
        rw [childrenOf_assemble hgp]
        exact (mem_resolveIds (synthesize_keyIsId ms)).2 ⟨hkin, hkM⟩
      rcases mem_synthesize_fresh hfresh hnp with ⟨n0, hg, hup⟩ | ⟨e0, he0, a, b, hd, hu⟩
      · -- the parent is a record
        simp only at hup
        rw [hup] at hkin
        have hwl : k ∈ workList (step1 ms) (step2 (step1 ms)) e.1 (n0._childIds.getD []) := hkin
        rcases mem_workList.1 hwl with ⟨horig, _⟩ | hpush
        · have hlt : rank e.1 < rank k := rank_lt_of_lists hrank hg horig
          have hp := ih (rank e.1) (hkn ▸ hlt) e.1 rfl ((mapGet_isSome_iff _ _).1 ⟨n0, hg⟩)
          exact Reachable.child hp hchild
        · exact absurd hk (hfresh k (pushedTo_subset_units hpush)).1
      · -- the parent is a family unit
        simp only [Prod.mk.injEq] at hu
        have hke : k = e0.1 := by
          rw [hu.2] at hkin
          simpa [familyUnit] using hkin
        have hl : 1 < e0.2.length := by
          by_contra hl
          rw [decision_of_short hl] at hd
          simp at hd
        have hd' := hd
        rw [decision_of_long hl] at hd'
        obtain ⟨ha, _, hga, _, _⟩ := findPair_ids (step1_keyIsId ms) hd'
        obtain ⟨na, hna, hlist⟩ := claimant_lists he0 ha
        have hlt : rank a.id < rank k := by
          rw [hke]
          exact rank_lt_of_lists hrank hna hlist
        have hp := ih (rank a.id) (hkn ▸ hlt) a.id rfl ((mapGet_isSome_iff _ _).1 ⟨a, hga⟩)
        have hunder := unit_under_parent hfresh he0 hd
        rw [← hu.1] at hunder
        exact Reachable.child (Reachable.child hp hunder) hchild

/-- C23: forest coverage.  For every input with pairwise distinct record ids whose
child edges are acyclic and in which no record id and no child id equals a generated
family-unit id, every node of the lookup returned by `buildTree`, record or family
unit, is reached from an element of `rootNodes` by following `children`.  On the
cyclic input `exCycle` (`A` lists `B` and `B` lists `A`) `rootNodes` is empty and no
node is reached. -/
theorem forest_coverage :
    (∀ (ms : List Member) (f : Forest), buildTree (some ms) = some f →
      (ms.map (fun r => r.id.toStr)).Nodup → Fresh ms → Acyclic ms →
      ∀ k ∈ mapKeys f.memberMap, Reachable f k) ∧
    ∃ f, buildTree (some exCycle) = some f ∧ f.rootNodes = [] ∧
      mapKeys f.memberMap = ["A", "B"] ∧ ∀ k, ¬ Reachable f k := by
  constructor
  · intro ms f hb _ hfresh hacyc k hk
    obtain ⟨_, rfl⟩ := buildTree_some hb
    obtain ⟨rank, hrank⟩ := hacyc
    obtain ⟨e, he, rfl⟩ := List.mem_map.1 hk
    obtain ⟨n, hn, _⟩ := mem_assemble he
    rcases mem_synthesize_fresh hfresh hn with ⟨n0, hg, _⟩ | ⟨e0, he0, a, b, hd, hu⟩
    · exact record_reachable hfresh hrank _ e.1 rfl ((mapGet_isSome_iff _ _).1 ⟨n0, hg⟩)
    · simp only [Prod.mk.injEq] at hu
      have hl : 1 < e0.2.length := by
        by_contra hl
        rw [decision_of_short hl] at hd
        simp at hd
      have hd' := hd
      rw [decision_of_long hl] at hd'
      obtain ⟨_, _, hga, _, _⟩ := findPair_ids (step1_keyIsId ms) hd'
      have hp := record_reachable hfresh hrank _ a.id rfl ((mapGet_isSome_iff _ _).1 ⟨a, hga⟩)
      have hunder := unit_under_parent hfresh he0 hd
      rw [← hu.1] at hunder
      exact Reachable.child hp hunder
  · refine ⟨assemble exCycle, rfl, by decide, by decide, ?_⟩
    intro k hk
    have hroots : (assemble exCycle).rootNodes = [] := by decide
    induction hk with
    | root h => rw [hroots] at h; simp at h
    | child _ _ ih => exact ih

/-- C23, witness: in `exCouple` the ids rank `1`, `2` below `3`; the four nodes `1`,
`2`, `3` and `family-2-1-3` are reached from the roots `1` and `2`. -/
theorem forest_coverage_witness :
    (assemble exCouple).rootNodes = ["1", "2"] ∧
      mapKeys (assemble exCouple).memberMap = ["1", "2", "3", "family-2-1-3"] ∧
      ∀ k ∈ mapKeys (assemble exCouple).memberMap, Reachable (assemble exCouple) k :=
  ⟨by decide, by decide,
    forest_coverage.1 exCouple (assemble exCouple) rfl (by decide) (by decide)
      ⟨fun s => if s = "3" then 1 else 0, by decide⟩⟩

/-! ### Single placement under the stated conditions -/

theorem two_of_short {ps : List String} (hlen : ps.length ≤ 2) {u v : String}
    (hu : u ∈ ps) (hv : v ∈ ps) (huv : u ≠ v) :
    (∀ z ∈ ps, z = u ∨ z = v) ∧ (u ∈ ps.tail ∨ v ∈ ps.tail) ∧ 1 < ps.length := by
  match ps, hlen with
  | [], _ => simp at hu
  | [x], _ =>
    simp only [List.mem_singleton] at hu hv
    exact absurd (hu.trans hv.symm) huv
  | [x, y], _ =>
    simp only [List.mem_cons, List.mem_singleton, List.not_mem_nil, or_false] at hu hv
    refine ⟨?_, ?_, by simp⟩
    · intro z hz
      simp only [List.mem_cons, List.mem_singleton, List.not_mem_nil, or_false] at hz
      rcases hu with rfl | rfl <;> rcases hv with rfl | rfl <;> rcases hz with rfl | rfl <;>
        first
        | exact Or.inl rfl
        | exact Or.inr rfl
        | exact absurd rfl huv
    · simp only [List.tail_cons, List.mem_singleton]
      rcases hu with rfl | rfl <;> rcases hv with rfl | rfl <;>
        first
        | exact Or.inl rfl
        | exact Or.inr rfl
        | exact absurd rfl huv
  | _ :: _ :: _ :: _, h => simp at h

/-- The two objects of a pair found in the registry are different when no record is
its own spouse. -/
theorem pair_distinct {ms : List Member}
    (hself : ∀ r ∈ ms, spouseKey (mkNode r) ≠ some r.id.toStr) {ps : List String} {a b : Node}
    (hp : findPair (step1 ms) ps ps = some (a, b)) : a.id ≠ b.id := by
  obtain ⟨_, _, hga, _, hs⟩ := findPair_ids (step1_keyIsId ms) hp
  obtain ⟨member, hm, hid, rfl⟩ := step1_get hga
  intro heq
  apply hself member hm
  rw [hs, ← heq]
  rfl

/-- With at most two claimants and no record its own spouse, a pair found for a child
takes the child from every claimant. -/
theorem removes_of_pair {ms : List Member}
    (hself : ∀ r ∈ ms, spouseKey (mkNode r) ≠ some r.id.toStr) {e : String × List String}
    (hlen : e.2.length ≤ 2) {a b : Node} (hd : decision (step1 ms) e = some (a, b))
    {p : String} (hp : p ∈ e.2) : removes (step1 ms) e p = true := by
  have hl : 1 < e.2.length := by
    by_contra hl
    rw [decision_of_short hl] at hd
    simp at hd
  have hd' := hd
  rw [decision_of_long hl] at hd'
  obtain ⟨ha, hb, _, _, _⟩ := findPair_ids (step1_keyIsId ms) hd'
  have hne := pair_distinct hself hd'
  rcases (two_of_short hlen ha hb hne).1 p hp with h | h <;>
    · unfold removes
      rw [hd]
      simp [h]

/-- With at most two claimants and no record its own spouse, of two different
claimants of a child one loses it. -/
theorem removes_one_of_two {ms : List Member}
    (hself : ∀ r ∈ ms, spouseKey (mkNode r) ≠ some r.id.toStr) {e : String × List String}
    (hlen : e.2.length ≤ 2) {p q : String} (hp : p ∈ e.2) (hq : q ∈ e.2) (hpq : p ≠ q) :
    removes (step1 ms) e p = true ∨ removes (step1 ms) e q = true := by
  obtain ⟨_, htail, hl⟩ := two_of_short hlen hp hq hpq
  cases hd : decision (step1 ms) e with
  | some ab =>
    obtain ⟨a, b⟩ := ab
    exact Or.inl (removes_of_pair hself hlen hd hp)
  | none =>
    rcases htail with h | h
    · left
      unfold removes
      rw [hd]
      simp [hl, h]
    · right
      unfold removes
      rw [hd]
      simp [hl, h]

/-- A record that lists `x` is in the claim list of `x`. -/
theorem lister_in_entry {ms : List Member} {p x : String} {n : Node}
    (hp : mapGet (step1 ms) p = some n) (hx : x ∈ n._childIds.getD []) :
    ∃ e ∈ step2 (step1 ms), e.1 = x ∧ p ∈ e.2 := by
  have hmem : (p, n) ∈ step1 ms := mem_of_mapGet hp
  have hkey : x ∈ mapKeys (step2 (step1 ms)) := mem_keys_step2 hmem hx
  obtain ⟨e, he, hk⟩ := List.mem_map.1 hkey
  refine ⟨e, he, hk, ?_⟩
  rw [(step2_mem he).1, hk]
  exact mem_claimList.2 ⟨(p, n), hmem, step1_keyIsId ms (p, n) hmem, hx⟩

theorem pushedTo_sublist (m0 : List (String × Node)) (q : String) :
    ∀ done : List (String × List String),
      (pushedTo m0 done q).Sublist (mapKeys (unitPart m0 done)) := by
  intro done
  induction done with
  | nil => simp [pushedTo, unitPart, mapKeys]
  | cons e done ih =>
    unfold pushedTo unitPart at *
    rw [List.filterMap_cons, List.filterMap_cons]
    unfold pushOf plannedUnit
    cases hd : decision m0 e with
    | none => simpa using ih
    | some ab =>
      simp only [Option.map_some', mapKeys_cons]
      by_cases hq : ab.1.id = q
      · simp only [hq, if_true]
        exact List.Sublist.cons₂ _ ih
      · simp only [hq, if_false]
        exact List.Sublist.cons _ ih

/-- C22, as stated, fails on `exHyphen`: the record ids are distinct, no record is its
own spouse, every child is listed by two records, once each, and the generated id
`family-p-q-p-s` is no record id and no child id; but it is generated twice, for the
couple `p-q`, `p` and for the couple `p`, `q`, and the one family unit under that id is
a child of both attachment parents `p-q` and `p`. -/
theorem conditional_placement_counterexample :
    (exHyphen.map (fun r => r.id.toStr)).Nodup ∧
    (∀ r ∈ exHyphen, spouseKey (mkNode r) ≠ some r.id.toStr) ∧
    (∀ e ∈ step2 (step1 exHyphen), e.2.length ≤ 2) ∧
    (∀ r ∈ exHyphen, (childStrs r).Nodup) ∧
    Fresh exHyphen ∧
    (buildTree (some exHyphen)).map (fun f => (childrenOf f "p-q", childrenOf f "p")) =
      some (["family-p-q-p-s"], ["family-p-q-p-s"]) := by
  decide

/-- C22 (amended): conditional single placement.  For every input with pairwise
distinct record ids in which no record is its own spouse, every child id has at most
two claim entries and is listed at most once per record, and no generated family-unit
id equals a record id, a child id or another generated family-unit id: in the result
of `buildTree` no node id is in the children of two different nodes, and no node id is
twice in the children of one node. -/
theorem conditional_single_placement (ms : List Member) (f : Forest)
    (hb : buildTree (some ms) = some f) (hclash : NoClash ms)
    (_hnd : (ms.map (fun r => r.id.toStr)).Nodup)
    (hself : ∀ r ∈ ms, spouseKey (mkNode r) ≠ some r.id.toStr)
    (htwo : ∀ e ∈ step2 (step1 ms), e.2.length ≤ 2)
    (honce : ∀ r ∈ ms, (childStrs r).Nodup) :
    (∀ p q x, x ∈ childrenOf f p → x ∈ childrenOf f q → p = q) ∧
      ∀ p, (childrenOf f p).Nodup := by
  obtain ⟨_, rfl⟩ := buildTree_some hb
  have hfresh := fresh_of_noClash hclash
  constructor
  · -- no node under two parents
    have hrec_unit : ∀ (p : String) (n : Node) (e : String × List String) (a b : Node),
        mapGet (step1 ms) p = some n →
        e.1 ∈ workList (step1 ms) (step2 (step1 ms)) p (n._childIds.getD []) →
        e ∈ step2 (step1 ms) → decision (step1 ms) e = some (a, b) → False := by
      intro p n e a b hn hw he hd
      rcases mem_workList.1 hw with ⟨horig, hrem⟩ | hpush
      · obtain ⟨e', he', hk, hpe⟩ := lister_in_entry hn horig
        have := entry_unique he he' hk
        subst this
        rw [removedBy_entry he, removes_of_pair hself (htwo _ he) hd hpe] at hrem
        simp at hrem
      · exact not_pushed_of_child hclash (List.mem_map.2 ⟨e, he, rfl⟩) hpush
    intro p q x hp hq
    rcases mem_childrenOf_cases hclash hp with ⟨n, hn, hw⟩ | ⟨e, he, a, b, hd, hpe, hxe⟩ <;>
      rcases mem_childrenOf_cases hclash hq with ⟨n', hn', hw'⟩ | ⟨e', he', a', b', hd', hqe, hxe'⟩
    · rcases mem_workList.1 hw with ⟨horig, hrem⟩ | hpush <;>
        rcases mem_workList.1 hw' with ⟨horig', hrem'⟩ | hpush'
      · by_contra hpq
        obtain ⟨e, he, hk, hpe⟩ := lister_in_entry hn horig
        obtain ⟨e', he', hk', hqe⟩ := lister_in_entry hn' horig'
        have := entry_unique he he' (hk'.trans hk.symm)
        subst this
        subst hk
        rw [removedBy_entry he] at hrem hrem'
        rcases removes_one_of_two hself (htwo _ he) hpe hqe hpq with h | h
        · rw [h] at hrem; simp at hrem
        · rw [h] at hrem'; simp at hrem'
      · exfalso
        have : x ∈ mapKeys (step2 (step1 ms)) := mem_keys_step2 (mem_of_mapGet hn) horig
        exact not_pushed_of_child hclash this hpush'
      · exfalso
        have : x ∈ mapKeys (step2 (step1 ms)) := mem_keys_step2 (mem_of_mapGet hn') horig'
        exact not_pushed_of_child hclash this hpush
      · obtain ⟨e, he, a, b, hd, ha, hg⟩ := mem_pushedTo hpush
        obtain ⟨e', he', a', b', hd', ha', hg'⟩ := mem_pushedTo hpush'
        have := unit_entry_unique hclash he he' hd hd' (hg.symm.trans hg')
        subst this
        rw [hd] at hd'
        simp only [Option.some.injEq, Prod.mk.injEq] at hd'
        rw [← ha, ← ha', hd'.1]
    · exfalso
      subst hxe'
      exact hrec_unit p n e' a' b' hn hw he' hd'
    · exfalso
      subst hxe
      exact hrec_unit q n' e a b hn' hw' he hd
    · have := entry_unique he he' (hxe'.symm.trans hxe)
      subst this
      rw [hd] at hd'
      simp only [Option.some.injEq, Prod.mk.injEq] at hd'
      rw [hpe, hqe, hd'.1, hd'.2]
  · -- no node twice under one parent
    intro p
    cases hg : mapGet (synthesize ms) p with
    | none =>
      unfold childrenOf
      rw [mapGet_assemble, hg]
      simp
    | some n =>
      rw [childrenOf_assemble hg, resolveIds_eq_filter (synthesize_keyIsId ms)]
      apply List.Nodup.filter
      rcases mem_synthesize_fresh hfresh (mem_of_mapGet hg) with ⟨n0, hn0, hup⟩ |
        ⟨e, _, a, b, _, hu⟩
      · simp only at hup
        rw [hup]
        show (workList (step1 ms) (step2 (step1 ms)) p (n0._childIds.getD [])).Nodup
        unfold workList
        refine List.Nodup.append ?_ ?_ ?_
        · apply List.Nodup.filter
          obtain ⟨member, hm, _, rfl⟩ := step1_get hn0
          exact honce member hm
        · exact List.Nodup.sublist (pushedTo_sublist _ _ _) hclash.1
        · intro x hx hx'
          have hx0 := (List.mem_filter.1 hx).1
          have : x ∈ mapKeys (step2 (step1 ms)) := mem_keys_step2 (mem_of_mapGet hn0) hx0
          exact not_pushed_of_child hclash this hx'
      · simp only [Prod.mk.injEq] at hu
        rw [hu.2]
        simp [familyUnit]

/-- C22, witness: `exTwoKids`, a couple with two children; each child is under its
own family unit only, and both units are under `a` only. -/
theorem conditional_single_placement_witness :
    NoClash exTwoKids ∧
      (assemble exTwoKids).memberMap.map (fun e => (e.1, e.2.children)) =
        [("a", ["family-a-b-c", "family-a-b-d"]), ("b", []), ("c", []), ("d", []),
          ("family-a-b-c", ["c"]), ("family-a-b-d", ["d"])] ∧
      (∀ p q x, x ∈ childrenOf (assemble exTwoKids) p → x ∈ childrenOf (assemble exTwoKids) q →
        p = q) ∧
      ∀ p, (childrenOf (assemble exTwoKids) p).Nodup :=
  ⟨by decide, by decide,
    conditional_single_placement exTwoKids (assemble exTwoKids) rfl (by decide) (by decide)
      (by decide) (by decide) (by decide)⟩

/-! ### The order of the children of a record -/

/-- C24, as stated, fails on `exUnitChild`: two family units are attached to the
record `a`, `family-a-b-d` for the child `d` and `family-a-b-family-a-b-d` for the listed
id `family-a-b-d`; the filter of the second iteration takes the first unit from the
working list of `a`, whose children are the second unit alone. -/
theorem children_order_counterexample :
    (buildTree (some exUnitChild)).map
      (fun f => (f.memberMap.filterMap (fun e => e.2.spouses.map (fun s => (e.1, s))),
        childrenOf f "a")) =
      some ([("family-a-b-d", ("a", "b")), ("family-a-b-family-a-b-d", ("a", "b"))],
        ["family-a-b-family-a-b-d"]) := by
  decide

/-- C24 (amended): children order.  When no generated family-unit id equals a record
id, a child id or another generated id: the resolved children of a record `q` are
first the ids of its original child list that synthesis has not removed and that are
registry ids, in their original order, followed by the family units pushed on its
working list, in the order of their triggering children in the index (the order in
which the child ids first occur in the scan of the registry); each of these is the
family unit of a pair whose attachment parent is `q`. -/
theorem children_order (ms : List Member) (f : Forest) (q : String) (n : Node)
    (hb : buildTree (some ms) = some f) (hclash : NoClash ms)
    (hq : mapGet (step1 ms) q = some n) :
    childrenOf f q =
        (n._childIds.getD []).filter
          (fun x => !removedBy (step1 ms) (step2 (step1 ms)) q x &&
            decide (x ∈ mapKeys (step1 ms))) ++
        (step2 (step1 ms)).filterMap (fun e => pushOf (step1 ms) e q) ∧
      ∀ g ∈ (step2 (step1 ms)).filterMap (fun e => pushOf (step1 ms) e q),
        ∃ e ∈ step2 (step1 ms), ∃ a b, decision (step1 ms) e = some (a, b) ∧ a.id = q ∧
          g = familyId a b e.1 ∧
          mapGet f.memberMap g = some (resolved (synthesize ms) (familyUnit a b e.1)) := by
  obtain ⟨_, rfl⟩ := buildTree_some hb
  have hunits : ∀ g ∈ pushedTo (step1 ms) (step2 (step1 ms)) q,
      ∃ e ∈ step2 (step1 ms), ∃ a b, decision (step1 ms) e = some (a, b) ∧ a.id = q ∧
        g = familyId a b e.1 ∧
        mapGet (assemble ms).memberMap g =
          some (resolved (synthesize ms) (familyUnit a b e.1)) := by
    intro g hg
    obtain ⟨e, he, a, b, hd, ha, hge⟩ := mem_pushedTo hg
    refine ⟨e, he, a, b, hd, ha, hge, ?_⟩
    rw [mapGet_assemble, hge, mapGet_synthesize_unit hclash he hd]
    rfl
  refine ⟨?_, hunits⟩
  rw [childrenOf_assemble (mapGet_synthesize_record hclash hq),
    resolveIds_eq_filter (synthesize_keyIsId ms)]
  show (workList (step1 ms) (step2 (step1 ms)) q (n._childIds.getD [])).filter _ = _
  unfold workList
  rw [List.filter_append, List.filter_filter]
  congr 1
  · apply List.filter_congr
    intro x hx
    have hxk : x ∈ mapKeys (step2 (step1 ms)) := mem_keys_step2 (mem_of_mapGet hq) hx
    have hiff : x ∈ mapKeys (synthesize ms) ↔ x ∈ mapKeys (step1 ms) := by
      rw [synthesize_eq hclash, mapKeys_append, mapKeys_recordPart, List.mem_append]
      constructor
      · rintro (h | h)
        · exact h
        · exact absurd hxk (hclash.2 x h).2
      · exact Or.inl
    rw [Bool.and_comm]
    congr 1
    exact decide_eq_decide.2 hiff
  · show (pushedTo (step1 ms) (step2 (step1 ms)) q).filter _ =
      pushedTo (step1 ms) (step2 (step1 ms)) q
    rw [List.filter_eq_self]
    intro g hg
    obtain ⟨e, he, a, b, hd, _, hge, _⟩ := hunits g hg
    simp only [decide_eq_true_eq]
    apply (mapGet_isSome_iff _ _).1
    exact ⟨_, hge ▸ mapGet_synthesize_unit hclash he hd⟩

/-- C24, witness: in `exAppend` the record `a` lists the shared child `c` before its
own child `k`; its children are `k`, then the family unit of `c`. -/
theorem children_order_witness :
    NoClash exAppend ∧ childrenOf (assemble exAppend) "a" = ["k", "family-a-b-c"] ∧
      (childrenOf (assemble exAppend) "a" =
        ((mkNode (record "a" (some "b") ["c", "k"]))._childIds.getD []).filter
          (fun x => !removedBy (step1 exAppend) (step2 (step1 exAppend)) "a" x &&
            decide (x ∈ mapKeys (step1 exAppend))) ++
        (step2 (step1 exAppend)).filterMap (fun e => pushOf (step1 exAppend) e "a") ∧
      ∀ g ∈ (step2 (step1 exAppend)).filterMap (fun e => pushOf (step1 exAppend) e "a"),
        ∃ e ∈ step2 (step1 exAppend), ∃ a b, decision (step1 exAppend) e = some (a, b) ∧
          a.id = "a" ∧ g = familyId a b e.1 ∧
          mapGet (assemble exAppend).memberMap g =
            some (resolved (synthesize exAppend) (familyUnit a b e.1))) :=
  ⟨by decide, by decide,
    children_order exAppend (assemble exAppend) "a" (mkNode (record "a" (some "b") ["c", "k"]))
      rfl (by decide) (by decide)⟩

/-! ### The lookups of the pair search -/

/-- C30, as stated, fails on `exShadow`: when the claim list of `X` is handled, its
parent id `family-2-1-3` resolves to the family unit allocated for the child `3`, which
has taken the place of the record with that id. -/
theorem lookup_counterexample :
    step2 (step1 exShadow) =
      [("3", ["1", "2"])] ++ ("X", ["family-2-1-3", "Q"]) :: [] ∧
    (mapGet (step3 (step1 exShadow) [("3", ["1", "2"])]) "family-2-1-3").bind Node.nodeType =
      some "family-unit" := by
  decide

/-- C30 (amended): lookups in synthesis never miss.  For every input and every entry
of the index, in the lookup as it is when step 3 handles that entry, every parent id of
the claim list resolves to a node, and whenever the spouse id of a parent is in the
claim list it resolves too: the skip for a parent that is not found and the failing
side of the test of the spouse are not reached.  The node found is a record copy when
no record id and no child id equals a generated family-unit id. -/
theorem lookups_never_miss (ms : List Member) (pre post : List (String × List String))
    (e : String × List String) (hidx : step2 (step1 ms) = pre ++ e :: post) :
    (∀ pid ∈ e.2, ∃ pA, mapGet (step3 (step1 ms) pre) pid = some pA) ∧
      (∀ pid ∈ e.2, ∀ pA, mapGet (step3 (step1 ms) pre) pid = some pA →
        ∀ s, spouseKey pA = some s → s ∈ e.2 →
          ∃ pB, mapGet (step3 (step1 ms) pre) s = some pB) ∧
      (Fresh ms → ∀ pid ∈ e.2,
        ∃ pA, mapGet (step3 (step1 ms) pre) pid = some pA ∧ pA.nodeType = none) := by
  have he : e ∈ step2 (step1 ms) := by rw [hidx]; simp
  have hreg : ∀ pid ∈ e.2, pid ∈ mapKeys (step1 ms) := parents_registered he
  have hfound : ∀ pid ∈ e.2, ∃ pA, mapGet (step3 (step1 ms) pre) pid = some pA := by
    intro pid hp
    exact (mapGet_isSome_iff _ _).2 (step3_keys (hreg pid hp) pre)
  refine ⟨hfound, ?_, ?_⟩
  · intro _ _ _ _ s _ hs
    exact hfound s hs
  · intro hfresh pid hp
    obtain ⟨n0, hn0⟩ := (mapGet_isSome_iff _ _).2 (hreg pid hp)
    refine ⟨updated (step1 ms) pre pid n0, ?_, ?_⟩
    · rw [step3_tidy (tidy_of_fresh hfresh) pre (e :: post) hidx,
        mapGet_current _ _ (hreg pid hp), hn0]
      rfl
    · show n0.nodeType = none
      exact step1_nodeType hn0

/-- C30, witness: in `exCouple` the claim list of `3` is handled first; its parents
`1` and `2` resolve to their record copies. -/
theorem lookups_never_miss_witness :
    step2 (step1 exCouple) = [] ++ ("3", ["1", "2"]) :: [] ∧
      (∀ pid ∈ ["1", "2"], ∃ pA, mapGet (step3 (step1 exCouple) []) pid = some pA) ∧
      (∀ pid ∈ ["1", "2"], ∀ pA, mapGet (step3 (step1 exCouple) []) pid = some pA →
        ∀ s, spouseKey pA = some s → s ∈ ["1", "2"] →
          ∃ pB, mapGet (step3 (step1 exCouple) []) s = some pB) ∧
      (Fresh exCouple → ∀ pid ∈ ["1", "2"],
        ∃ pA, mapGet (step3 (step1 exCouple) []) pid = some pA ∧ pA.nodeType = none) :=
  ⟨by decide, lookups_never_miss exCouple [] [] ("3", ["1", "2"]) (by decide)⟩

/-! ### The shape of a family unit -/

/-- C3, as stated, fails on `exUnitChild`: the couple `a`, `b` lists the child `d` and
the id `family-a-b-d`, which is the id of no record; the family unit created for that
listed id, `family-a-b-family-a-b-d`, has one child all the same, the family unit
`family-a-b-d` of the child `d`. -/
theorem family_unit_shape_counterexample :
    "family-a-b-d" ∉ mapKeys (step1 exUnitChild) ∧
    "family-a-b-d" ∉ exUnitChild.map (fun r => r.id.toStr) ∧
    mapGet (step2 (step1 exUnitChild)) "family-a-b-d" = some ["a", "b"] ∧
    (buildTree (some exUnitChild)).map
      (fun f => (mapGet f.memberMap "family-a-b-family-a-b-d").map
        (fun u => (u.nodeType, u.spouses, u.children))) =
      some (some (some "family-unit", some ("a", "b"), ["family-a-b-d"])) ∧
    (buildTree (some exUnitChild)).map
      (fun f => (mapGet f.memberMap "family-a-b-d").bind Node.nodeType) =
      some (some "family-unit") := by
  decide

/-- C3 (amended): family-unit shape.  Every family unit of the forest was allocated by
the iteration of step 3 for some entry `(c, ps)` of the index with more than one
parent, from the pair `(a, b)` found in the lookup at that moment; it is registered
under its id `family-` a.id `-` b.id `-` c, its name is a.name ` & ` b.name, its
`spouses` are `a` then `b`, and its children are `[c]` when `c` is the id of a node of
the returned lookup, record or family unit, and empty otherwise: never more than one
child.  When no record id and no child id equals a generated family-unit id, `c` is
the id of a node of the lookup exactly when it is a registry id, and the child is the
record with id `c`. -/
theorem family_unit_shape (ms : List Member) (f : Forest) (key : String) (n : Node)
    (hb : buildTree (some ms) = some f) (hn : mapGet f.memberMap key = some n)
    (hfu : n.nodeType = some "family-unit") :
    ∃ pre c ps post a b, step2 (step1 ms) = pre ++ (c, ps) :: post ∧ 1 < ps.length ∧
      findPair (step3 (step1 ms) pre) ps ps = some (a, b) ∧
      n.id = key ∧ n.id = "family-" ++ a.id ++ "-" ++ b.id ++ "-" ++ c ∧
      n.name = .str (a.name.toStr ++ " & " ++ b.name.toStr) ∧
      n.spouses = some (a.id, b.id) ∧
      n.children = (if c ∈ mapKeys f.memberMap then [c] else []) ∧
      n.children.length ≤ 1 ∧
      (Fresh ms → (c ∈ mapKeys f.memberMap ↔ c ∈ mapKeys (step1 ms)) ∧
        ∀ x ∈ n.children, (mapGet f.memberMap x).bind Node.nodeType = none) := by
  obtain ⟨_, rfl⟩ := buildTree_some hb
  rw [mapGet_assemble] at hn
  cases hg : mapGet (synthesize ms) key with
  | none => rw [hg] at hn; simp at hn
  | some n3 =>
    rw [hg] at hn
    simp only [Option.map_some', Option.some.injEq] at hn
    subst hn
    have hshape : Shape (step1 ms) (step2 (step1 ms)) key n3 :=
      step3_shape (step1_allNodes ms) _ (step2_nodup _) key n3 hg
    rcases hshape.2.2 with h' | h'
    · have : n3.nodeType = some "family-unit" := hfu
      rw [h'.1] at this
      simp at this
    · obtain ⟨pre, c, ps, post, a, b, hd, h1, h2, h3⟩ := h'
      have hch : (resolved (synthesize ms) n3).children =
          (if c ∈ mapKeys (assemble ms).memberMap then [c] else []) := by
        rw [mapKeys_assemble, h3]
        show resolveIds (synthesize ms) [c] = _
        rw [resolveIds_eq_filter (synthesize_keyIsId ms)]
        by_cases hc : c ∈ mapKeys (synthesize ms) <;> simp [List.filter, hc]
      have hcidx : c ∈ mapKeys (step2 (step1 ms)) := by
        rw [hd]
        simp [mapKeys]
      have hiff : Fresh ms →
          (c ∈ mapKeys (assemble ms).memberMap ↔ c ∈ mapKeys (step1 ms)) := by
        intro hfresh
        rw [mapKeys_assemble, synthesize_fresh hfresh, mapKeys_append, mapKeys_recordPart,
          List.mem_append]
        constructor
        · rintro (h | h)
          · exact h
          · exact absurd hcidx (hfresh c ((mem_mapKeys_unitMap _ _ c).1 h)).2
        · exact Or.inl
      refine ⟨pre, c, ps, post, a, b, hd, h1, h2, hshape.1, ?_, ?_, ?_, hch, ?_, ?_⟩
      · rw [h3]; rfl
      · rw [h3]; rfl
      · rw [h3]; rfl
      · rw [hch]
        split <;> simp
      · intro hfresh
        refine ⟨hiff hfresh, ?_⟩
        intro x hx
        rw [hch] at hx
        by_cases hc : c ∈ mapKeys (assemble ms).memberMap
        · rw [if_pos hc] at hx
          have hxc : x = c := by simpa using hx
          subst hxc
          obtain ⟨n0, hn0⟩ := (mapGet_isSome_iff _ _).2 ((hiff hfresh).1 hc)
          rw [mapGet_assemble, mapGet_synthesize_fresh hfresh hn0]
          show n0.nodeType = none
          exact step1_nodeType hn0
        · rw [if_neg hc] at hx
          simp at hx

/-- C3, witness: the records `1 {children: [3]}`, `2 {spouseId: 1, children: [3]}`,
`3` give exactly one family unit, `family-2-1-3`, with spouses `2` then `1` and the
single child `3`, a record. -/
theorem family_unit_shape_witness :
    (assemble exCouple).memberMap.filter (fun e => e.2.nodeType = some "family-unit") =
      [("family-2-1-3",
        { id := "family-2-1-3", name := .str "undefined & undefined", spouseId := .undefined,
          nodeType := some "family-unit", spouses := some ("2", "1"), children := ["3"],
          _childIds := none })] ∧
    Fresh exCouple ∧
    ∃ pre c ps post a b, step2 (step1 exCouple) = pre ++ (c, ps) :: post ∧ 1 < ps.length ∧
      findPair (step3 (step1 exCouple) pre) ps ps = some (a, b) ∧
      "family-2-1-3" = "family-2-1-3" ∧
      "family-2-1-3" = "family-" ++ a.id ++ "-" ++ b.id ++ "-" ++ c ∧
      JsVal.str "undefined & undefined" = .str (a.name.toStr ++ " & " ++ b.name.toStr) ∧
      some ("2", "1") = some (a.id, b.id) ∧
      ["3"] = (if c ∈ mapKeys (assemble exCouple).memberMap then [c] else []) ∧
      ["3"].length ≤ 1 ∧
      (Fresh exCouple →
        (c ∈ mapKeys (assemble exCouple).memberMap ↔ c ∈ mapKeys (step1 exCouple)) ∧
        ∀ x ∈ ["3"], (mapGet (assemble exCouple).memberMap x).bind Node.nodeType = none) :=
  ⟨by decide, by decide,
    family_unit_shape exCouple (assemble exCouple) "family-2-1-3"
      { id := "family-2-1-3", name := .str "undefined & undefined", spouseId := .undefined,
        nodeType := some "family-unit", spouses := some ("2", "1"), children := ["3"],
        _childIds := none }
      (by decide) (by decide) (by decide)⟩

end KoderoTree
